import Mathlib

/-!
The secp256k1 `num` type on the GMP back end: a shallow embedding of `src/num_gmp_impl.h`.

The number type of `num_gmp_impl.h` is a sign-magnitude integer: an array
`data` of limbs (least significant first), a count `limbs` of the limbs in
use and a flag `neg`.  The functions of the file are thin wrappers around
the `mpn_*` layer of GMP.

Conventions of the embedding.

* `W` is `GMP_NUMB_BITS` (bits per limb) and `NL` is `NUM_LIMBS`; both come
  from headers outside the file and are parameters here.  The capacity of a
  number is `2 * NL` limbs, the bound the file itself checks before it grows
  a number (`VERIFY_CHECK(r->limbs < 2*NUM_LIMBS)`).
* A number is the list of its `limbs` limbs in use plus the flag, so
  `a->limbs` is `a.data.length`.  On a number with at least one limb the
  functions embedded here only read cells of `data` below `limbs`; the read
  of `data[0]` on a number with `limbs = 0` is taken to give `0`.
* `neg` only ever holds `0` or `1` (it is assigned `0`, a comparison, or an
  xor of flags) and is a `Bool`.
* A failed `VERIFY_CHECK`, or a call of a GMP function outside its
  documented domain, is the result `none`.
* An `int` that carries a value (the argument of `secp256k1_num_set_int`, the
  result of `secp256k1_num_shift`) is a 32-bit two's complement integer;
  limb counts, bit counts and bit positions, which stay far below `INT_MAX`,
  are natural numbers.
* The `mpn_*` functions are external (GMP).  They are modelled by the
  contract the GMP manual documents for them, on the integer a limb
  sequence denotes; where the manual leaves a limb or digit count open
  (`mpn_set_str`, `mpn_get_str` on power-of-two bases) the model follows the
  behaviour of GMP's generic implementation, as it does for `mpn_gcdext` on
  `U = 0`, where the implementation stops on an assertion.
-/

namespace Secp256k1Num

/-! ## Limb sequences -/

/-- The integer denoted by the limb sequence `{p, n}`, least significant limb first. -/
def limbsVal (W : Nat) : List Nat → Nat
  | [] => 0
  | x :: t => x + 2 ^ W * limbsVal W t

/-- The `n` least significant limbs of `v`. -/
def toLimbs (W : Nat) : Nat → Nat → List Nat
  | 0, _ => []
  | n + 1, v => v % 2 ^ W :: toLimbs W n (v / 2 ^ W)

/-- The loop `while (limbs > 1 && data[limbs-1] == 0) limbs--`, on the limbs listed
most significant first. -/
def trimMsb : List Nat → List Nat
  | x :: y :: t => if x = 0 then trimMsb (y :: t) else x :: y :: t
  | l => l

/-- The loop `while (r->limbs > 1 && r->data[r->limbs-1]==0) r->limbs--`. -/
def trim (l : List Nat) : List Nat := (trimMsb l.reverse).reverse

/-- The single-step form `if (r->limbs > 1 && r->data[r->limbs-1]==0) r->limbs--`. -/
def trimOnce (l : List Nat) : List Nat :=
  if 1 < l.length ∧ l.getLastD 0 = 0 then l.dropLast else l

/-- GMP's `MPN_NORMALIZE`: drop every high zero limb (the count may reach 0). -/
def mpn_normalize (l : List Nat) : List Nat := (l.reverse.dropWhile (· == 0)).reverse

/-! ## The GMP `mpn` layer, by its documented contract -/

/-- GMP `mpn_add (rp, s1p, s1n, s2p, s2n)`: adds `{s1p, s1n}` and `{s2p, s2n}`, writes the
`s1n` least significant limbs of the sum and returns the carry; requires `s1n ≥ s2n`. -/
def mpn_add (W : Nat) (s1 s2 : List Nat) : Option (List Nat × Nat) :=
  if s2.length ≤ s1.length then
    some (toLimbs W s1.length (limbsVal W s1 + limbsVal W s2),
          (limbsVal W s1 + limbsVal W s2) / (2 ^ W) ^ s1.length)
  else none

/-- GMP `mpn_add_1 (rp, s1p, n, s2limb)`: adds a single limb, returns the carry. -/
def mpn_add_1 (W : Nat) (s1 : List Nat) (s2limb : Nat) : List Nat × Nat :=
  (toLimbs W s1.length (limbsVal W s1 + s2limb), (limbsVal W s1 + s2limb) / (2 ^ W) ^ s1.length)

/-- GMP `mpn_sub (rp, s1p, s1n, s2p, s2n)`: subtracts `{s2p, s2n}` from `{s1p, s1n}`, writes
the `s1n` least significant limbs of the difference (modulo `2^(W*s1n)`) and returns the
borrow; requires `s1n ≥ s2n`. -/
def mpn_sub (W : Nat) (s1 s2 : List Nat) : Option (List Nat × Nat) :=
  if s2.length ≤ s1.length then
    if limbsVal W s2 ≤ limbsVal W s1 then
      some (toLimbs W s1.length (limbsVal W s1 - limbsVal W s2), 0)
    else
      some (toLimbs W s1.length
              ((2 ^ W) ^ s1.length - (limbsVal W s2 - limbsVal W s1) % (2 ^ W) ^ s1.length), 1)
  else none

/-- GMP `mpn_mul (rp, s1p, s1n, s2p, s2n)`: the full `s1n + s2n` limb product, written even
when its most significant limb is zero; requires `s1n ≥ s2n ≥ 1`. -/
def mpn_mul (W : Nat) (s1 s2 : List Nat) : Option (List Nat) :=
  if s2.length ≤ s1.length ∧ 1 ≤ s2.length then
    some (toLimbs W (s1.length + s2.length) (limbsVal W s1 * limbsVal W s2))
  else none

/-- GMP `mpn_tdiv_qr (qp, rp, 0, np, nn, dp, dn)`: quotient (rounded towards 0) in
`nn - dn + 1` limbs and remainder in `dn` limbs; requires `nn ≥ dn ≥ 1` and a non-zero most
significant limb of the divisor. -/
def mpn_tdiv_qr (W : Nat) (np dp : List Nat) : Option (List Nat × List Nat) :=
  if dp.length ≤ np.length ∧ 1 ≤ dp.length ∧ dp.getLastD 0 ≠ 0 then
    some (toLimbs W (np.length - dp.length + 1) (limbsVal W np / limbsVal W dp),
          toLimbs W dp.length (limbsVal W np % limbsVal W dp))
  else none

/-- GMP `mpn_cmp (s1p, s2p, n)`: compares from the most significant limb down; positive,
zero or negative. -/
def mpn_cmp : List Nat → List Nat → Int
  | x :: xs, y :: ys =>
    if mpn_cmp xs ys ≠ 0 then mpn_cmp xs ys
    else if x > y then 1 else if x < y then -1 else 0
  | _, _ => 0

/-- GMP `mpn_rshift (rp, sp, n, count)`: shifts right by `count` bits; the bits shifted out
are returned in the most significant `count` bits of the return limb; requires
`1 ≤ count < W` and `n ≥ 1`. -/
def mpn_rshift (W : Nat) (sp : List Nat) (count : Nat) : Option (List Nat × Nat) :=
  if 1 ≤ count ∧ count < W ∧ 1 ≤ sp.length then
    some (toLimbs W sp.length (limbsVal W sp / 2 ^ count),
          (limbsVal W sp % 2 ^ count) * 2 ^ (W - count))
  else none

/-! ## The number type -/

/-- The type `secp256k1_num_t`: the limbs in use (`data[0 .. limbs-1]`) and the sign flag. -/
structure secp256k1_num_t where
  data : List Nat
  neg : Bool
  deriving DecidableEq, Repr

/-- The field `limbs`. -/
def secp256k1_num_t.limbs (a : secp256k1_num_t) : Nat := a.data.length

/-- The limb `a->data[i]`. -/
def secp256k1_num_t.limb (a : secp256k1_num_t) (i : Nat) : Nat := a.data.getD i 0

/-- The magnitude a number denotes. -/
def secp256k1_num_t.mag (W : Nat) (a : secp256k1_num_t) : Nat := limbsVal W a.data

/-- The signed integer a number denotes. -/
def secp256k1_num_t.toInt (W : Nat) (a : secp256k1_num_t) : Int :=
  if a.neg then -(limbsVal W a.data : Int) else (limbsVal W a.data : Int)

/-- The check of `secp256k1_num_sanity`:
`a->limbs == 1 || (a->limbs > 1 && a->data[a->limbs-1] != 0)`. -/
def secp256k1_num_sanity (a : secp256k1_num_t) : Bool :=
  a.limbs == 1 || (decide (a.limbs > 1) && a.limb (a.limbs - 1) != 0)

/-- The function `secp256k1_num_init`. -/
def secp256k1_num_init (_r : secp256k1_num_t) : secp256k1_num_t :=
  { data := [0], neg := false }

/-- The function `secp256k1_num_is_zero`. -/
def secp256k1_num_is_zero (a : secp256k1_num_t) : Bool :=
  a.limbs == 1 && a.limb 0 == 0

/-- The function `secp256k1_num_is_neg`. -/
def secp256k1_num_is_neg (a : secp256k1_num_t) : Bool :=
  (decide (a.limbs > 1) || a.limb 0 != 0) && a.neg

/-- The function `secp256k1_num_add_abs`; `r->neg` is left as it was. -/
def secp256k1_num_add_abs (W NL : Nat) (r a b : secp256k1_num_t) : Option secp256k1_num_t :=
  match mpn_add W a.data b.data with
  | none => none
  | some (d, c) =>
    if c ≠ 0 then
      if a.limbs < 2 * NL then some { r with data := d ++ [c] } else none
    else some { r with data := d }

/-- The function `secp256k1_num_sub_abs`; `r->neg` is left as it was. -/
def secp256k1_num_sub_abs (W : Nat) (r a b : secp256k1_num_t) : Option secp256k1_num_t :=
  match mpn_sub W a.data b.data with
  | none => none
  | some (d, c) => if c = 0 then some { r with data := trim d } else none

/-- The function `secp256k1_num_mod` (in place on `r`). -/
def secp256k1_num_mod (W : Nat) (r m : secp256k1_num_t) : Option secp256k1_num_t :=
  if secp256k1_num_sanity r && secp256k1_num_sanity m then
    match (if r.limbs ≥ m.limbs then
            match mpn_tdiv_qr W r.data m.data with
            | none => none
            | some (_, rem) => some { r with data := trim rem }
          else some r) with
    | none => none
    | some r1 =>
      if r1.neg && (decide (r1.limbs > 1) || r1.limb 0 != 0) then
        match secp256k1_num_sub_abs W r1 m r1 with
        | none => none
        | some r2 => some { r2 with neg := false }
      else some r1
  else none

/-- The function `secp256k1_num_cmp`. -/
def secp256k1_num_cmp (a b : secp256k1_num_t) : Int :=
  if a.limbs > b.limbs then 1
  else if a.limbs < b.limbs then -1
  else mpn_cmp a.data b.data

/-- The function `secp256k1_num_eq`. -/
def secp256k1_num_eq (a b : secp256k1_num_t) : Bool :=
  if a.limbs > b.limbs then false
  else if a.limbs < b.limbs then false
  else if (a.neg && !secp256k1_num_is_zero a) != (b.neg && !secp256k1_num_is_zero b) then false
  else mpn_cmp a.data b.data == 0

/-- The function `secp256k1_num_subadd`. -/
def secp256k1_num_subadd (W NL : Nat) (r a b : secp256k1_num_t) (bneg : Bool) :
    Option secp256k1_num_t :=
  if !(xor (xor b.neg bneg) a.neg) then
    if a.limbs ≥ b.limbs then secp256k1_num_add_abs W NL { r with neg := a.neg } a b
    else secp256k1_num_add_abs W NL { r with neg := a.neg } b a
  else
    if secp256k1_num_cmp a b > 0 then secp256k1_num_sub_abs W { r with neg := a.neg } a b
    else secp256k1_num_sub_abs W { r with neg := xor b.neg bneg } b a

/-- The function `secp256k1_num_add`. -/
def secp256k1_num_add (W NL : Nat) (r a b : secp256k1_num_t) : Option secp256k1_num_t :=
  if secp256k1_num_sanity a && secp256k1_num_sanity b then secp256k1_num_subadd W NL r a b false
  else none

/-- The function `secp256k1_num_sub`. -/
def secp256k1_num_sub (W NL : Nat) (r a b : secp256k1_num_t) : Option secp256k1_num_t :=
  if secp256k1_num_sanity a && secp256k1_num_sanity b then secp256k1_num_subadd W NL r a b true
  else none

/-- The function `secp256k1_num_mul`. -/
def secp256k1_num_mul (W NL : Nat) (_r a b : secp256k1_num_t) : Option secp256k1_num_t :=
  if secp256k1_num_sanity a && secp256k1_num_sanity b then
    if a.limbs + b.limbs ≤ 2 * NL + 1 then
      if (a.limbs == 1 && a.limb 0 == 0) || (b.limbs == 1 && b.limb 0 == 0) then
        some { data := [0], neg := false }
      else
        match (if a.limbs ≥ b.limbs then mpn_mul W a.data b.data
               else mpn_mul W b.data a.data) with
        | none => none
        | some tmp =>
          if (trimOnce tmp).length ≤ 2 * NL then
            some { data := trimOnce tmp, neg := xor a.neg b.neg }
          else none
    else none
  else none

/-- The function `secp256k1_num_div`. -/
def secp256k1_num_div (W : Nat) (_r a b : secp256k1_num_t) : Option secp256k1_num_t :=
  if secp256k1_num_sanity a && secp256k1_num_sanity b then
    if b.limbs > a.limbs then some { data := [0], neg := false }
    else
      match mpn_tdiv_qr W a.data b.data with
      | none => none
      | some (quo, _) => some { data := trim quo, neg := xor a.neg b.neg }
  else none

/-- The function `secp256k1_num_mod_mul`. -/
def secp256k1_num_mod_mul (W NL : Nat) (r a b m : secp256k1_num_t) : Option secp256k1_num_t :=
  match secp256k1_num_mul W NL r a b with
  | none => none
  | some r1 => secp256k1_num_mod W r1 m

/-! ## Modular inverse -/

/-- Euclid's algorithm on the pairs `(r0, s0)`, `(r1, s1)`, where each remainder `r` is
congruent to `U * s` modulo `V`; the recursion stops when the second remainder is `0`. -/
def gcdextLoop : Nat → Nat → Int → Nat → Int → Nat × Int
  | 0, r0, s0, _, _ => (r0, s0)
  | fuel + 1, r0, s0, r1, s1 =>
    if r1 = 0 then (r0, s0)
    else gcdextLoop fuel r1 s1 (r0 % r1) (s0 - ((r0 / r1 : Nat) : Int) * s1)

/-- The cofactor `S` that the GMP manual documents for `mpn_gcdext`: `G = U*S + V*T` for some
`T`, with `S = 1` or `|S| < V / (2 G)`, and `S = 0` exactly when `V` divides `U`. -/
def gcdextCofactor (U V : Nat) : Int :=
  if U % V = 0 then 0
  else
    if (gcdextLoop (V + 1) U 1 V 0).2 % ((V / Nat.gcd U V : Nat) : Int) = 1 then 1
    else if 2 * ((gcdextLoop (V + 1) U 1 V 0).2 % ((V / Nat.gcd U V : Nat) : Int))
        < ((V / Nat.gcd U V : Nat) : Int) then
      (gcdextLoop (V + 1) U 1 V 0).2 % ((V / Nat.gcd U V : Nat) : Int)
    else (gcdextLoop (V + 1) U 1 V 0).2 % ((V / Nat.gcd U V : Nat) : Int)
      - ((V / Nat.gcd U V : Nat) : Int)

/-- GMP `mpn_gcdext (gp, sp, &sn, up, un, vp, vn)`: the limbs of `G = gcd(U, V)` (the return
value is their count), the limbs of `|S|` (their count is `|sn|`) and whether `sn` is negative;
requires `un ≥ vn > 0` and a non-zero most significant limb of `V`.  GMP's implementation
stops on an assertion when `U` is zero, so `U = 0` is outside the domain as well. -/
def mpn_gcdext (W : Nat) (up vp : List Nat) : Option (List Nat × List Nat × Bool) :=
  if vp.length ≤ up.length ∧ 1 ≤ vp.length ∧ vp.getLastD 0 ≠ 0 ∧ limbsVal W up ≠ 0 then
    some (mpn_normalize (toLimbs W vp.length (Nat.gcd (limbsVal W up) (limbsVal W vp))),
          mpn_normalize
            (toLimbs W (vp.length + 1) (gcdextCofactor (limbsVal W up) (limbsVal W vp)).natAbs),
          decide (gcdextCofactor (limbsVal W up) (limbsVal W vp) < 0))
  else none

/-- The function `secp256k1_num_mod_inverse`. -/
def secp256k1_num_mod_inverse (W NL : Nat) (_r a m : secp256k1_num_t) :
    Option secp256k1_num_t :=
  if secp256k1_num_sanity a && secp256k1_num_sanity m then
    if m.limbs ≤ NL ∧ m.limb (m.limbs - 1) ≠ 0 then
      match mpn_gcdext W ((List.range m.limbs).map (fun i => if i < a.limbs then a.limb i else 0))
              ((List.range m.limbs).map (fun i => m.limb i)) with
      | none => none
      | some (g, s, sneg) =>
        if g.length = 1 ∧ g.getD 0 0 = 1 then
          if sneg then
            match mpn_sub W m.data s with
            | none => none
            | some (d, _) => some { data := trim d, neg := xor a.neg m.neg }
          else some { data := s, neg := xor a.neg m.neg }
        else none
    else none
  else none

/-! ## Conversions -/

/-- The integer denoted by a digit string, most significant digit first. -/
def digitsVal (base : Nat) (str : List Nat) : Nat :=
  str.foldl (fun acc d => acc * base + d) 0

/-- Bits per digit of the two bases the file uses with `mpn_set_str` and `mpn_get_str`. -/
def bitsPerDigit (base : Nat) : Option Nat :=
  if base = 256 then some 8 else if base = 16 then some 4 else none

/-- GMP `mpn_set_str (rp, str, strsize, base)` for a power-of-two base: `str[0]` is the most
significant digit; returns the limbs written.  As in GMP's generic implementation, one limb is
written for each `W` bits of input and the remaining high part only when it is not zero;
requires `strsize ≥ 1`. -/
def mpn_set_str (W : Nat) (str : List Nat) (base : Nat) : Option (List Nat) :=
  match bitsPerDigit base with
  | none => none
  | some k =>
    if 1 ≤ str.length then
      some (toLimbs W (str.length * k / W) (digitsVal base str)
            ++ (if digitsVal base str / (2 ^ W) ^ (str.length * k / W) ≠ 0
                then [digitsVal base str / (2 ^ W) ^ (str.length * k / W)] else []))
    else none

/-- GMP `mpn_get_str (str, base, s1p, s1n)` for a power-of-two base: the digits, most
significant first, without leading zero digit; requires `s1n ≥ 1` and a non-zero most
significant limb. -/
def mpn_get_str (W : Nat) (base : Nat) (s1 : List Nat) : Option (List Nat) :=
  match bitsPerDigit base with
  | none => none
  | some k =>
    if 1 ≤ s1.length ∧ s1.getLastD 0 ≠ 0 then
      some (mpn_normalize (toLimbs k ((s1.length * W + k - 1) / k) (limbsVal W s1))).reverse
    else none

/-- The function `secp256k1_num_get_bin`: the `rlen` bytes written to `r`. -/
def secp256k1_num_get_bin (W : Nat) (rlen : Nat) (a : secp256k1_num_t) : Option (List Nat) :=
  match (if decide (a.limbs > 1) || a.limb 0 != 0 then mpn_get_str W 256 a.data
         else some []) with
  | none => none
  | some tmp =>
    if (tmp.dropWhile (· == 0)).length ≤ rlen then
      some (List.replicate (rlen - (tmp.dropWhile (· == 0)).length) 0 ++ tmp.dropWhile (· == 0))
    else none

/-- The function `secp256k1_num_set_bin`; `alen` is the length of `a`. -/
def secp256k1_num_set_bin (W NL : Nat) (_r : secp256k1_num_t) (a : List Nat) :
    Option secp256k1_num_t :=
  if 0 < a.length ∧ a.length ≤ 64 then
    match mpn_set_str W a 256 with
    | none => none
    | some d => if d.length ≤ NL * 2 then some { data := trim d, neg := false } else none
  else none

/-- The table `cvt` of `secp256k1_num_set_hex`. -/
def cvtSetHex : List Nat :=
  [ 0, 0, 0, 0, 0, 0, 0,0,0,0,0,0,0,0,0,0,
    0, 0, 0, 0, 0, 0, 0,0,0,0,0,0,0,0,0,0,
    0, 0, 0, 0, 0, 0, 0,0,0,0,0,0,0,0,0,0,
    0, 1, 2, 3, 4, 5, 6,7,8,9,0,0,0,0,0,0,
    0,10,11,12,13,14,15,0,0,0,0,0,0,0,0,0,
    0, 0, 0, 0, 0, 0, 0,0,0,0,0,0,0,0,0,0,
    0,10,11,12,13,14,15,0,0,0,0,0,0,0,0,0,
    0, 0, 0, 0, 0, 0, 0,0,0,0,0,0,0,0,0,0,
    0, 0, 0, 0, 0, 0, 0,0,0,0,0,0,0,0,0,0,
    0, 0, 0, 0, 0, 0, 0,0,0,0,0,0,0,0,0,0,
    0, 0, 0, 0, 0, 0, 0,0,0,0,0,0,0,0,0,0,
    0, 0, 0, 0, 0, 0, 0,0,0,0,0,0,0,0,0,0,
    0, 0, 0, 0, 0, 0, 0,0,0,0,0,0,0,0,0,0,
    0, 0, 0, 0, 0, 0, 0,0,0,0,0,0,0,0,0,0,
    0, 0, 0, 0, 0, 0, 0,0,0,0,0,0,0,0,0,0,
    0, 0, 0, 0, 0, 0, 0,0,0,0,0,0,0,0,0,0 ]

/-- The function `secp256k1_num_set_hex`; `a` is the text and `alen` its length. -/
def secp256k1_num_set_hex (W : Nat) (_r : secp256k1_num_t) (a : List Char) :
    Option secp256k1_num_t :=
  match mpn_set_str W (a.map (fun c => cvtSetHex.getD (c.toNat % 256) 0)) 16 with
  | none => none
  | some d => some { data := trim d, neg := false }

/-- The table `cvt` of `secp256k1_num_get_hex`. -/
def cvtGetHex : List Char :=
  ['0', '1', '2', '3', '4', '5', '6', '7', '8', '9', 'A', 'B', 'C', 'D', 'E', 'F']

/-- The function `secp256k1_num_get_hex`: the `rlen` characters written to `r`. -/
def secp256k1_num_get_hex (W : Nat) (rlen : Nat) (a : secp256k1_num_t) : Option (List Char) :=
  match mpn_get_str W 16 a.data with
  | none => none
  | some tmp =>
    if tmp.length ≤ rlen then
      some (List.replicate (rlen - tmp.length) (cvtGetHex.getD 0 '0')
            ++ tmp.map (fun d => cvtGetHex.getD d '0'))
    else none

/-! ## Splitting -/

/-- The loop `while (left >= GMP_NUMB_BITS)` of `secp256k1_num_split`, copying whole limbs of
`a` to `rl`; returns `rl` and `left`. -/
def splitCopy (W : Nat) (a : secp256k1_num_t) : Nat → List Nat → Nat → List Nat × Nat
  | 0, rl, left => (rl, left)
  | fuel + 1, rl, left =>
    if left ≥ W then splitCopy W a fuel (rl ++ [a.limb rl.length]) (left - W) else (rl, left)

/-- The function `secp256k1_num_split`: the pair `(rl, rh)`. -/
def secp256k1_num_split (W : Nat) (_rl _rh a : secp256k1_num_t) (bits : Nat) :
    Option (secp256k1_num_t × secp256k1_num_t) :=
  if bits > 0 then
    if bits ≥ a.limbs * W then some (a, { data := [0], neg := a.neg })
    else
      match (if (splitCopy W a bits [] bits).2 = 0 then
               some (a.data.drop (splitCopy W a bits [] bits).1.length)
             else
               match mpn_rshift W (a.data.drop (splitCopy W a bits [] bits).1.length)
                       (splitCopy W a bits [] bits).2 with
               | none => none
               | some (d, _) => some (trim d)) with
      | none => none
      | some rh =>
        some ({ data := trim (if (splitCopy W a bits [] bits).2 > 0 then
                          (splitCopy W a bits [] bits).1
                            ++ [a.limb (splitCopy W a bits [] bits).1.length
                                &&& ((1 <<< (splitCopy W a bits [] bits).2) - 1)]
                        else (splitCopy W a bits [] bits).1),
                 neg := a.neg },
              { data := rh, neg := a.neg })
  else none

/-! ## Bit length -/

/-- The loop `while (x) { x >>= 1; ret++; }` of `secp256k1_num_bits`. -/
def bitsLoop : Nat → Nat → Nat → Nat
  | 0, _, ret => ret
  | fuel + 1, x, ret => if x ≠ 0 then bitsLoop fuel (x >>> 1) (ret + 1) else ret

/-- The function `secp256k1_num_bits`; a limb has `W` bits, so `W` rounds of the loop
exhaust it. -/
def secp256k1_num_bits (W : Nat) (a : secp256k1_num_t) : Nat :=
  bitsLoop W (a.limb (a.limbs - 1)) ((a.limbs - 1) * W)

/-! ## Machine integers, shifting, single bits, increment -/

/-- The width of the C type `int`: 32 bits on the platforms GMP supports. -/
def INT_BITS : Nat := 32

/-- The `int` that holds `x` modulo `2^INT_BITS` in two's complement: the result of an `int`
operation that leaves the range, or of a conversion to `int`. -/
def wrapInt (x : Int) : Int :=
  (x + 2 ^ (INT_BITS - 1)) % 2 ^ INT_BITS - 2 ^ (INT_BITS - 1)

/-- Conversion of an `int` to the limb type `mp_limb_t`: reduction modulo `2^W`. -/
def intToLimb (W : Nat) (x : Int) : Nat := (x % 2 ^ W).toNat

/-- The function `secp256k1_num_set_int`; `a` is an `int`. -/
def secp256k1_num_set_int (W : Nat) (_r : secp256k1_num_t) (a : Int) : secp256k1_num_t :=
  { data := [intToLimb W (if a < 0 then wrapInt (-a) else a)], neg := decide (a < 0) }

/-- The function `secp256k1_num_shift` (in place on `r`): the number left in `r` and the `int`
returned. -/
def secp256k1_num_shift (W : Nat) (r : secp256k1_num_t) (bits : Nat) :
    Option (secp256k1_num_t × Int) :=
  if bits ≤ W then
    match mpn_rshift W r.data bits with
    | none => none
    | some (d, ret) =>
      some ({ r with data := trimOnce d }, wrapInt ((ret >>> (W - bits) : Nat) : Int))
  else none

/-- The function `secp256k1_num_get_bit`, for a position `pos ≥ 0`; the result is `0` or `1`. -/
def secp256k1_num_get_bit (W : Nat) (a : secp256k1_num_t) (pos : Nat) : Nat :=
  if a.limbs * W > pos ∧ (a.limb (pos / W) >>> (pos % W)) &&& 1 ≠ 0 then 1 else 0

/-- The function `secp256k1_num_inc` (in place on `r`). -/
def secp256k1_num_inc (W NL : Nat) (r : secp256k1_num_t) : Option secp256k1_num_t :=
  if (mpn_add_1 W r.data 1).2 ≠ 0 then
    if r.limbs < 2 * NL then
      some { r with data := (mpn_add_1 W r.data 1).1 ++ [(mpn_add_1 W r.data 1).2] }
    else none
  else some { r with data := (mpn_add_1 W r.data 1).1 }

/-! ## Well-formedness -/

/-- Every limb fits in `W` bits. -/
def LimbsOk (W : Nat) (l : List Nat) : Prop := ∀ x ∈ l, x < 2 ^ W

/-- A number in canonical limb form within capacity: limbs of `W` bits, at least one and at
most `2 * NL` of them, and a non-zero most significant limb unless there is a single limb. -/
def Sane (W NL : Nat) (a : secp256k1_num_t) : Prop :=
  LimbsOk W a.data ∧ secp256k1_num_sanity a = true ∧ a.limbs ≤ 2 * NL

/-- Canonical form: canonical limb form, and the flag `neg` is clear when the value is zero. -/
def Canonical (W NL : Nat) (a : secp256k1_num_t) : Prop :=
  Sane W NL a ∧ (limbsVal W a.data = 0 → a.neg = false)

/-- Canonical limb form as the data model words it: at least one limb, and a non-zero most
significant limb unless the number is the single limb `0`. -/
def CanonicalLimbs (a : secp256k1_num_t) : Prop :=
  1 ≤ a.limbs ∧ (a.limb (a.limbs - 1) ≠ 0 ∨ a.data = [0])

instance (W : Nat) (l : List Nat) : Decidable (LimbsOk W l) := by
  unfold LimbsOk; infer_instance

instance (W NL : Nat) (a : secp256k1_num_t) : Decidable (Sane W NL a) := by
  unfold Sane; infer_instance

instance (W NL : Nat) (a : secp256k1_num_t) : Decidable (Canonical W NL a) := by
  unfold Canonical; infer_instance

/-! ## Lemmas on limb sequences -/

theorem limbsVal_append (W : Nat) (l1 l2 : List Nat) :
    limbsVal W (l1 ++ l2) = limbsVal W l1 + (2 ^ W) ^ l1.length * limbsVal W l2 := by
  induction l1 with
  | nil => simp [limbsVal]
  | cons x t ih =>
    show x + 2 ^ W * limbsVal W (t ++ l2) = (x + 2 ^ W * limbsVal W t) + _
    rw [ih, List.length_cons, pow_succ]
    ring

theorem limbsVal_replicate_zero (W k : Nat) : limbsVal W (List.replicate k 0) = 0 := by
  induction k with
  | zero => rfl
  | succ k ih => simp [List.replicate_succ, limbsVal, ih]

theorem limbsVal_lt (W : Nat) (l : List Nat) (h : LimbsOk W l) :
    limbsVal W l < (2 ^ W) ^ l.length := by
  induction l with
  | nil => simp [limbsVal]
  | cons x t ih =>
    have hx : x < 2 ^ W := h x (List.mem_cons_self _ _)
    have ht := ih (fun y hy => h y (List.mem_cons_of_mem _ hy))
    simp only [limbsVal, List.length_cons, pow_succ]
    nlinarith [Nat.zero_le (limbsVal W t)]

theorem limbsOk_append {W : Nat} {l1 l2 : List Nat} :
    LimbsOk W (l1 ++ l2) ↔ LimbsOk W l1 ∧ LimbsOk W l2 := by
  unfold LimbsOk
  constructor
  · intro h
    exact ⟨fun x hx => h x (List.mem_append_left _ hx), fun x hx => h x (List.mem_append_right _ hx)⟩
  · rintro ⟨h1, h2⟩ x hx
    rcases List.mem_append.mp hx with h | h
    · exact h1 x h
    · exact h2 x h

theorem limbsOk_replicate_zero (W k : Nat) : LimbsOk W (List.replicate k 0) := by
  intro x hx
  rw [List.eq_of_mem_replicate hx]
  exact Nat.pos_pow_of_pos W (by decide)

theorem toLimbs_length (W n v : Nat) : (toLimbs W n v).length = n := by
  induction n generalizing v with
  | zero => rfl
  | succ n ih => simp [toLimbs, ih]

theorem toLimbs_ok (W n v : Nat) : LimbsOk W (toLimbs W n v) := by
  induction n generalizing v with
  | zero => intro x hx; simp [toLimbs] at hx
  | succ n ih =>
    intro x hx
    simp only [toLimbs, List.mem_cons] at hx
    rcases hx with rfl | hx
    · exact Nat.mod_lt _ (Nat.pos_pow_of_pos W (by decide))
    · exact ih _ x hx

theorem limbsVal_toLimbs (W n v : Nat) : limbsVal W (toLimbs W n v) = v % (2 ^ W) ^ n := by
  induction n generalizing v with
  | zero => simp [toLimbs, limbsVal, Nat.mod_one]
  | succ n ih =>
    simp only [toLimbs, limbsVal, ih, pow_succ]
    rw [mul_comm ((2 ^ W) ^ n) (2 ^ W), Nat.mod_mul]

theorem toLimbs_limbsVal (W : Nat) (l : List Nat) (h : LimbsOk W l) :
    toLimbs W l.length (limbsVal W l) = l := by
  induction l with
  | nil => rfl
  | cons x t ih =>
    have hx : x < 2 ^ W := h x (List.mem_cons_self _ _)
    have ht := ih (fun y hy => h y (List.mem_cons_of_mem _ hy))
    have hpos : 0 < 2 ^ W := Nat.pos_pow_of_pos W (by decide)
    simp only [List.length_cons, toLimbs, limbsVal]
    rw [Nat.add_mul_mod_self_left, Nat.mod_eq_of_lt hx, Nat.add_mul_div_left _ _ hpos,
      Nat.div_eq_of_lt hx, Nat.zero_add, ht]

/-- Limb sequences of the same length that denote the same integer are equal. -/
theorem limbs_eq_of_val_eq (W : Nat) (l1 l2 : List Nat) (h1 : LimbsOk W l1) (h2 : LimbsOk W l2)
    (hlen : l1.length = l2.length) (hv : limbsVal W l1 = limbsVal W l2) : l1 = l2 := by
  rw [← toLimbs_limbsVal W l1 h1, ← toLimbs_limbsVal W l2 h2, hlen, hv]

theorem toLimbs_eq_append_zeros (W : Nat) (l : List Nat) (h : LimbsOk W l) (n : Nat)
    (hn : l.length ≤ n) :
    toLimbs W n (limbsVal W l) = l ++ List.replicate (n - l.length) 0 := by
  apply limbs_eq_of_val_eq W _ _ (toLimbs_ok W n _)
    (limbsOk_append.mpr ⟨h, limbsOk_replicate_zero W _⟩)
  · simp [toLimbs_length]; omega
  · rw [limbsVal_toLimbs, limbsVal_append, limbsVal_replicate_zero, Nat.mul_zero, Nat.add_zero]
    apply Nat.mod_eq_of_lt
    calc limbsVal W l < (2 ^ W) ^ l.length := limbsVal_lt W l h
      _ ≤ (2 ^ W) ^ n := Nat.pow_le_pow_right (Nat.pos_pow_of_pos W (by decide)) hn

/-! ## Lemmas on trimming -/

theorem trim_nil : trim [] = [] := rfl

theorem trim_singleton (x : Nat) : trim [x] = [x] := rfl

theorem trim_concat (L : List Nat) (b : Nat) :
    trim (L ++ [b]) = if b = 0 ∧ L ≠ [] then trim L else L ++ [b] := by
  unfold trim
  rw [List.reverse_append, List.reverse_singleton, List.singleton_append]
  cases hL : L.reverse with
  | nil =>
    have : L = [] := by simpa using hL
    subst this
    simp [trimMsb]
  | cons y t =>
    have hne : L ≠ [] := by
      intro h; subst h; simp at hL
    have hL2 : L = (y :: t).reverse := by rw [← hL, List.reverse_reverse]
    by_cases hb : b = 0
    · simp [trimMsb, hb, hne]
    · simp [trimMsb, hb, hL2]

/-- Trimming only removes zero limbs at the most significant end. -/
theorem trim_spec (l : List Nat) : ∃ k, l = trim l ++ List.replicate k 0 := by
  induction l using List.reverseRecOn with
  | nil => exact ⟨0, rfl⟩
  | append_singleton L b ih =>
    rw [trim_concat]
    by_cases h : b = 0 ∧ L ≠ []
    · rw [if_pos h]
      obtain ⟨k, hk⟩ := ih
      refine ⟨k + 1, ?_⟩
      rw [List.replicate_succ', ← List.append_assoc, ← hk, h.1]
    · rw [if_neg h]
      exact ⟨0, by simp⟩

theorem limbsVal_trim (W : Nat) (l : List Nat) : limbsVal W (trim l) = limbsVal W l := by
  obtain ⟨k, hk⟩ := trim_spec l
  conv_rhs => rw [hk]
  rw [limbsVal_append, limbsVal_replicate_zero, Nat.mul_zero, Nat.add_zero]

theorem limbsOk_trim (W : Nat) (l : List Nat) (h : LimbsOk W l) : LimbsOk W (trim l) := by
  obtain ⟨k, hk⟩ := trim_spec l
  rw [hk] at h
  exact (limbsOk_append.mp h).1

theorem trim_length_le (l : List Nat) : (trim l).length ≤ l.length := by
  obtain ⟨k, hk⟩ := trim_spec l
  conv_rhs => rw [hk]
  simp

theorem trim_ne_nil (l : List Nat) (h : l ≠ []) : trim l ≠ [] := by
  induction l using List.reverseRecOn with
  | nil => exact absurd rfl h
  | append_singleton L b ih =>
    rw [trim_concat]
    by_cases hc : b = 0 ∧ L ≠ []
    · rw [if_pos hc]; exact ih hc.2
    · rw [if_neg hc]; simp

theorem trim_length_pos (l : List Nat) (h : 1 ≤ l.length) : 1 ≤ (trim l).length := by
  have : trim l ≠ [] := trim_ne_nil l (by intro h0; subst h0; simp at h)
  exact List.length_pos.mpr this

theorem trim_append_zeros (l : List Nat) (h : l ≠ []) (k : Nat) :
    trim (l ++ List.replicate k 0) = trim l := by
  induction k with
  | zero => simp
  | succ k ih =>
    rw [List.replicate_succ', ← List.append_assoc, trim_concat, if_pos ⟨rfl, by simp [h]⟩, ih]

/-- The limb-form check of `secp256k1_num_sanity`, on lists. -/
theorem sanity_iff (a : secp256k1_num_t) :
    secp256k1_num_sanity a = true ↔ a.data ≠ [] ∧ trim a.data = a.data := by
  obtain ⟨d, n⟩ := a
  simp only [secp256k1_num_sanity, secp256k1_num_t.limbs, secp256k1_num_t.limb]
  induction d using List.reverseRecOn with
  | nil => simp
  | append_singleton L b _ =>
    rw [trim_concat]
    by_cases hL : L = []
    · subst hL; simp
    · have hlen : 0 < L.length := List.length_pos.mpr hL
      have hne1 : ¬ (L.length + 1 = 1) := by omega
      have hgt : 1 < L.length + 1 := by omega
      have hg : (L ++ [b]).getD (L.length + 1 - 1) 0 = b := by
        simp [List.getD_eq_getElem?_getD]
      by_cases hb : b = 0
      · subst hb
        have hneq : trim L ≠ L ++ [0] := by
          intro h
          have := trim_length_le L
          rw [h] at this
          simp at this
        simp [hne1, hg, hL, hneq]
      · simp [hne1, hgt, hg, hb]

theorem sanity_trim (l : List Nat) (n : Bool) (h : l ≠ []) :
    secp256k1_num_sanity { data := trim l, neg := n } = true := by
  rw [sanity_iff]
  refine ⟨trim_ne_nil l h, ?_⟩
  show trim (trim l) = trim l
  induction l using List.reverseRecOn with
  | nil => exact absurd rfl h
  | append_singleton L b ih =>
    rw [trim_concat]
    by_cases hc : b = 0 ∧ L ≠ []
    · rw [if_pos hc]; exact ih hc.2
    · rw [if_neg hc, trim_concat, if_neg hc]

/-- A trimmed limb sequence is determined by the integer it denotes. -/
theorem trim_toLimbs_eq (W : Nat) (l : List Nat) (hok : LimbsOk W l) (hne : l ≠ [])
    (ht : trim l = l) (n : Nat) (hn : l.length ≤ n) :
    trim (toLimbs W n (limbsVal W l)) = l := by
  rw [toLimbs_eq_append_zeros W l hok n hn, trim_append_zeros l hne, ht]

/-- A sequence with a non-zero most significant limb is at least `B ^ (length - 1)`. -/
theorem limbsVal_ge_of_trim (W : Nat) (l : List Nat) (ht : trim l = l) (hlen : 1 < l.length) :
    (2 ^ W) ^ (l.length - 1) ≤ limbsVal W l := by
  induction l using List.reverseRecOn with
  | nil => simp at hlen
  | append_singleton L b _ =>
    have hL : L ≠ [] := by
      intro h; subst h; simp at hlen
    rw [trim_concat] at ht
    have hb : b ≠ 0 := by
      intro hb
      rw [if_pos ⟨hb, hL⟩] at ht
      have := trim_length_le L
      rw [ht] at this
      simp at this
    rw [limbsVal_append]
    simp only [List.length_append, List.length_singleton, Nat.add_sub_cancel, limbsVal,
      Nat.mul_zero, Nat.add_zero]
    have : 1 ≤ b := Nat.one_le_iff_ne_zero.mpr hb
    nlinarith [Nat.zero_le (limbsVal W L), Nat.pos_pow_of_pos L.length (Nat.pos_pow_of_pos W (by decide : 0 < 2))]

theorem trim_eq_self_of_ge (W : Nat) (l : List Nat) (hok : LimbsOk W l)
    (hge : 1 < l.length → (2 ^ W) ^ (l.length - 1) ≤ limbsVal W l) : trim l = l := by
  induction l using List.reverseRecOn with
  | nil => rfl
  | append_singleton L b _ =>
    rw [trim_concat]
    by_cases hc : b = 0 ∧ L ≠ []
    · exfalso
      obtain ⟨hb, hL⟩ := hc
      have hlen : 0 < L.length := List.length_pos.mpr hL
      have h1 := hge (by simp; omega)
      rw [limbsVal_append, hb] at h1
      simp only [List.length_append, List.length_singleton, Nat.add_sub_cancel, limbsVal,
        Nat.mul_zero, Nat.add_zero] at h1
      have h2 := limbsVal_lt W L (limbsOk_append.mp hok).1
      omega
    · rw [if_neg hc]

/-! ## Comparison -/

theorem mpn_cmp_self (a : List Nat) : mpn_cmp a a = 0 := by
  induction a with
  | nil => rfl
  | cons x t ih => simp [mpn_cmp, ih]

/-- The result of `mpn_cmp` orders the integers the two limb sequences denote. -/
theorem mpn_cmp_spec (W : Nat) (a b : List Nat) (hlen : a.length = b.length)
    (ha : LimbsOk W a) (hb : LimbsOk W b) :
    (0 < mpn_cmp a b ∧ limbsVal W b < limbsVal W a) ∨
    (mpn_cmp a b = 0 ∧ limbsVal W a = limbsVal W b) ∨
    (mpn_cmp a b < 0 ∧ limbsVal W a < limbsVal W b) := by
  induction a generalizing b with
  | nil =>
    cases b with
    | nil => right; left; exact ⟨rfl, rfl⟩
    | cons y ys => simp at hlen
  | cons x xs ih =>
    cases b with
    | nil => simp at hlen
    | cons y ys =>
      have hx : x < 2 ^ W := ha x (List.mem_cons_self _ _)
      have hy : y < 2 ^ W := hb y (List.mem_cons_self _ _)
      have hxs : LimbsOk W xs := fun z hz => ha z (List.mem_cons_of_mem _ hz)
      have hys : LimbsOk W ys := fun z hz => hb z (List.mem_cons_of_mem _ hz)
      have hl : xs.length = ys.length := by simpa using hlen
      simp only [mpn_cmp, limbsVal]
      rcases ih ys hl hxs hys with ⟨h1, h2⟩ | ⟨h1, h2⟩ | ⟨h1, h2⟩
      · left
        have hne : mpn_cmp xs ys ≠ 0 := by omega
        rw [if_pos hne]
        refine ⟨h1, ?_⟩
        have := Nat.mul_le_mul_left (2 ^ W) (Nat.succ_le_of_lt h2)
        rw [Nat.mul_succ] at this
        omega
      · rw [if_neg (by simp [h1]), h2]
        by_cases hxy : x > y
        · left; rw [if_pos hxy]; exact ⟨by decide, by omega⟩
        · rw [if_neg hxy]
          by_cases hyx : x < y
          · right; right; rw [if_pos hyx]; exact ⟨by decide, by omega⟩
          · right; left; rw [if_neg hyx]; exact ⟨rfl, by omega⟩
      · right; right
        have hne : mpn_cmp xs ys ≠ 0 := by omega
        rw [if_pos hne]
        refine ⟨h1, ?_⟩
        have := Nat.mul_le_mul_left (2 ^ W) (Nat.succ_le_of_lt h2)
        rw [Nat.mul_succ] at this
        omega

/-- A longer canonical limb sequence denotes a larger integer. -/
theorem limbsVal_lt_of_length_lt (W : Nat) (a b : List Nat) (ha : LimbsOk W a)
    (hb : trim b = b) (hlen : a.length < b.length) (hne : a ≠ []) :
    limbsVal W a < limbsVal W b := by
  have h0 : 0 < a.length := List.length_pos.mpr hne
  have h1 := limbsVal_lt W a ha
  have h2 := limbsVal_ge_of_trim W b hb (by omega)
  have h3 : (2 ^ W) ^ a.length ≤ (2 ^ W) ^ (b.length - 1) :=
    Nat.pow_le_pow_right (Nat.pos_pow_of_pos W (by decide)) (by omega)
  omega

/-- The result of `secp256k1_num_cmp` orders the magnitudes of canonical numbers. -/
theorem num_cmp_spec (W NL : Nat) (a b : secp256k1_num_t) (ha : Sane W NL a) (hb : Sane W NL b) :
    (0 < secp256k1_num_cmp a b ∧ limbsVal W b.data < limbsVal W a.data) ∨
    (secp256k1_num_cmp a b = 0 ∧ limbsVal W a.data = limbsVal W b.data) ∨
    (secp256k1_num_cmp a b < 0 ∧ limbsVal W a.data < limbsVal W b.data) := by
  obtain ⟨hao, has, _⟩ := ha
  obtain ⟨hbo, hbs, _⟩ := hb
  rw [sanity_iff] at has hbs
  unfold secp256k1_num_cmp secp256k1_num_t.limbs
  by_cases h1 : a.data.length > b.data.length
  · left
    rw [if_pos h1]
    exact ⟨by decide, limbsVal_lt_of_length_lt W _ _ hbo has.2 h1 hbs.1⟩
  · rw [if_neg h1]
    by_cases h2 : a.data.length < b.data.length
    · right; right
      rw [if_pos h2]
      exact ⟨by decide, limbsVal_lt_of_length_lt W _ _ hao hbs.2 h2 has.1⟩
    · rw [if_neg h2]
      exact mpn_cmp_spec W _ _ (by omega) hao hbo

/-! ## Magnitude addition and subtraction -/

theorem two_pow_pos (W : Nat) : 0 < 2 ^ W := Nat.pos_pow_of_pos W (by decide)

theorem one_lt_two_pow (W : Nat) (hW : 0 < W) : 1 < 2 ^ W :=
  Nat.one_lt_two_pow (by omega)

/-- Magnitude addition: with the longer operand first and the sum within capacity,
`secp256k1_num_add_abs` stores the exact sum in canonical limb form. -/
theorem add_abs_spec (W NL : Nat) (hW : 0 < W) (r a b : secp256k1_num_t)
    (ha : Sane W NL a) (hb : LimbsOk W b.data) (hlen : b.limbs ≤ a.limbs)
    (hcap : limbsVal W a.data + limbsVal W b.data < (2 ^ W) ^ (2 * NL)) :
    ∃ s, secp256k1_num_add_abs W NL r a b = some s ∧ s.neg = r.neg ∧
      limbsVal W s.data = limbsVal W a.data + limbsVal W b.data ∧ Sane W NL s := by
  obtain ⟨hao, has, hacap⟩ := ha
  have has2 := (sanity_iff a).mp has
  unfold secp256k1_num_t.limbs at hlen hacap
  have hB := two_pow_pos W
  have hBn : 0 < (2 ^ W) ^ a.data.length := Nat.pos_pow_of_pos _ hB
  have hlen0 : 0 < a.data.length := List.length_pos.mpr has2.1
  have hva := limbsVal_lt W a.data hao
  have hvb : limbsVal W b.data < (2 ^ W) ^ a.data.length :=
    lt_of_lt_of_le (limbsVal_lt W b.data hb) (Nat.pow_le_pow_right hB hlen)
  simp only [secp256k1_num_add_abs, mpn_add, if_pos hlen, secp256k1_num_t.limbs]
  by_cases hc : (limbsVal W a.data + limbsVal W b.data) / (2 ^ W) ^ a.data.length = 0
  · have hlt : limbsVal W a.data + limbsVal W b.data < (2 ^ W) ^ a.data.length :=
      (Nat.div_eq_zero_iff hBn).mp hc
    simp only [hc, ne_eq, not_true_eq_false, if_false]
    refine ⟨_, rfl, rfl, ?_, toLimbs_ok W _ _, ?_, ?_⟩
    · simp only [limbsVal_toLimbs]
      exact Nat.mod_eq_of_lt hlt
    · rw [sanity_iff]
      refine ⟨?_, ?_⟩
      · intro h
        have := congrArg List.length h
        rw [toLimbs_length, List.length_nil] at this
        omega
      · apply trim_eq_self_of_ge W _ (toLimbs_ok W _ _)
        intro h1
        rw [toLimbs_length] at h1 ⊢
        simp only [limbsVal_toLimbs]
        rw [Nat.mod_eq_of_lt hlt]
        have := limbsVal_ge_of_trim W a.data has2.2 h1
        omega
    · simp [secp256k1_num_t.limbs, toLimbs_length]; exact hacap
  · have hge : (2 ^ W) ^ a.data.length ≤ limbsVal W a.data + limbsVal W b.data := by
      by_contra hlt
      exact hc ((Nat.div_eq_zero_iff hBn).mpr (by omega))
    have hc1 : (limbsVal W a.data + limbsVal W b.data) / (2 ^ W) ^ a.data.length = 1 := by
      have : (limbsVal W a.data + limbsVal W b.data) / (2 ^ W) ^ a.data.length < 2 :=
        (Nat.div_lt_iff_lt_mul hBn).mpr (by omega)
      have := Nat.div_pos hge hBn
      omega
    have hacap2 : a.data.length < 2 * NL := by
      by_contra hcon
      have : (2 ^ W) ^ (2 * NL) ≤ (2 ^ W) ^ a.data.length :=
        Nat.pow_le_pow_right hB (by omega)
      omega
    simp only [hc1, ne_eq, one_ne_zero, not_false_eq_true, if_true, if_pos hacap2]
    refine ⟨_, rfl, rfl, ?_, ?_, ?_, ?_⟩
    · simp only [limbsVal_append, limbsVal_toLimbs, toLimbs_length, limbsVal, Nat.mul_zero,
        Nat.add_zero]
      have := Nat.mod_add_div (limbsVal W a.data + limbsVal W b.data) ((2 ^ W) ^ a.data.length)
      rw [hc1] at this
      omega
    · apply limbsOk_append.mpr ⟨toLimbs_ok W _ _, ?_⟩
      intro x hx
      simp only [List.mem_singleton] at hx
      rw [hx]
      exact one_lt_two_pow W hW
    · rw [sanity_iff]
      refine ⟨by simp, ?_⟩
      show trim (_ ++ [1]) = _
      rw [trim_concat, if_neg (by simp)]
    · simp [secp256k1_num_t.limbs, toLimbs_length]; omega

/-- Magnitude subtraction: with minuend at least the subtrahend (in limbs and in magnitude),
`secp256k1_num_sub_abs` stores the exact difference in canonical limb form. -/
theorem sub_abs_spec (W NL : Nat) (r a b : secp256k1_num_t)
    (ha : Sane W NL a) (hlen : b.limbs ≤ a.limbs)
    (hle : limbsVal W b.data ≤ limbsVal W a.data) :
    ∃ s, secp256k1_num_sub_abs W r a b = some s ∧ s.neg = r.neg ∧
      limbsVal W s.data = limbsVal W a.data - limbsVal W b.data ∧ Sane W NL s := by
  obtain ⟨hao, has, hacap⟩ := ha
  have has2 := (sanity_iff a).mp has
  unfold secp256k1_num_t.limbs at hlen hacap
  have hva := limbsVal_lt W a.data hao
  have hne : toLimbs W a.data.length (limbsVal W a.data - limbsVal W b.data) ≠ [] := by
    intro h
    have h1 := congrArg List.length h
    rw [toLimbs_length, List.length_nil] at h1
    have := List.length_pos.mpr has2.1
    omega
  simp only [secp256k1_num_sub_abs, mpn_sub, if_pos hlen, if_pos hle, if_true]
  refine ⟨_, rfl, rfl, ?_, limbsOk_trim W _ (toLimbs_ok W _ _), sanity_trim _ _ hne, ?_⟩
  · simp only [limbsVal_trim, limbsVal_toLimbs]
    exact Nat.mod_eq_of_lt (by omega)
  · have := trim_length_le (toLimbs W a.data.length (limbsVal W a.data - limbsVal W b.data))
    rw [toLimbs_length] at this
    simp only [secp256k1_num_t.limbs]
    omega

/-! ## Equality -/

/-- Canonical numbers of equal magnitude have the same limbs. -/
theorem data_eq_of_val_eq (W NL : Nat) (a b : secp256k1_num_t) (ha : Sane W NL a)
    (hb : Sane W NL b) (hv : limbsVal W a.data = limbsVal W b.data) : a.data = b.data := by
  obtain ⟨hao, has, _⟩ := ha
  obtain ⟨hbo, hbs, _⟩ := hb
  rw [sanity_iff] at has hbs
  have e1 := trim_toLimbs_eq W a.data hao has.1 has.2 (max a.data.length b.data.length)
      (le_max_left _ _)
  have e2 := trim_toLimbs_eq W b.data hbo hbs.1 hbs.2 (max a.data.length b.data.length)
      (le_max_right _ _)
  rw [hv] at e1
  exact e1.symm.trans e2

/-- A canonical number of magnitude zero is the single limb `0`. -/
theorem data_eq_zero_of_val_eq_zero (W NL : Nat) (a : secp256k1_num_t) (ha : Sane W NL a)
    (hv : limbsVal W a.data = 0) : a.data = [0] := by
  have hz : Sane W NL { data := [0], neg := false } := by
    refine ⟨?_, by decide, ?_⟩
    · intro x hx
      simp only [List.mem_singleton] at hx
      rw [hx]; exact two_pow_pos W
    · have := ha.2.2
      have h1 := List.length_pos.mpr ((sanity_iff a).mp ha.2.1).1
      simp only [secp256k1_num_t.limbs] at *
      simp only [List.length_singleton]
      omega
  exact data_eq_of_val_eq W NL a _ ha hz (by rw [hv]; simp [limbsVal])

theorem is_zero_iff (W NL : Nat) (a : secp256k1_num_t) (ha : Sane W NL a) :
    secp256k1_num_is_zero a = true ↔ limbsVal W a.data = 0 := by
  constructor
  · intro h
    obtain ⟨d, n⟩ := a
    simp only [secp256k1_num_is_zero, secp256k1_num_t.limbs, secp256k1_num_t.limb,
      Bool.and_eq_true, beq_iff_eq] at h
    obtain ⟨h1, h2⟩ := h
    match d, h1, h2 with
    | [x], _, h2 =>
      simp only [List.getD_cons_zero] at h2
      simp [limbsVal, h2]
  · intro h
    have := data_eq_zero_of_val_eq_zero W NL a ha h
    simp [secp256k1_num_is_zero, secp256k1_num_t.limbs, secp256k1_num_t.limb, this]

/-- Canonical numbers that denote the same signed integer are equal under
`secp256k1_num_eq`. -/
theorem num_eq_of_toInt_eq (W NL : Nat) (a b : secp256k1_num_t) (ha : Sane W NL a)
    (hb : Sane W NL b) (hv : a.toInt W = b.toInt W) : secp256k1_num_eq a b = true := by
  have hmag : limbsVal W a.data = limbsVal W b.data := by
    unfold secp256k1_num_t.toInt at hv
    split_ifs at hv <;> omega
  have hd := data_eq_of_val_eq W NL a b ha hb hmag
  have hza := is_zero_iff W NL a ha
  have hzb := is_zero_iff W NL b hb
  unfold secp256k1_num_eq secp256k1_num_t.limbs
  rw [hd, if_neg (lt_irrefl _), if_neg (lt_irrefl _), mpn_cmp_self]
  by_cases h0 : limbsVal W a.data = 0
  · have h1 : secp256k1_num_is_zero a = true := hza.mpr h0
    have h2 : secp256k1_num_is_zero b = true := hzb.mpr (hmag ▸ h0)
    simp [h1, h2]
  · have hneg : a.neg = b.neg := by
      unfold secp256k1_num_t.toInt at hv
      cases hna : a.neg <;> cases hnb : b.neg <;> simp only [hna, hnb] at hv <;>
        first | rfl | (exfalso; simp at hv; omega)
    have h1 : secp256k1_num_is_zero a = false := by
      cases h : secp256k1_num_is_zero a
      · rfl
      · exact absurd (hza.mp h) h0
    have h2 : secp256k1_num_is_zero b = false := by
      cases h : secp256k1_num_is_zero b
      · rfl
      · exact absurd (hzb.mp h) (hmag ▸ h0)
    simp [h1, h2, hneg]

/-! ## Signed addition and subtraction -/

theorem num_cmp_limbs (a b : secp256k1_num_t) :
    (0 < secp256k1_num_cmp a b → b.limbs ≤ a.limbs) ∧
    (¬ 0 < secp256k1_num_cmp a b → a.limbs ≤ b.limbs) := by
  unfold secp256k1_num_cmp
  by_cases h1 : a.limbs > b.limbs
  · rw [if_pos h1]
    exact ⟨fun _ => by omega, fun h => absurd (by decide) h⟩
  · rw [if_neg h1]
    by_cases h2 : a.limbs < b.limbs
    · rw [if_pos h2]
      exact ⟨fun h => absurd h (by decide), fun _ => by omega⟩
    · rw [if_neg h2]
      exact ⟨fun _ => by omega, fun _ => by omega⟩

/-- The signed combinator: `secp256k1_num_subadd` stores `a + b` (`bneg = 0`) or `a - b`
(`bneg = 1`) exactly, in canonical limb form, when the result is within capacity. -/
theorem subadd_spec (W NL : Nat) (hW : 0 < W) (r a b : secp256k1_num_t) (bneg : Bool)
    (ha : Sane W NL a) (hb : Sane W NL b)
    (hcap : (a.toInt W + (if xor b.neg bneg then -(limbsVal W b.data : Int)
              else (limbsVal W b.data : Int))).natAbs < (2 ^ W) ^ (2 * NL)) :
    ∃ s, secp256k1_num_subadd W NL r a b bneg = some s ∧
      s.toInt W = a.toInt W + (if xor b.neg bneg then -(limbsVal W b.data : Int)
              else (limbsVal W b.data : Int)) ∧ Sane W NL s := by
  have hcmp := num_cmp_spec W NL a b ha hb
  have hcl := num_cmp_limbs a b
  unfold secp256k1_num_subadd
  cases he : xor b.neg bneg <;> cases hn : a.neg <;>
    simp only [he, hn, secp256k1_num_t.toInt, Bool.xor_false, Bool.xor_true, Bool.not_false,
      Bool.not_true, if_true, if_false, Bool.false_eq_true] at hcap ⊢
  · -- both effective signs non-negative
    by_cases hl : a.limbs ≥ b.limbs
    · rw [if_pos hl]
      obtain ⟨s, h1, h2, h3, h4⟩ := add_abs_spec W NL hW { r with neg := false } a b ha hb.1 hl
        (by omega)
      refine ⟨s, h1, ?_, h4⟩
      simp only [h2, h3]; simp
    · rw [if_neg hl]
      obtain ⟨s, h1, h2, h3, h4⟩ := add_abs_spec W NL hW { r with neg := false } b a hb ha.1
        (by omega) (by omega)
      refine ⟨s, h1, ?_, h4⟩
      simp only [h2, h3]; simp; omega
  · -- a negative, b effectively non-negative
    by_cases hc : 0 < secp256k1_num_cmp a b
    · rw [if_pos hc]
      obtain ⟨s, h1, h2, h3, h4⟩ := sub_abs_spec W NL { r with neg := true } a b ha
        (hcl.1 hc) (by omega)
      refine ⟨s, h1, ?_, h4⟩
      simp only [h2, h3]; simp; omega
    · rw [if_neg hc]
      obtain ⟨s, h1, h2, h3, h4⟩ := sub_abs_spec W NL { r with neg := false } b a hb
        (hcl.2 hc) (by omega)
      refine ⟨s, h1, ?_, h4⟩
      simp only [h2, h3]; simp; omega
  · -- a non-negative, b effectively negative
    by_cases hc : 0 < secp256k1_num_cmp a b
    · rw [if_pos hc]
      obtain ⟨s, h1, h2, h3, h4⟩ := sub_abs_spec W NL { r with neg := false } a b ha
        (hcl.1 hc) (by omega)
      refine ⟨s, h1, ?_, h4⟩
      simp only [h2, h3]; simp; omega
    · rw [if_neg hc]
      obtain ⟨s, h1, h2, h3, h4⟩ := sub_abs_spec W NL { r with neg := true } b a hb
        (hcl.2 hc) (by omega)
      refine ⟨s, h1, ?_, h4⟩
      simp only [h2, h3]; simp; omega
  · -- both effective signs negative
    by_cases hl : a.limbs ≥ b.limbs
    · rw [if_pos hl]
      obtain ⟨s, h1, h2, h3, h4⟩ := add_abs_spec W NL hW { r with neg := true } a b ha hb.1 hl
        (by omega)
      refine ⟨s, h1, ?_, h4⟩
      simp only [h2, h3]; simp; omega
    · rw [if_neg hl]
      obtain ⟨s, h1, h2, h3, h4⟩ := add_abs_spec W NL hW { r with neg := true } b a hb ha.1
        (by omega) (by omega)
      refine ⟨s, h1, ?_, h4⟩
      simp only [h2, h3]; simp

/-! ## Zero tests and the most significant limb -/

theorem nonzero_check_iff (W NL : Nat) (a : secp256k1_num_t) (ha : Sane W NL a) :
    (decide (a.limbs > 1) || a.limb 0 != 0) = true ↔ limbsVal W a.data ≠ 0 := by
  have hz := is_zero_iff W NL a ha
  have h1 := List.length_pos.mpr ((sanity_iff a).mp ha.2.1).1
  rw [ne_eq, ← hz.not]
  simp only [secp256k1_num_is_zero, secp256k1_num_t.limbs, Bool.or_eq_true, decide_eq_true_eq,
    bne_iff_ne, ne_eq, Bool.and_eq_true, beq_iff_eq, not_and]
  constructor
  · rintro (h | h) h2
    · omega
    · exact h
  · intro h
    by_cases h2 : a.data.length = 1
    · right; exact h h2
    · left; omega

theorem mul_zero_check_iff (W NL : Nat) (a : secp256k1_num_t) (ha : Sane W NL a) :
    (a.limbs == 1 && a.limb 0 == 0) = true ↔ limbsVal W a.data = 0 :=
  is_zero_iff W NL a ha

theorem getLastD_concat_eq (L : List Nat) (b d : Nat) : (L ++ [b]).getLastD d = b := by
  cases L <;> simp [List.getLastD]

theorem getLastD_ne_zero (W : Nat) (l : List Nat) (ht : trim l = l)
    (hv : limbsVal W l ≠ 0) : l.getLastD 0 ≠ 0 := by
  induction l using List.reverseRecOn with
  | nil => simp [limbsVal] at hv
  | append_singleton L b _ =>
    rw [getLastD_concat_eq]
    intro hb
    subst hb
    rw [trim_concat] at ht
    by_cases hL : L = []
    · subst hL; simp [limbsVal] at hv
    · rw [if_pos ⟨rfl, hL⟩] at ht
      have := trim_length_le L
      rw [ht] at this
      simp at this

theorem getD_last_eq_getLastD (l : List Nat) : l.getD (l.length - 1) 0 = l.getLastD 0 := by
  induction l using List.reverseRecOn with
  | nil => rfl
  | append_singleton L b _ =>
    rw [getLastD_concat_eq]
    simp [List.getD_eq_getElem?_getD]

/-- A non-zero canonical limb sequence is at least `B ^ (length - 1)`. -/
theorem limbsVal_ge_of_ne_zero (W : Nat) (l : List Nat) (ht : trim l = l)
    (hv : limbsVal W l ≠ 0) : (2 ^ W) ^ (l.length - 1) ≤ limbsVal W l := by
  by_cases h : 1 < l.length
  · exact limbsVal_ge_of_trim W l ht h
  · have : l.length - 1 = 0 := by omega
    rw [this, pow_zero]
    omega

theorem trimOnce_eq_trim (W : Nat) (l : List Nat) (hok : LimbsOk W l) (h2 : 2 ≤ l.length)
    (hge : (2 ^ W) ^ (l.length - 2) ≤ limbsVal W l) : trimOnce l = trim l := by
  induction l using List.reverseRecOn with
  | nil => rfl
  | append_singleton L b _ =>
    have hlen : 1 ≤ L.length := by simpa using h2
    have hL : L ≠ [] := by intro h; subst h; simp at hlen
    unfold trimOnce
    rw [trim_concat, getLastD_concat_eq, List.dropLast_concat]
    by_cases hb : b = 0
    · subst hb
      rw [if_pos ⟨by simp; omega, rfl⟩, if_pos ⟨rfl, hL⟩]
      symm
      apply trim_eq_self_of_ge W L (limbsOk_append.mp hok).1
      intro _
      rw [limbsVal_append] at hge
      simp only [List.length_append, List.length_singleton, limbsVal, Nat.mul_zero,
        Nat.add_zero] at hge
      have : L.length + 1 - 2 = L.length - 1 := by omega
      rw [this] at hge
      exact hge
    · rw [if_neg (by simp [hb]), if_neg (by simp [hb])]

/-! ## Multiplication, division, modular reduction -/

/-- Multiplication: when the product fits the capacity of a number, `secp256k1_num_mul`
stores the exact product of the magnitudes in canonical limb form; the flag is the xor of the
flags, and clear when an operand is zero. -/
theorem mul_spec (W NL : Nat) (r a b : secp256k1_num_t)
    (ha : Sane W NL a) (hb : Sane W NL b)
    (hcap : limbsVal W a.data * limbsVal W b.data < (2 ^ W) ^ (2 * NL)) :
    ∃ s, secp256k1_num_mul W NL r a b = some s ∧
      limbsVal W s.data = limbsVal W a.data * limbsVal W b.data ∧
      s.neg = (if limbsVal W a.data = 0 ∨ limbsVal W b.data = 0 then false
               else xor a.neg b.neg) ∧
      Sane W NL s ∧
      (limbsVal W a.data = 0 ∨ limbsVal W b.data = 0 → s.data = [0]) ∧
      (limbsVal W a.data ≠ 0 → limbsVal W b.data ≠ 0 →
        a.limbs + b.limbs - 1 ≤ s.limbs ∧ s.limbs ≤ a.limbs + b.limbs) := by
  have hB := two_pow_pos W
  have has := (sanity_iff a).mp ha.2.1
  have hbs := (sanity_iff b).mp hb.2.1
  have hla : 1 ≤ a.data.length := List.length_pos.mpr has.1
  have hlb : 1 ≤ b.data.length := List.length_pos.mpr hbs.1
  have hacap := ha.2.2
  have hbcap := hb.2.2
  unfold secp256k1_num_t.limbs at hacap hbcap
  have hNL : 1 ≤ 2 * NL := by omega
  by_cases hz : limbsVal W a.data = 0 ∨ limbsVal W b.data = 0
  · have hza := data_eq_zero_of_val_eq_zero W NL a ha
    have hzb := data_eq_zero_of_val_eq_zero W NL b hb
    have hlen : a.limbs + b.limbs ≤ 2 * NL + 1 := by
      unfold secp256k1_num_t.limbs
      rcases hz with h | h
      · rw [hza h]; simp; omega
      · rw [hzb h]; simp; omega
    have hchk : ((a.limbs == 1 && a.limb 0 == 0) || (b.limbs == 1 && b.limb 0 == 0)) = true := by
      rw [Bool.or_eq_true, mul_zero_check_iff W NL a ha, mul_zero_check_iff W NL b hb]
      exact hz
    simp only [secp256k1_num_mul, ha.2.1, hb.2.1, Bool.and_self, if_true, if_pos hlen, hchk]
    refine ⟨_, rfl, ?_, ?_, ?_, fun _ => rfl, fun h1 h2 => ?_⟩
    · rcases hz with h | h <;> simp [limbsVal, h]
    · rw [if_pos hz]
    · refine ⟨?_, by decide, by simp [secp256k1_num_t.limbs]; omega⟩
      intro x hx
      simp only [List.mem_singleton] at hx
      rw [hx]; exact hB
    · rcases hz with h | h
      · exact absurd h h1
      · exact absurd h h2
  · have hza : limbsVal W a.data ≠ 0 := fun h => hz (Or.inl h)
    have hzb : limbsVal W b.data ≠ 0 := fun h => hz (Or.inr h)
    have hga := limbsVal_ge_of_ne_zero W a.data has.2 hza
    have hgb := limbsVal_ge_of_ne_zero W b.data hbs.2 hzb
    have hprod : (2 ^ W) ^ (a.data.length + b.data.length - 2)
        ≤ limbsVal W a.data * limbsVal W b.data := by
      have : a.data.length + b.data.length - 2 = (a.data.length - 1) + (b.data.length - 1) := by
        omega
      rw [this, pow_add]
      exact Nat.mul_le_mul hga hgb
    have hlt : limbsVal W a.data * limbsVal W b.data
        < (2 ^ W) ^ (a.data.length + b.data.length) := by
      rw [pow_add]
      exact Nat.mul_lt_mul'' (limbsVal_lt W _ ha.1) (limbsVal_lt W _ hb.1)
    have hlen : a.limbs + b.limbs ≤ 2 * NL + 1 := by
      unfold secp256k1_num_t.limbs
      by_contra hcon
      have : (2 ^ W) ^ (2 * NL) ≤ (2 ^ W) ^ (a.data.length + b.data.length - 2) :=
        Nat.pow_le_pow_right hB (by omega)
      omega
    have hchk : ((a.limbs == 1 && a.limb 0 == 0) || (b.limbs == 1 && b.limb 0 == 0)) = false := by
      rw [Bool.eq_false_iff]
      intro h
      rw [Bool.or_eq_true, mul_zero_check_iff W NL a ha, mul_zero_check_iff W NL b hb] at h
      exact hz h
    have hmul : (if a.limbs ≥ b.limbs then mpn_mul W a.data b.data else mpn_mul W b.data a.data)
        = some (toLimbs W (a.data.length + b.data.length)
            (limbsVal W a.data * limbsVal W b.data)) := by
      unfold secp256k1_num_t.limbs mpn_mul
      by_cases hl : a.data.length ≥ b.data.length
      · rw [if_pos hl, if_pos ⟨hl, hlb⟩]
      · rw [if_neg hl, if_pos ⟨by omega, hla⟩, Nat.add_comm, Nat.mul_comm]
    have htrim : trimOnce (toLimbs W (a.data.length + b.data.length)
            (limbsVal W a.data * limbsVal W b.data))
        = trim (toLimbs W (a.data.length + b.data.length)
            (limbsVal W a.data * limbsVal W b.data)) := by
      apply trimOnce_eq_trim W _ (toLimbs_ok W _ _)
      · rw [toLimbs_length]; omega
      · rw [toLimbs_length, limbsVal_toLimbs, Nat.mod_eq_of_lt hlt]
        exact hprod
    have hne : toLimbs W (a.data.length + b.data.length)
        (limbsVal W a.data * limbsVal W b.data) ≠ [] := by
      intro h
      have := congrArg List.length h
      rw [toLimbs_length, List.length_nil] at this
      omega
    have hsane := sanity_trim _ (xor a.neg b.neg) hne
    have hval : limbsVal W (trim (toLimbs W (a.data.length + b.data.length)
        (limbsVal W a.data * limbsVal W b.data))) = limbsVal W a.data * limbsVal W b.data := by
      rw [limbsVal_trim, limbsVal_toLimbs, Nat.mod_eq_of_lt hlt]
    have hok := limbsOk_trim W _ (toLimbs_ok W (a.data.length + b.data.length)
        (limbsVal W a.data * limbsVal W b.data))
    have hup := trim_length_le (toLimbs W (a.data.length + b.data.length)
        (limbsVal W a.data * limbsVal W b.data))
    rw [toLimbs_length] at hup
    -- the limb count of the trimmed product
    have hlow : a.data.length + b.data.length - 1 ≤ (trim (toLimbs W
        (a.data.length + b.data.length) (limbsVal W a.data * limbsVal W b.data))).length := by
      by_contra hcon
      have h1 := limbsVal_lt W _ hok
      rw [hval] at h1
      have : (2 ^ W) ^ (trim (toLimbs W (a.data.length + b.data.length)
          (limbsVal W a.data * limbsVal W b.data))).length
          ≤ (2 ^ W) ^ (a.data.length + b.data.length - 2) :=
        Nat.pow_le_pow_right hB (by omega)
      omega
    have hcapr : (trim (toLimbs W (a.data.length + b.data.length)
        (limbsVal W a.data * limbsVal W b.data))).length ≤ 2 * NL := by
      by_contra hcon
      have hs2 : trim (trim (toLimbs W (a.data.length + b.data.length)
          (limbsVal W a.data * limbsVal W b.data)))
          = trim (toLimbs W (a.data.length + b.data.length)
          (limbsVal W a.data * limbsVal W b.data)) := ((sanity_iff _).mp hsane).2
      have h1 := limbsVal_ge_of_trim W _ hs2 (by omega)
      rw [hval] at h1
      have : (2 ^ W) ^ (2 * NL) ≤ (2 ^ W) ^ ((trim (toLimbs W (a.data.length + b.data.length)
          (limbsVal W a.data * limbsVal W b.data))).length - 1) :=
        Nat.pow_le_pow_right hB (by omega)
      omega
    simp only [secp256k1_num_mul, ha.2.1, hb.2.1, Bool.and_self, if_true, if_pos hlen, hchk,
      hmul, htrim, if_pos hcapr, Bool.false_eq_true, if_false]
    refine ⟨_, rfl, hval, ?_, ⟨hok, hsane, hcapr⟩, fun h => absurd h hz, fun _ _ => ⟨hlow, hup⟩⟩
    rw [if_neg hz]

theorem sane_zero (W NL : Nat) (hNL : 1 ≤ 2 * NL) (n : Bool) :
    Sane W NL { data := [0], neg := n } := by
  refine ⟨?_, by rfl, by simpa [secp256k1_num_t.limbs] using hNL⟩
  intro x hx
  simp only [List.mem_singleton] at hx
  rw [hx]; exact two_pow_pos W

theorem sane_capacity_pos (W NL : Nat) (a : secp256k1_num_t) (ha : Sane W NL a) :
    1 ≤ 2 * NL := by
  have h1 := List.length_pos.mpr ((sanity_iff a).mp ha.2.1).1
  have h2 := ha.2.2
  unfold secp256k1_num_t.limbs at h2
  omega

/-- Division: for a non-zero divisor `secp256k1_num_div` stores the quotient of the magnitudes
in canonical limb form; the flag is the xor of the flags, and the result is the plain zero when
the divisor has more limbs than the dividend. -/
theorem div_spec (W NL : Nat) (r a b : secp256k1_num_t)
    (ha : Sane W NL a) (hb : Sane W NL b) (hb0 : limbsVal W b.data ≠ 0) :
    ∃ s, secp256k1_num_div W r a b = some s ∧
      limbsVal W s.data = limbsVal W a.data / limbsVal W b.data ∧
      s.neg = (if b.limbs > a.limbs then false else xor a.neg b.neg) ∧
      Sane W NL s ∧ (b.limbs > a.limbs → s.data = [0]) := by
  have hB := two_pow_pos W
  have has := (sanity_iff a).mp ha.2.1
  have hbs := (sanity_iff b).mp hb.2.1
  have hla : 1 ≤ a.data.length := List.length_pos.mpr has.1
  have hlb : 1 ≤ b.data.length := List.length_pos.mpr hbs.1
  have hacap := ha.2.2
  unfold secp256k1_num_t.limbs at hacap
  have hNL := sane_capacity_pos W NL a ha
  by_cases hl : b.limbs > a.limbs
  · simp only [secp256k1_num_div, ha.2.1, hb.2.1, Bool.and_self, if_true, if_pos hl]
    refine ⟨_, rfl, ?_, rfl, sane_zero W NL hNL false, fun _ => rfl⟩
    have := limbsVal_lt_of_length_lt W a.data b.data ha.1 hbs.2 hl has.1
    rw [Nat.div_eq_of_lt this]
    simp [limbsVal]
  · have hl2 : b.data.length ≤ a.data.length := by
      unfold secp256k1_num_t.limbs at hl; omega
    have htop := getLastD_ne_zero W b.data hbs.2 hb0
    have hgb := limbsVal_ge_of_ne_zero W b.data hbs.2 hb0
    have hq : limbsVal W a.data / limbsVal W b.data
        < (2 ^ W) ^ (a.data.length - b.data.length + 1) := by
      rw [Nat.div_lt_iff_lt_mul (Nat.pos_of_ne_zero hb0)]
      calc limbsVal W a.data < (2 ^ W) ^ a.data.length := limbsVal_lt W _ ha.1
        _ = (2 ^ W) ^ (a.data.length - b.data.length + 1) * (2 ^ W) ^ (b.data.length - 1) := by
            rw [← pow_add]; congr 1; omega
        _ ≤ (2 ^ W) ^ (a.data.length - b.data.length + 1) * limbsVal W b.data :=
            Nat.mul_le_mul_left _ hgb
    have hne : toLimbs W (a.data.length - b.data.length + 1)
        (limbsVal W a.data / limbsVal W b.data) ≠ [] := by
      intro h
      have := congrArg List.length h
      rw [toLimbs_length, List.length_nil] at this
      omega
    have hup := trim_length_le (toLimbs W (a.data.length - b.data.length + 1)
        (limbsVal W a.data / limbsVal W b.data))
    rw [toLimbs_length] at hup
    simp only [secp256k1_num_div, ha.2.1, hb.2.1, Bool.and_self, if_true, if_neg hl,
      mpn_tdiv_qr, if_pos (And.intro hl2 (And.intro hlb htop))]
    refine ⟨_, rfl, ?_, rfl, ⟨limbsOk_trim W _ (toLimbs_ok W _ _), sanity_trim _ _ hne, ?_⟩,
      fun h => absurd h hl⟩
    · rw [limbsVal_trim, limbsVal_toLimbs, Nat.mod_eq_of_lt hq]
    · simp only [secp256k1_num_t.limbs]; omega

/-- Modular reduction: for a non-zero modulus `secp256k1_num_mod` leaves in `r` the residue of
the signed value of `r` in `[0, |m|)`, in canonical limb form. -/
theorem mod_spec (W NL : Nat) (r m : secp256k1_num_t)
    (hr : Sane W NL r) (hm : Sane W NL m) (hm0 : limbsVal W m.data ≠ 0) :
    ∃ s, secp256k1_num_mod W r m = some s ∧
      limbsVal W s.data = (if r.neg = true ∧ limbsVal W r.data % limbsVal W m.data ≠ 0
        then limbsVal W m.data - limbsVal W r.data % limbsVal W m.data
        else limbsVal W r.data % limbsVal W m.data) ∧
      s.neg = (r.neg && decide (limbsVal W r.data % limbsVal W m.data = 0)) ∧
      Sane W NL s := by
  have hB := two_pow_pos W
  have hrs := (sanity_iff r).mp hr.2.1
  have hms := (sanity_iff m).mp hm.2.1
  have hlr : 1 ≤ r.data.length := List.length_pos.mpr hrs.1
  have hlm : 1 ≤ m.data.length := List.length_pos.mpr hms.1
  have hmcap := hm.2.2
  have hrcap := hr.2.2
  unfold secp256k1_num_t.limbs at hmcap hrcap
  have htop := getLastD_ne_zero W m.data hms.2 hm0
  have hmpos : 0 < limbsVal W m.data := Nat.pos_of_ne_zero hm0
  have hrem := Nat.mod_lt (limbsVal W r.data) hmpos
  -- the first step: the remainder of the magnitudes
  have step1 : ∃ r1, (if r.limbs ≥ m.limbs then
            match mpn_tdiv_qr W r.data m.data with
            | none => none
            | some (_, rem) => some { r with data := trim rem }
          else some r) = some r1 ∧ r1.neg = r.neg ∧
          limbsVal W r1.data = limbsVal W r.data % limbsVal W m.data ∧ Sane W NL r1 ∧
          r1.limbs ≤ m.limbs := by
    by_cases hl : r.limbs ≥ m.limbs
    · have hl2 : m.data.length ≤ r.data.length := hl
      have hne : toLimbs W m.data.length (limbsVal W r.data % limbsVal W m.data) ≠ [] := by
        intro h
        have := congrArg List.length h
        rw [toLimbs_length, List.length_nil] at this
        omega
      have hup := trim_length_le (toLimbs W m.data.length
        (limbsVal W r.data % limbsVal W m.data))
      rw [toLimbs_length] at hup
      simp only [if_pos hl, mpn_tdiv_qr, if_pos (And.intro hl2 (And.intro hlm htop))]
      refine ⟨_, rfl, rfl, ?_, ⟨limbsOk_trim W _ (toLimbs_ok W _ _), sanity_trim _ _ hne, ?_⟩, ?_⟩
      · rw [limbsVal_trim, limbsVal_toLimbs]
        exact Nat.mod_eq_of_lt (lt_trans hrem (limbsVal_lt W _ hm.1))
      · simp only [secp256k1_num_t.limbs]; omega
      · simp only [secp256k1_num_t.limbs]; omega
    · rw [if_neg hl]
      have hl2 : r.data.length < m.data.length := by
        unfold secp256k1_num_t.limbs at hl; omega
      refine ⟨r, rfl, rfl, ?_, hr, ?_⟩
      · exact (Nat.mod_eq_of_lt (limbsVal_lt_of_length_lt W _ _ hr.1 hms.2 hl2 hrs.1)).symm
      · simp only [secp256k1_num_t.limbs]; omega
  obtain ⟨r1, h1, h1n, h1v, h1s, h1l⟩ := step1
  have hchk := nonzero_check_iff W NL r1 h1s
  simp only [secp256k1_num_mod, hr.2.1, hm.2.1, Bool.and_self, if_true, h1]
  by_cases hc : r.neg = true ∧ limbsVal W r.data % limbsVal W m.data ≠ 0
  · have hcond : (r1.neg && (decide (r1.limbs > 1) || r1.limb 0 != 0)) = true := by
      rw [Bool.and_eq_true, hchk, h1n, h1v]; exact hc
    obtain ⟨s, hs1, _, hs3, hs4⟩ := sub_abs_spec W NL r1 m r1 hm h1l (by omega)
    simp only [hcond, if_true, hs1]
    refine ⟨_, rfl, ?_, ?_, ⟨hs4.1, ?_, hs4.2.2⟩⟩
    · rw [if_pos hc]; show limbsVal W s.data = _; rw [hs3, h1v]
    · simp [hc.2]
    · have := hs4.2.1
      rw [sanity_iff] at this ⊢
      exact this
  · have hcond : (r1.neg && (decide (r1.limbs > 1) || r1.limb 0 != 0)) = false := by
      rw [Bool.eq_false_iff]
      intro h
      rw [Bool.and_eq_true, hchk, h1n, h1v] at h
      exact hc h
    simp only [hcond, Bool.false_eq_true, if_false]
    refine ⟨r1, rfl, ?_, ?_, h1s⟩
    · rw [if_neg hc, h1v]
    · rw [h1n]
      cases hn : r.neg
      · rfl
      · simp only [Bool.true_and]
        have : limbsVal W r.data % limbsVal W m.data = 0 := by
          by_contra h0
          exact hc ⟨hn, h0⟩
        simp [this]

/-- The signed value after `secp256k1_num_mod` is the residue of the signed value before. -/
theorem mod_toInt (W : Nat) (r m s : secp256k1_num_t) (hm0 : limbsVal W m.data ≠ 0)
    (hv : limbsVal W s.data = (if r.neg = true ∧ limbsVal W r.data % limbsVal W m.data ≠ 0
        then limbsVal W m.data - limbsVal W r.data % limbsVal W m.data
        else limbsVal W r.data % limbsVal W m.data))
    (hn : s.neg = (r.neg && decide (limbsVal W r.data % limbsVal W m.data = 0))) :
    s.toInt W = r.toInt W % (limbsVal W m.data : Int) := by
  have hmpos : 0 < limbsVal W m.data := Nat.pos_of_ne_zero hm0
  have hrem := Nat.mod_lt (limbsVal W r.data) hmpos
  have hdm := Nat.div_add_mod (limbsVal W r.data) (limbsVal W m.data)
  unfold secp256k1_num_t.toInt
  rw [hn, hv]
  cases hneg : r.neg
  · simp
  · by_cases h0 : limbsVal W r.data % limbsVal W m.data = 0
    · have hdvd : (limbsVal W m.data : Int) ∣ (limbsVal W r.data : Int) :=
        Int.natCast_dvd_natCast.mpr (Nat.dvd_of_mod_eq_zero h0)
      simp only [h0, Bool.true_and, decide_True, if_true, ne_eq, not_true_eq_false, and_false,
        if_false, Nat.cast_zero, neg_zero]
      rw [Int.emod_eq_zero_of_dvd ((Int.dvd_neg).mpr hdvd)]
    · simp only [h0, Bool.true_and, decide_False, ne_eq, not_false_eq_true, and_self, if_true,
        Bool.false_eq_true, if_false]
      have hdmZ : (limbsVal W m.data : Int) * ((limbsVal W r.data / limbsVal W m.data : Nat) : Int)
          + ((limbsVal W r.data % limbsVal W m.data : Nat) : Int) = (limbsVal W r.data : Int) := by
        exact_mod_cast hdm
      have hsub : ((limbsVal W m.data - limbsVal W r.data % limbsVal W m.data : Nat) : Int)
          = (limbsVal W m.data : Int) - ((limbsVal W r.data % limbsVal W m.data : Nat) : Int) :=
        Nat.cast_sub (le_of_lt hrem)
      have e : -(limbsVal W r.data : Int)
          = ((limbsVal W m.data - limbsVal W r.data % limbsVal W m.data : Nat) : Int)
            + (-((limbsVal W r.data / limbsVal W m.data : Nat) : Int) - 1)
              * (limbsVal W m.data : Int) := by
        rw [hsub]; linear_combination hdmZ
      rw [e, Int.add_mul_emod_self, Int.emod_eq_of_lt (by omega) (by omega)]

/-! ## Bit length and splitting -/

theorem bitsLoop_spec (fuel x ret : Nat) (hx : x < 2 ^ fuel) :
    ret ≤ bitsLoop fuel x ret ∧ x < 2 ^ (bitsLoop fuel x ret - ret) := by
  induction fuel generalizing x ret with
  | zero =>
    simp only [bitsLoop, Nat.sub_self, pow_zero] at hx ⊢
    exact ⟨le_refl _, hx⟩
  | succ f ih =>
    simp only [bitsLoop]
    by_cases h0 : x = 0
    · subst h0; simp
    · rw [if_pos h0, Nat.shiftRight_eq_div_pow, pow_one]
      have hx2 : x / 2 < 2 ^ f := by
        rw [pow_succ] at hx
        omega
      obtain ⟨h1, h2⟩ := ih (x / 2) (ret + 1) hx2
      refine ⟨by omega, ?_⟩
      have e : bitsLoop f (x / 2) (ret + 1) - ret
          = (bitsLoop f (x / 2) (ret + 1) - (ret + 1)) + 1 := by omega
      rw [e, pow_succ]
      omega

/-- The magnitude of a number is below `2 ^ secp256k1_num_bits`. -/
theorem mag_lt_two_pow_bits (W : Nat) (a : secp256k1_num_t) (hok : LimbsOk W a.data) :
    limbsVal W a.data < 2 ^ secp256k1_num_bits W a := by
  obtain ⟨d, n⟩ := a
  unfold secp256k1_num_bits secp256k1_num_t.limbs secp256k1_num_t.limb
  simp only
  induction d using List.reverseRecOn with
  | nil =>
    simp only [limbsVal, List.length_nil]
    exact Nat.pos_pow_of_pos _ (by decide)
  | append_singleton L b _ =>
    have hb : b < 2 ^ W := (limbsOk_append.mp hok).2 b (List.mem_singleton_self b)
    have hL := limbsVal_lt W L (limbsOk_append.mp hok).1
    rw [getD_last_eq_getLastD, getLastD_concat_eq, limbsVal_append]
    simp only [List.length_append, List.length_singleton, Nat.add_sub_cancel, limbsVal,
      Nat.mul_zero, Nat.add_zero]
    obtain ⟨h1, h2⟩ := bitsLoop_spec W b (L.length * W) hb
    have e : bitsLoop W b (L.length * W)
        = L.length * W + (bitsLoop W b (L.length * W) - L.length * W) := by omega
    rw [e, pow_add, Nat.mul_comm L.length W, pow_mul]
    calc limbsVal W L + (2 ^ W) ^ L.length * b
        < (2 ^ W) ^ L.length + (2 ^ W) ^ L.length * b := by omega
      _ = (2 ^ W) ^ L.length * (b + 1) := by ring
      _ ≤ (2 ^ W) ^ L.length * 2 ^ (bitsLoop W b (W * L.length) - W * L.length) := by
          rw [Nat.mul_comm W L.length]
          exact Nat.mul_le_mul_left _ h2

theorem limbsVal_take (W : Nat) (l : List Nat) (hok : LimbsOk W l) (k : Nat)
    (hk : k ≤ l.length) : limbsVal W (l.take k) = limbsVal W l % (2 ^ W) ^ k := by
  have h := limbsVal_append W (l.take k) (l.drop k)
  rw [List.take_append_drop, List.length_take, Nat.min_eq_left hk] at h
  have hok2 : LimbsOk W (l.take k) := fun x hx => hok x (List.mem_of_mem_take hx)
  have hlt := limbsVal_lt W _ hok2
  rw [List.length_take, Nat.min_eq_left hk] at hlt
  rw [h, Nat.add_mul_mod_self_left, Nat.mod_eq_of_lt hlt]

theorem limbsVal_drop (W : Nat) (l : List Nat) (hok : LimbsOk W l) (k : Nat)
    (hk : k ≤ l.length) : limbsVal W (l.drop k) = limbsVal W l / (2 ^ W) ^ k := by
  have h := limbsVal_append W (l.take k) (l.drop k)
  rw [List.take_append_drop, List.length_take, Nat.min_eq_left hk] at h
  have hok2 : LimbsOk W (l.take k) := fun x hx => hok x (List.mem_of_mem_take hx)
  have hlt := limbsVal_lt W _ hok2
  rw [List.length_take, Nat.min_eq_left hk] at hlt
  have hpos : 0 < (2 ^ W) ^ k := Nat.pos_pow_of_pos _ (two_pow_pos W)
  rw [h, Nat.add_mul_div_left _ _ hpos, Nat.div_eq_of_lt hlt, Nat.zero_add]

theorem take_succ_getD (l : List Nat) (k : Nat) (hk : k < l.length) :
    l.take k ++ [l.getD k 0] = l.take (k + 1) := by
  rw [List.take_succ, List.getD_eq_getElem?_getD, List.getElem?_eq_getElem hk]
  rfl

/-- The copying loop of `secp256k1_num_split` moves `left / W` whole limbs and leaves
`left % W` bits. -/
theorem splitCopy_spec (W : Nat) (hW : 0 < W) (a : secp256k1_num_t) (fuel k left : Nat)
    (hf : left ≤ fuel) (hk : k + left / W ≤ a.data.length) :
    splitCopy W a fuel (a.data.take k) left = (a.data.take (k + left / W), left % W) := by
  induction fuel generalizing k left with
  | zero =>
    have : left = 0 := by omega
    subst this
    simp [splitCopy]
  | succ f ih =>
    simp only [splitCopy]
    by_cases hl : left ≥ W
    · rw [if_pos hl]
      have hdiv : left / W = (left - W) / W + 1 := by
        rw [← Nat.sub_add_cancel hl, Nat.add_div_right _ hW]; simp
      have hmod : left % W = (left - W) % W := by
        conv_lhs => rw [← Nat.sub_add_cancel hl]
        exact Nat.add_mod_right _ _
      have hq0 := Nat.zero_le ((left - W) / W)
      have hklt : k < a.data.length := by omega
      have hlen : (a.data.take k).length = k := by
        rw [List.length_take]; omega
      rw [hlen]
      have := take_succ_getD a.data k hklt
      unfold secp256k1_num_t.limb
      rw [this, ih (k + 1) (left - W) (by omega) (by omega), hdiv, hmod]
      congr 2
      omega
    · rw [if_neg hl]
      have h1 : left / W = 0 := Nat.div_eq_of_lt (by omega)
      have h2 : left % W = left := Nat.mod_eq_of_lt (by omega)
      rw [h1, h2, Nat.add_zero]

theorem drop_eq_limb_cons (l : List Nat) (k : Nat) (hk : k < l.length) :
    l.drop k = l.getD k 0 :: l.drop (k + 1) := by
  rw [List.getD_eq_getElem?_getD, List.getElem?_eq_getElem hk]
  exact List.drop_eq_getElem_cons hk

/-- The low part written by `secp256k1_num_split` when `left > 0`. -/
theorem limbsVal_low_part (W : Nat) (l : List Nat) (hok : LimbsOk W l) (k left : Nat)
    (hk : k < l.length) (hleft : left < W) :
    limbsVal W (l.take k ++ [l.getD k 0 &&& ((1 <<< left) - 1)])
      = limbsVal W l % ((2 ^ W) ^ k * 2 ^ left) := by
  have hd := limbsVal_drop W l hok k (le_of_lt hk)
  rw [drop_eq_limb_cons l k hk] at hd
  simp only [limbsVal] at hd
  have hB : 2 ^ W = 2 ^ left * 2 ^ (W - left) := by
    rw [← pow_add]; congr 1; omega
  have hmask : l.getD k 0 &&& ((1 <<< left) - 1) = (limbsVal W l / (2 ^ W) ^ k) % 2 ^ left := by
    rw [Nat.one_shiftLeft, Nat.and_pow_two_sub_one_eq_mod, ← hd]
    conv_rhs => rw [hB, Nat.mul_assoc, Nat.add_mul_mod_self_left]
  rw [limbsVal_append, limbsVal_take W l hok k (le_of_lt hk), List.length_take,
    Nat.min_eq_left (le_of_lt hk), hmask, Nat.mod_mul]
  simp [limbsVal]

theorem sane_of_parts (W NL : Nat) (d : List Nat) (n : Bool) (hok : LimbsOk W d) (hne : d ≠ [])
    (ht : trim d = d) (hcap : d.length ≤ 2 * NL) : Sane W NL { data := d, neg := n } :=
  ⟨hok, (sanity_iff _).mpr ⟨hne, ht⟩, hcap⟩

theorem sane_trim (W NL : Nat) (d : List Nat) (n : Bool) (hok : LimbsOk W d) (hne : d ≠ [])
    (hcap : d.length ≤ 2 * NL) : Sane W NL { data := trim d, neg := n } :=
  ⟨limbsOk_trim W d hok, sanity_trim d n hne, le_trans (trim_length_le d) hcap⟩

/-- Splitting: `secp256k1_num_split` returns the low `bits` bits of the magnitude and the
remaining high bits, both in canonical limb form and both with the flag of `a`. -/
theorem split_spec (W NL : Nat) (hW : 0 < W) (r1 r2 a : secp256k1_num_t) (bits : Nat)
    (ha : Sane W NL a) (hbits : 0 < bits) :
    ∃ rl rh, secp256k1_num_split W r1 r2 a bits = some (rl, rh) ∧
      limbsVal W rl.data = limbsVal W a.data % 2 ^ bits ∧
      limbsVal W rh.data = limbsVal W a.data / 2 ^ bits ∧
      rl.neg = a.neg ∧ rh.neg = a.neg ∧ Sane W NL rl ∧ Sane W NL rh := by
  have hB := two_pow_pos W
  have has := (sanity_iff a).mp ha.2.1
  have hla : 1 ≤ a.data.length := List.length_pos.mpr has.1
  have hacap := ha.2.2
  unfold secp256k1_num_t.limbs at hacap
  have hNL := sane_capacity_pos W NL a ha
  have hva := limbsVal_lt W _ ha.1
  unfold secp256k1_num_split
  rw [if_pos hbits]
  by_cases hbig : bits ≥ a.limbs * W
  · rw [if_pos hbig]
    have hlt : limbsVal W a.data < 2 ^ bits := by
      calc limbsVal W a.data < (2 ^ W) ^ a.data.length := hva
        _ = 2 ^ (W * a.data.length) := by rw [pow_mul]
        _ ≤ 2 ^ bits := Nat.pow_le_pow_right (by decide) (by
            unfold secp256k1_num_t.limbs at hbig; rw [Nat.mul_comm]; exact hbig)
    refine ⟨a, _, rfl, (Nat.mod_eq_of_lt hlt).symm, ?_, rfl, rfl, ha, sane_zero W NL hNL _⟩
    rw [Nat.div_eq_of_lt hlt]; simp [limbsVal]
  · rw [if_neg hbig]
    unfold secp256k1_num_t.limbs at hbig
    have hbl : bits < a.data.length * W := by omega
    have hk : bits / W < a.data.length := Nat.div_lt_of_lt_mul (by rw [Nat.mul_comm]; exact hbl)
    have hleft : bits % W < W := Nat.mod_lt _ hW
    have hsc : splitCopy W a bits [] bits = (a.data.take (bits / W), bits % W) := by
      have := splitCopy_spec W hW a bits 0 bits (le_refl _) (by omega)
      rw [List.take_zero, Nat.zero_add] at this
      exact this
    have hlen : (a.data.take (bits / W)).length = bits / W := by
      rw [List.length_take]; omega
    have hpow : 2 ^ bits = (2 ^ W) ^ (bits / W) * 2 ^ (bits % W) := by
      rw [← pow_mul, ← pow_add, Nat.div_add_mod]
    have hdl : (a.data.drop (bits / W)).length = a.data.length - bits / W := List.length_drop _ _
    have hdok : LimbsOk W (a.data.drop (bits / W)) := fun x hx => ha.1 x (List.mem_of_mem_drop hx)
    have htok : LimbsOk W (a.data.take (bits / W)) := fun x hx => ha.1 x (List.mem_of_mem_take hx)
    have hdv := limbsVal_drop W a.data ha.1 (bits / W) (le_of_lt hk)
    rw [hsc]
    simp only [hlen]
    by_cases hl0 : bits % W = 0
    · -- whole limbs only
      have hkpos : 1 ≤ bits / W := by
        have := Nat.div_add_mod bits W
        rw [hl0] at this
        by_contra hcon
        have h0 : bits / W = 0 := by omega
        rw [h0] at this
        simp at this
        omega
      rw [hl0] at hpow
      simp only [hl0, if_true, lt_irrefl, if_false, pow_zero, Nat.mul_one] at hpow ⊢
      have htne : a.data.take (bits / W) ≠ [] := by
        intro h
        have := congrArg List.length h
        rw [hlen, List.length_nil] at this
        omega
      have hdne : a.data.drop (bits / W) ≠ [] := by
        intro h
        have := congrArg List.length h
        rw [hdl, List.length_nil] at this
        omega
      refine ⟨_, _, rfl, ?_, ?_, rfl, rfl, sane_trim W NL _ _ htok htne (by omega), ?_⟩
      · rw [limbsVal_trim, limbsVal_take W _ ha.1 _ (le_of_lt hk), hpow]
      · rw [hdv, hpow]
      · apply sane_of_parts W NL _ _ hdok hdne ?_ (by omega)
        apply trim_eq_self_of_ge W _ hdok
        intro h1
        rw [hdl] at h1 ⊢
        rw [hdv, Nat.le_div_iff_mul_le (Nat.pos_pow_of_pos _ hB), ← pow_add]
        have := limbsVal_ge_of_trim W a.data has.2 (by omega)
        have e : a.data.length - bits / W - 1 + bits / W = a.data.length - 1 := by omega
        rw [e]
        exact this
    · -- a limb is cut
      have hlpos : 0 < bits % W := Nat.pos_of_ne_zero hl0
      have hrs : mpn_rshift W (a.data.drop (bits / W)) (bits % W)
          = some (toLimbs W (a.data.length - bits / W)
              (limbsVal W a.data / (2 ^ W) ^ (bits / W) / 2 ^ (bits % W)),
            (limbsVal W (a.data.drop (bits / W)) % 2 ^ (bits % W)) * 2 ^ (W - bits % W)) := by
        unfold mpn_rshift
        rw [if_pos ⟨hlpos, hleft, by rw [hdl]; omega⟩, hdl, hdv]
      have hne1 : toLimbs W (a.data.length - bits / W)
          (limbsVal W a.data / (2 ^ W) ^ (bits / W) / 2 ^ (bits % W)) ≠ [] := by
        intro h
        have := congrArg List.length h
        rw [toLimbs_length, List.length_nil] at this
        omega
      have hhigh : limbsVal W a.data / (2 ^ W) ^ (bits / W) / 2 ^ (bits % W)
          < (2 ^ W) ^ (a.data.length - bits / W) := by
        apply lt_of_le_of_lt (Nat.div_le_self _ _)
        rw [← hdv, ← hdl]
        exact limbsVal_lt W _ hdok
      simp only [hl0, if_false, hrs, hlpos, if_true]
      refine ⟨_, _, rfl, ?_, ?_, rfl, rfl, ?_, ?_⟩
      · rw [limbsVal_trim, hpow]
        exact limbsVal_low_part W a.data ha.1 _ _ hk hleft
      · rw [limbsVal_trim, limbsVal_toLimbs, Nat.mod_eq_of_lt hhigh, hpow,
          Nat.div_div_eq_div_mul]
      · apply sane_trim W NL _ _ ?_ (by simp) ?_
        · apply limbsOk_append.mpr ⟨htok, ?_⟩
          intro x hx
          simp only [List.mem_singleton] at hx
          rw [hx, Nat.one_shiftLeft, Nat.and_pow_two_sub_one_eq_mod]
          exact lt_of_lt_of_le (Nat.mod_lt _ (Nat.pos_pow_of_pos _ (by decide)))
            (Nat.pow_le_pow_right (by decide) (le_of_lt hleft))
        · rw [List.length_append, hlen, List.length_singleton]; omega
      · apply sane_trim W NL _ _ (toLimbs_ok W _ _) hne1
        rw [toLimbs_length]; omega

/-! ## Modular inverse -/

theorem mpn_normalize_concat (L : List Nat) (b : Nat) :
    mpn_normalize (L ++ [b]) = if b = 0 then mpn_normalize L else L ++ [b] := by
  unfold mpn_normalize
  rw [List.reverse_append, List.reverse_singleton, List.singleton_append]
  by_cases hb : b = 0
  · subst hb; simp [List.dropWhile]
  · have hb2 : (b == 0) = false := by simpa using hb
    simp [List.dropWhile, hb, hb2]

/-- On a non-zero value `MPN_NORMALIZE` and the trimming loop agree. -/
theorem mpn_normalize_eq_trim (W : Nat) (l : List Nat) (hv : limbsVal W l ≠ 0) :
    mpn_normalize l = trim l := by
  induction l using List.reverseRecOn with
  | nil => simp [limbsVal] at hv
  | append_singleton L b ih =>
    rw [mpn_normalize_concat, trim_concat]
    by_cases hb : b = 0
    · subst hb
      have hvL : limbsVal W L ≠ 0 := by
        rw [limbsVal_append] at hv
        simpa [limbsVal] using hv
      have hL : L ≠ [] := by
        intro h; subst h; simp [limbsVal] at hvL
      rw [if_pos rfl, if_pos ⟨rfl, hL⟩, ih hvL]
    · rw [if_neg hb, if_neg (by simp [hb])]

/-- The limbs `MPN_NORMALIZE` leaves of a non-zero value below `B ^ n`. -/
theorem normalize_toLimbs_spec (W NL : Nat) (n v k : Nat) (hv0 : v ≠ 0)
    (hv : v < (2 ^ W) ^ k) (hkn : k ≤ n) (hcap : k ≤ 2 * NL) (neg : Bool) :
    limbsVal W (mpn_normalize (toLimbs W n v)) = v ∧
    Sane W NL { data := mpn_normalize (toLimbs W n v), neg := neg } ∧
    (mpn_normalize (toLimbs W n v)).length ≤ k := by
  have hB := two_pow_pos W
  have hvn : v < (2 ^ W) ^ n := lt_of_lt_of_le hv (Nat.pow_le_pow_right hB hkn)
  have hval : limbsVal W (toLimbs W n v) = v := by
    rw [limbsVal_toLimbs, Nat.mod_eq_of_lt hvn]
  have hne : toLimbs W n v ≠ [] := by
    intro h
    rw [h] at hval
    simp [limbsVal] at hval
    exact hv0 hval.symm
  rw [mpn_normalize_eq_trim W _ (by rw [hval]; exact hv0)]
  have hs := sanity_trim (toLimbs W n v) neg hne
  have hlen : (trim (toLimbs W n v)).length ≤ k := by
    by_contra hcon
    have hk1 : 1 < (trim (toLimbs W n v)).length := by
      have : 1 ≤ k := by
        by_contra h0
        have : k = 0 := by omega
        subst this
        simp at hv
        exact hv0 hv
      omega
    have h1 := limbsVal_ge_of_trim W _ ((sanity_iff _).mp hs).2 hk1
    simp only at h1
    rw [limbsVal_trim, hval] at h1
    have : (2 ^ W) ^ k ≤ (2 ^ W) ^ ((trim (toLimbs W n v)).length - 1) :=
      Nat.pow_le_pow_right hB (by omega)
    omega
  refine ⟨by rw [limbsVal_trim, hval], ⟨limbsOk_trim W _ (toLimbs_ok W _ _), hs, ?_⟩, hlen⟩
  simp only [secp256k1_num_t.limbs]
  omega

theorem range_map_limb (l : List Nat) :
    (List.range l.length).map (fun i => l.getD i 0) = l := by
  apply List.ext_getElem
  · simp
  · intro i h1 h2
    simp [List.getD_eq_getElem?_getD, List.getElem?_eq_getElem h2]

theorem range_map_pad (l : List Nat) (n : Nat) (hn : l.length ≤ n) :
    (List.range n).map (fun i => if i < l.length then l.getD i 0 else 0)
      = l ++ List.replicate (n - l.length) 0 := by
  apply List.ext_getElem
  · simp; omega
  · intro i h1 h2
    simp only [List.getElem_map, List.getElem_range]
    by_cases hi : i < l.length
    · rw [if_pos hi, List.getElem_append_left hi, List.getD_eq_getElem?_getD,
        List.getElem?_eq_getElem hi]
      rfl
    · rw [if_neg hi, List.getElem_append_right (by omega)]
      simp

/-- The loop of Euclid's algorithm returns the greatest common divisor together with a
cofactor of `U` modulo `V`. -/
theorem gcdextLoop_spec (U V : Nat) (fuel r0 : Nat) (s0 : Int) (r1 : Nat) (s1 : Int)
    (hf : r1 < fuel) (h0 : (r0 : Int) ≡ (U : Int) * s0 [ZMOD (V : Int)])
    (h1 : (r1 : Int) ≡ (U : Int) * s1 [ZMOD (V : Int)])
    (hg : Nat.gcd r0 r1 = Nat.gcd U V) :
    (gcdextLoop fuel r0 s0 r1 s1).1 = Nat.gcd U V ∧
    ((Nat.gcd U V : Nat) : Int) ≡ (U : Int) * (gcdextLoop fuel r0 s0 r1 s1).2
      [ZMOD (V : Int)] := by
  induction fuel generalizing r0 s0 r1 s1 with
  | zero => omega
  | succ f ih =>
    simp only [gcdextLoop]
    by_cases hr : r1 = 0
    · subst hr
      rw [if_pos rfl]
      rw [Nat.gcd_zero_right] at hg
      exact ⟨hg, by rw [← hg]; exact h0⟩
    · rw [if_neg hr]
      have hlt : r0 % r1 < r1 := Nat.mod_lt _ (Nat.pos_of_ne_zero hr)
      apply ih r1 s1 (r0 % r1) (s0 - ((r0 / r1 : Nat) : Int) * s1) (by omega) h1
      · have e : ((r0 % r1 : Nat) : Int) = (r0 : Int) - ((r0 / r1 : Nat) : Int) * (r1 : Int) := by
          have := Nat.div_add_mod r0 r1
          have hz : (r1 : Int) * ((r0 / r1 : Nat) : Int) + ((r0 % r1 : Nat) : Int) = (r0 : Int) := by
            exact_mod_cast this
          linear_combination hz
        rw [e, mul_sub]
        apply Int.ModEq.sub h0
        have := Int.ModEq.mul_left ((r0 / r1 : Nat) : Int) h1
        calc ((r0 / r1 : Nat) : Int) * (r1 : Int)
            ≡ ((r0 / r1 : Nat) : Int) * ((U : Int) * s1) [ZMOD (V : Int)] := this
          _ = (U : Int) * (((r0 / r1 : Nat) : Int) * s1) := by ring
      · rw [← hg, Nat.gcd_comm r0 r1, Nat.gcd_rec r1 r0, Nat.gcd_comm]

/-- For coprime `U` and `V ≥ 2` the cofactor of `mpn_gcdext` is a non-zero inverse of `U`
modulo `V`, of absolute value below `V`. -/
theorem gcdextCofactor_spec (U V : Nat) (hV : 2 ≤ V) (hg : Nat.gcd U V = 1) :
    (U : Int) * gcdextCofactor U V ≡ 1 [ZMOD (V : Int)] ∧
    gcdextCofactor U V ≠ 0 ∧ (gcdextCofactor U V).natAbs < V := by
  have hloop := (gcdextLoop_spec U V (V + 1) U 1 V 0 (by omega) (by simp)
    (by simp [Int.ModEq]) rfl).2
  rw [hg] at hloop
  have hUV : U % V ≠ 0 := by
    intro h
    have hd : V ∣ U := Nat.dvd_of_mod_eq_zero h
    have : Nat.gcd U V = V := Nat.gcd_eq_right hd
    omega
  have hVpos : (0 : Int) < (V : Int) := by omega
  -- the reduced cofactor
  have hred : (U : Int) * ((gcdextLoop (V + 1) U 1 V 0).2 % (V : Int)) ≡ 1 [ZMOD (V : Int)] := by
    have h1 : (gcdextLoop (V + 1) U 1 V 0).2 % (V : Int) ≡ (gcdextLoop (V + 1) U 1 V 0).2
        [ZMOD (V : Int)] := Int.mod_modEq _ _
    exact ((Int.ModEq.mul_left (U : Int) h1).trans hloop.symm)
  have hnn := Int.emod_nonneg (gcdextLoop (V + 1) U 1 V 0).2 (by omega : (V : Int) ≠ 0)
  have hltV := Int.emod_lt_of_pos (gcdextLoop (V + 1) U 1 V 0).2 hVpos
  have hne0 : (gcdextLoop (V + 1) U 1 V 0).2 % (V : Int) ≠ 0 := by
    intro h
    rw [h, mul_zero] at hred
    have := hred
    unfold Int.ModEq at this
    rw [Int.zero_emod, Int.emod_eq_of_lt (by omega) (by omega)] at this
    omega
  unfold gcdextCofactor
  rw [if_neg hUV, hg, Nat.div_one]
  by_cases hs1 : (gcdextLoop (V + 1) U 1 V 0).2 % (V : Int) = 1
  · rw [if_pos hs1]
    rw [hs1] at hred
    exact ⟨hred, by omega, by simp; omega⟩
  · rw [if_neg hs1]
    by_cases h2 : 2 * ((gcdextLoop (V + 1) U 1 V 0).2 % (V : Int)) < (V : Int)
    · rw [if_pos h2]
      exact ⟨hred, hne0, by omega⟩
    · rw [if_neg h2]
      refine ⟨?_, by omega, by omega⟩
      have : (U : Int) * ((gcdextLoop (V + 1) U 1 V 0).2 % (V : Int) - (V : Int))
          = (U : Int) * ((gcdextLoop (V + 1) U 1 V 0).2 % (V : Int)) + (-(U : Int)) * (V : Int) := by
        ring
      rw [this]
      have h3 : (U : Int) * ((gcdextLoop (V + 1) U 1 V 0).2 % (V : Int)) + (-(U : Int)) * (V : Int)
          ≡ (U : Int) * ((gcdextLoop (V + 1) U 1 V 0).2 % (V : Int)) [ZMOD (V : Int)] := by
        unfold Int.ModEq
        exact Int.add_mul_emod_self
      exact h3.trans hred

theorem normalize_toLimbs_one (W : Nat) (hW : 0 < W) (n : Nat) (hn : 1 ≤ n) :
    mpn_normalize (toLimbs W n 1) = [1] := by
  have hok : LimbsOk W [1] := by
    intro x hx
    simp only [List.mem_singleton] at hx
    rw [hx]; exact one_lt_two_pow W hW
  have h1 : limbsVal W [1] = 1 := by simp [limbsVal]
  have h2 := trim_toLimbs_eq W [1] hok (by simp) rfl n (by simpa using hn)
  rw [h1] at h2
  rw [mpn_normalize_eq_trim W _ (by
    rw [limbsVal_toLimbs, Nat.mod_eq_of_lt (Nat.one_lt_pow (by omega) (one_lt_two_pow W hW))]
    exact one_ne_zero), h2]

/-- Modular inverse: for a canonical modulus `m ≥ 2` of at most `NUM_LIMBS` limbs and a
canonical `a` coprime to `m` with no more limbs than `m`, `secp256k1_num_mod_inverse` returns a
canonical number whose magnitude is the inverse of `|a|` modulo `|m|` in `(0, |m|)` and whose
flag is the xor of the flags of `a` and `m`. -/
theorem mod_inverse_spec (W NL : Nat) (hW : 0 < W) (r a m : secp256k1_num_t)
    (ha : Sane W NL a) (hm : Sane W NL m) (hm2 : 2 ≤ limbsVal W m.data)
    (hmcap : m.limbs ≤ NL) (hal : a.limbs ≤ m.limbs)
    (hg : Nat.gcd (limbsVal W a.data) (limbsVal W m.data) = 1) :
    ∃ s, secp256k1_num_mod_inverse W NL r a m = some s ∧ s.neg = xor a.neg m.neg ∧
      0 < limbsVal W s.data ∧ limbsVal W s.data < limbsVal W m.data ∧
      (limbsVal W a.data * limbsVal W s.data) % limbsVal W m.data = 1 ∧
      Sane W NL s ∧ s.limbs ≤ m.limbs := by
  have hB := two_pow_pos W
  have hms := (sanity_iff m).mp hm.2.1
  have hlm : 1 ≤ m.data.length := List.length_pos.mpr hms.1
  have hm0 : limbsVal W m.data ≠ 0 := by omega
  have htop := getLastD_ne_zero W m.data hms.2 hm0
  have htop2 : m.limb (m.limbs - 1) ≠ 0 := by
    unfold secp256k1_num_t.limb secp256k1_num_t.limbs
    rw [getD_last_eq_getLastD]; exact htop
  have hmcap2 := hmcap
  unfold secp256k1_num_t.limbs at hmcap hal
  have hvm := limbsVal_lt W _ hm.1
  obtain ⟨hc1, hc2, hc3⟩ := gcdextCofactor_spec (limbsVal W a.data) (limbsVal W m.data) hm2 hg
  -- the operands handed to mpn_gcdext
  have hu : (List.range m.limbs).map (fun i => if i < a.limbs then a.limb i else 0)
      = a.data ++ List.replicate (m.data.length - a.data.length) 0 :=
    range_map_pad a.data m.data.length hal
  have hv : (List.range m.limbs).map (fun i => m.limb i) = m.data := range_map_limb m.data
  have huv : limbsVal W (a.data ++ List.replicate (m.data.length - a.data.length) 0)
      = limbsVal W a.data := by
    rw [limbsVal_append, limbsVal_replicate_zero, Nat.mul_zero, Nat.add_zero]
  have hul : m.data.length ≤ (a.data ++ List.replicate (m.data.length - a.data.length) 0).length := by
    simp; omega
  -- the limbs of the cofactor
  have hclt : (gcdextCofactor (limbsVal W a.data) (limbsVal W m.data)).natAbs
      < (2 ^ W) ^ m.data.length := lt_trans hc3 hvm
  obtain ⟨hs1, hs2, hs3⟩ := normalize_toLimbs_spec W NL (m.data.length + 1)
    (gcdextCofactor (limbsVal W a.data) (limbsVal W m.data)).natAbs m.data.length
    (by omega) hclt (by omega) (by omega) (xor a.neg m.neg)
  have hua : limbsVal W a.data ≠ 0 := by
    intro h0
    rw [h0, Nat.gcd_zero_left] at hg
    omega
  have hpre1 : m.data.length ≤ (a.data ++ List.replicate (m.data.length - a.data.length) 0).length
      ∧ 1 ≤ m.data.length ∧ m.data.getLastD 0 ≠ 0
      ∧ limbsVal W (a.data ++ List.replicate (m.data.length - a.data.length) 0) ≠ 0 :=
    ⟨hul, hlm, htop, by rw [huv]; exact hua⟩
  have hpre2 : m.data.length ≤ (a.data ++ List.replicate (m.data.length - a.data.length) 0).length
      ∧ 1 ≤ m.data.length ∧ m.data.getLastD 0 ≠ 0 ∧ limbsVal W a.data ≠ 0 :=
    ⟨hul, hlm, htop, hua⟩
  simp only [secp256k1_num_mod_inverse, ha.2.1, hm.2.1, Bool.and_self, if_true, hu, hv,
    mpn_gcdext, if_pos hpre1, if_pos hpre2, huv, hg,
    normalize_toLimbs_one W hW _ hlm, List.length_singleton, List.getD_cons_zero, and_self,
    if_pos (And.intro hmcap2 htop2)]
  -- the congruence as a statement on natural numbers
  have hnat : ∀ x : Nat, (limbsVal W a.data : Int) * (x : Int) ≡ 1 [ZMOD (limbsVal W m.data : Int)] →
      (limbsVal W a.data * x) % limbsVal W m.data = 1 := by
    intro x hx
    have h1 : ((limbsVal W a.data * x : Nat) : Int) ≡ ((1 : Nat) : Int)
        [ZMOD ((limbsVal W m.data : Nat) : Int)] := by
      push_cast; exact hx
    have h2 := Int.natCast_modEq_iff.mp h1
    unfold Nat.ModEq at h2
    rw [h2, Nat.mod_eq_of_lt (by omega)]
  by_cases hneg : gcdextCofactor (limbsVal W a.data) (limbsVal W m.data) < 0
  · have hle : limbsVal W (mpn_normalize (toLimbs W (m.data.length + 1)
        (gcdextCofactor (limbsVal W a.data) (limbsVal W m.data)).natAbs)) ≤ limbsVal W m.data := by
      rw [hs1]; omega
    have hne : toLimbs W m.data.length (limbsVal W m.data
        - (gcdextCofactor (limbsVal W a.data) (limbsVal W m.data)).natAbs) ≠ [] := by
      intro h
      have := congrArg List.length h
      rw [toLimbs_length, List.length_nil] at this
      omega
    have hle2 : (gcdextCofactor (limbsVal W a.data) (limbsVal W m.data)).natAbs
        ≤ limbsVal W m.data := by omega
    simp only [hneg, decide_True, if_true, mpn_sub, if_pos hs3, if_pos hle, hs1, if_pos hle2]
    have hval : limbsVal W (trim (toLimbs W m.data.length (limbsVal W m.data
        - (gcdextCofactor (limbsVal W a.data) (limbsVal W m.data)).natAbs)))
        = limbsVal W m.data - (gcdextCofactor (limbsVal W a.data) (limbsVal W m.data)).natAbs := by
      rw [limbsVal_trim, limbsVal_toLimbs]
      exact Nat.mod_eq_of_lt (by omega)
    have hup := trim_length_le (toLimbs W m.data.length (limbsVal W m.data
        - (gcdextCofactor (limbsVal W a.data) (limbsVal W m.data)).natAbs))
    rw [toLimbs_length] at hup
    refine ⟨_, rfl, rfl, ?_, ?_, ?_, sane_trim W NL _ _ (toLimbs_ok W _ _) hne
      (by rw [toLimbs_length]; omega), hup⟩
    · show 0 < limbsVal W (trim _); rw [hval]; omega
    · show limbsVal W (trim _) < _; rw [hval]; omega
    · show (_ * limbsVal W (trim _)) % _ = 1
      rw [hval]
      apply hnat
      have e : ((limbsVal W m.data
          - (gcdextCofactor (limbsVal W a.data) (limbsVal W m.data)).natAbs : Nat) : Int)
          = gcdextCofactor (limbsVal W a.data) (limbsVal W m.data)
            + (limbsVal W m.data : Int) := by omega
      rw [e, mul_add]
      have h3 : (limbsVal W a.data : Int) * gcdextCofactor (limbsVal W a.data) (limbsVal W m.data)
          + (limbsVal W a.data : Int) * (limbsVal W m.data : Int)
          ≡ (limbsVal W a.data : Int) * gcdextCofactor (limbsVal W a.data) (limbsVal W m.data)
          [ZMOD (limbsVal W m.data : Int)] := by
        unfold Int.ModEq
        exact Int.add_mul_emod_self
      exact h3.trans hc1
  · simp only [hneg, decide_False, Bool.false_eq_true, if_false]
    refine ⟨_, rfl, rfl, ?_, ?_, ?_, hs2, hs3⟩
    · show 0 < limbsVal W (mpn_normalize _); rw [hs1]; omega
    · show limbsVal W (mpn_normalize _) < _; rw [hs1]; omega
    · show (_ * limbsVal W (mpn_normalize _)) % _ = 1
      rw [hs1]
      apply hnat
      have e : (((gcdextCofactor (limbsVal W a.data) (limbsVal W m.data)).natAbs : Nat) : Int)
          = gcdextCofactor (limbsVal W a.data) (limbsVal W m.data) := by omega
      rw [e]
      exact hc1

/-! ## The claims -/

/-- C1 as stated fails, with 64-bit limbs and `NUM_LIMBS = 4`: for `a = 2^64 + 1` and `m = 3`
(coprime) the inverse is computed from the low limb of `a` alone and the product is `2`
modulo `3`; for `m = 1` the inverse has no limb and the multiplication is rejected; for
`a = 3` and `m = -11` the inverse carries the flag of `m` and the product is `10` modulo
`11`. -/
theorem C1_mod_inverse_counterexample :
    (Canonical 64 4 { data := [1, 1], neg := false } ∧
     Canonical 64 4 { data := [3], neg := false } ∧
     Nat.gcd (limbsVal 64 [1, 1]) (limbsVal 64 [3]) = 1 ∧
     secp256k1_num_mod_inverse 64 4 { data := [0], neg := false }
       { data := [1, 1], neg := false } { data := [3], neg := false }
       = some { data := [1], neg := false } ∧
     secp256k1_num_mod_mul 64 4 { data := [0], neg := false } { data := [1, 1], neg := false }
       { data := [1], neg := false } { data := [3], neg := false }
       = some { data := [2], neg := false } ∧
     secp256k1_num_eq { data := [2], neg := false } { data := [1], neg := false } = false) ∧
    (Canonical 64 4 { data := [5], neg := false } ∧
     Canonical 64 4 { data := [1], neg := false } ∧
     Nat.gcd (limbsVal 64 [5]) (limbsVal 64 [1]) = 1 ∧
     secp256k1_num_mod_inverse 64 4 { data := [0], neg := false }
       { data := [5], neg := false } { data := [1], neg := false }
       = some { data := [], neg := false } ∧
     secp256k1_num_mod_mul 64 4 { data := [0], neg := false } { data := [5], neg := false }
       { data := [], neg := false } { data := [1], neg := false } = none) ∧
    (Canonical 64 4 { data := [3], neg := false } ∧
     Canonical 64 4 { data := [11], neg := true } ∧
     Nat.gcd (limbsVal 64 [3]) (limbsVal 64 [11]) = 1 ∧
     secp256k1_num_mod_inverse 64 4 { data := [0], neg := false }
       { data := [3], neg := false } { data := [11], neg := true }
       = some { data := [4], neg := true } ∧
     secp256k1_num_mod_mul 64 4 { data := [0], neg := false } { data := [3], neg := false }
       { data := [4], neg := true } { data := [11], neg := true }
       = some { data := [10], neg := false } ∧
     secp256k1_num_eq { data := [10], neg := false } { data := [1], neg := false } = false) := by
  decide

/-- C1 (amended): for every canonical `a` of either sign and every canonical modulus `m > 1` of
at most `NUM_LIMBS` limbs, with `gcd(|a|, m) = 1` and `a` of no more limbs than `m`,
`secp256k1_num_mod_inverse` returns a number `s`, `secp256k1_num_mod_mul` applied to `a`, `s`
and `m` returns a number `p`, and `p` is the number `1` (one limb `1`, flag clear), equal to it
under `secp256k1_num_eq`; and `modInverse(3, 11) = 4`. -/
theorem C1_mod_inverse_mul (W NL : Nat) (hW : 0 < W) (r1 r2 a m : secp256k1_num_t)
    (ha : Canonical W NL a) (hm : Canonical W NL m) (hm1 : 1 < m.toInt W)
    (hmcap : m.limbs ≤ NL) (hal : a.limbs ≤ m.limbs)
    (hg : Nat.gcd (limbsVal W a.data) (limbsVal W m.data) = 1) :
    (∃ s p, secp256k1_num_mod_inverse W NL r1 a m = some s ∧
      secp256k1_num_mod_mul W NL r2 a s m = some p ∧
      p = { data := [1], neg := false } ∧
      secp256k1_num_eq p { data := [1], neg := false } = true) ∧
    secp256k1_num_mod_inverse 64 4 r1 { data := [3], neg := false }
      { data := [11], neg := false } = some { data := [4], neg := false } := by
  refine ⟨?_, by rfl⟩
  have hB := two_pow_pos W
  have hmn : m.neg = false := by
    unfold secp256k1_num_t.toInt at hm1
    cases hn : m.neg
    · rfl
    · rw [hn] at hm1; simp at hm1; omega
  have hm2 : 2 ≤ limbsVal W m.data := by
    unfold secp256k1_num_t.toInt at hm1
    rw [hmn] at hm1
    simp at hm1
    omega
  have hm0 : limbsVal W m.data ≠ 0 := by omega
  obtain ⟨s, h1, h2, h3, h4, h5, h6, h7⟩ :=
    mod_inverse_spec W NL hW r1 a m ha.1 hm.1 hm2 hmcap hal hg
  rw [hmn, Bool.xor_false] at h2
  unfold secp256k1_num_t.limbs at hmcap hal h7
  have hcap : limbsVal W a.data * limbsVal W s.data < (2 ^ W) ^ (2 * NL) := by
    have ha1 : limbsVal W a.data < (2 ^ W) ^ NL :=
      lt_of_lt_of_le (limbsVal_lt W _ ha.1.1) (Nat.pow_le_pow_right hB (by omega))
    have hs1 : limbsVal W s.data < (2 ^ W) ^ NL :=
      lt_of_lt_of_le (limbsVal_lt W _ h6.1) (Nat.pow_le_pow_right hB (by omega))
    rw [two_mul, pow_add]
    exact Nat.mul_lt_mul'' ha1 hs1
  obtain ⟨p1, k1, k2, k3, k4, _, _⟩ := mul_spec W NL r2 a s ha.1 h6 hcap
  have hp1n : p1.neg = false := by
    rw [k3, h2]
    split_ifs
    · rfl
    · simp
  obtain ⟨p, j1, j2, j3, j4⟩ := mod_spec W NL p1 m k4 hm.1 hm0
  rw [hp1n] at j2 j3
  simp only [Bool.false_eq_true, false_and, if_false, Bool.false_and] at j2 j3
  rw [k2, h5] at j2
  have hone : Sane W NL { data := [1], neg := false } := by
    refine ⟨?_, by rfl, ?_⟩
    · intro x hx
      simp only [List.mem_singleton] at hx
      rw [hx]; exact one_lt_two_pow W hW
    · have := sane_capacity_pos W NL a ha.1
      simpa [secp256k1_num_t.limbs] using this
  have hpd := data_eq_of_val_eq W NL p _ j4 hone (by rw [j2]; simp [limbsVal])
  have hp : p = { data := [1], neg := false } := by
    cases p
    simp only at hpd j3
    rw [hpd, j3]
  refine ⟨s, p, h1, ?_, hp, ?_⟩
  · simp only [secp256k1_num_mod_mul, k1]; exact j1
  · rw [hp]; rfl

/-- Witness of C1 (amended) at `a = -7`, `m = 2^64 + 3` (two limbs). -/
theorem C1_mod_inverse_mul_witness :
    0 < 64 ∧ Canonical 64 4 { data := [7], neg := true } ∧
    Canonical 64 4 { data := [3, 1], neg := false } ∧
    1 < secp256k1_num_t.toInt 64 { data := [3, 1], neg := false } ∧
    secp256k1_num_t.limbs { data := [3, 1], neg := false } ≤ 4 ∧
    secp256k1_num_t.limbs { data := [7], neg := true }
      ≤ secp256k1_num_t.limbs { data := [3, 1], neg := false } ∧
    Nat.gcd (limbsVal 64 [7]) (limbsVal 64 [3, 1]) = 1 ∧
    ∃ s p, secp256k1_num_mod_inverse 64 4 { data := [0], neg := false }
        { data := [7], neg := true } { data := [3, 1], neg := false } = some s ∧
      secp256k1_num_mod_mul 64 4 { data := [0], neg := false } { data := [7], neg := true } s
        { data := [3, 1], neg := false } = some p ∧
      p = { data := [1], neg := false } ∧
      secp256k1_num_eq p { data := [1], neg := false } = true :=
  ⟨by decide, by decide, by decide, by decide, by decide, by decide, by decide,
    (C1_mod_inverse_mul 64 4 (by decide) { data := [0], neg := false }
      { data := [0], neg := false } { data := [7], neg := true }
      { data := [3, 1], neg := false } (by decide) (by decide) (by decide) (by decide)
      (by decide) (by decide)).1⟩

/-- C2: for every canonical `r` within capacity (of either sign) and every canonical positive
modulus `m`, `secp256k1_num_mod` returns and leaves in `r` the canonical residue of the original
`r` modulo `m`: its signed value is non-negative, strictly less than `m` and equal to the
residue of the original value modulo `m`, it does not test as negative, and it is in canonical
limb form; and `modReduce(-1, 5) = 4`. -/
theorem C2_mod_canonical_residue (W NL : Nat) (r m : secp256k1_num_t)
    (hr : Canonical W NL r) (hm : Canonical W NL m) (hpos : 0 < m.toInt W) :
    (∃ s, secp256k1_num_mod W r m = some s ∧
      0 ≤ s.toInt W ∧ s.toInt W < m.toInt W ∧
      s.toInt W = r.toInt W % m.toInt W ∧
      secp256k1_num_is_neg s = false ∧ Sane W NL s) ∧
    secp256k1_num_mod 64 { data := [1], neg := true } { data := [5], neg := false }
      = some { data := [4], neg := false } := by
  refine ⟨?_, by decide⟩
  have hmv : m.toInt W = (limbsVal W m.data : Int) := by
    unfold secp256k1_num_t.toInt at hpos ⊢
    cases hn : m.neg
    · simp
    · rw [hn] at hpos; simp at hpos; omega
  have hm0 : limbsVal W m.data ≠ 0 := by
    rw [hmv] at hpos; omega
  obtain ⟨s, h1, h2, h3, h4⟩ := mod_spec W NL r m hr.1 hm.1 hm0
  have hres := mod_toInt W r m s hm0 h2 h3
  have hmpos : (0 : Int) < (limbsVal W m.data : Int) := by omega
  refine ⟨s, h1, ?_, ?_, ?_, ?_, h4⟩
  · rw [hres]; exact Int.emod_nonneg _ (by omega)
  · rw [hres, hmv]; exact Int.emod_lt_of_pos _ hmpos
  · rw [hres, hmv]
  · unfold secp256k1_num_is_neg
    cases hsn : s.neg
    · simp
    · rw [hsn] at h3
      have hz : limbsVal W r.data % limbsVal W m.data = 0 := by
        by_contra hne
        simp [hne] at h3
      have hv0 : limbsVal W s.data = 0 := by
        rw [h2, if_neg (by simp [hz]), hz]
      have hchk := nonzero_check_iff W NL s h4
      rw [Bool.and_true, Bool.eq_false_iff]
      intro h
      exact (hchk.mp h) hv0

/-- Witness of C2 at `r = -(2^64 + 3)`, `m = 7`. -/
theorem C2_mod_canonical_residue_witness :
    Canonical 64 4 { data := [3, 1], neg := true } ∧
    Canonical 64 4 { data := [7], neg := false } ∧
    (∃ s, secp256k1_num_mod 64 { data := [3, 1], neg := true } { data := [7], neg := false }
        = some s ∧ 0 ≤ s.toInt 64 ∧
      s.toInt 64 < secp256k1_num_t.toInt 64 { data := [7], neg := false } ∧
      s.toInt 64 = secp256k1_num_t.toInt 64 { data := [3, 1], neg := true }
        % secp256k1_num_t.toInt 64 { data := [7], neg := false } ∧
      secp256k1_num_is_neg s = false ∧ Sane 64 4 s) :=
  ⟨by decide, by decide,
    (C2_mod_canonical_residue 64 4 { data := [3, 1], neg := true } { data := [7], neg := false }
      (by decide) (by decide) (by decide)).1⟩

/-- C8: for canonical `a` and `b` of any signs, `secp256k1_num_add` returns a number whose
signed value is `value(a) + value(b)` whenever that sum is within capacity, and
`secp256k1_num_sub` one whose signed value is `value(a) - value(b)` whenever that difference is
within capacity; the result is in canonical limb form, so its magnitude is the absolute value
of the exact result and its sign that of the operand of larger magnitude; and
`add(0x1F, 0x0A) = 0x29`. -/
theorem C8_subadd_exact (W NL : Nat) (hW : 0 < W) (r a b : secp256k1_num_t)
    (ha : Canonical W NL a) (hb : Canonical W NL b) :
    ((a.toInt W + b.toInt W).natAbs < (2 ^ W) ^ (2 * NL) →
      ∃ s, secp256k1_num_add W NL r a b = some s ∧ s.toInt W = a.toInt W + b.toInt W ∧
        limbsVal W s.data = (a.toInt W + b.toInt W).natAbs ∧ Sane W NL s) ∧
    ((a.toInt W - b.toInt W).natAbs < (2 ^ W) ^ (2 * NL) →
      ∃ s, secp256k1_num_sub W NL r a b = some s ∧ s.toInt W = a.toInt W - b.toInt W ∧
        limbsVal W s.data = (a.toInt W - b.toInt W).natAbs ∧ Sane W NL s) ∧
    secp256k1_num_add 64 4 r { data := [0x1F], neg := false } { data := [0x0A], neg := false }
      = some { data := [0x29], neg := false } := by
  have hmag : ∀ s : secp256k1_num_t, limbsVal W s.data = (s.toInt W).natAbs := by
    intro s
    unfold secp256k1_num_t.toInt
    split_ifs <;> omega
  refine ⟨?_, ?_, by rfl⟩
  · intro hcap
    have hb' : b.toInt W = (if xor b.neg false then -(limbsVal W b.data : Int)
        else (limbsVal W b.data : Int)) := by
      unfold secp256k1_num_t.toInt; simp
    rw [hb'] at hcap
    obtain ⟨s, h1, h2, h3⟩ := subadd_spec W NL hW r a b false ha.1 hb.1 hcap
    refine ⟨s, ?_, ?_, ?_, h3⟩
    · simp only [secp256k1_num_add, ha.1.2.1, hb.1.2.1, Bool.and_self, if_true]; exact h1
    · rw [h2, hb']
    · rw [hmag s, h2, hb']
  · intro hcap
    have hb' : -b.toInt W = (if xor b.neg true then -(limbsVal W b.data : Int)
        else (limbsVal W b.data : Int)) := by
      unfold secp256k1_num_t.toInt; cases b.neg <;> simp
    rw [sub_eq_add_neg, hb'] at hcap
    obtain ⟨s, h1, h2, h3⟩ := subadd_spec W NL hW r a b true ha.1 hb.1 hcap
    refine ⟨s, ?_, ?_, ?_, h3⟩
    · simp only [secp256k1_num_sub, ha.1.2.1, hb.1.2.1, Bool.and_self, if_true]; exact h1
    · rw [h2, sub_eq_add_neg, hb']
    · rw [hmag s, h2, sub_eq_add_neg, hb']

/-- Witness of C8 at `a = -(2^64 + 5)`, `b = 9` with 64-bit limbs. -/
theorem C8_subadd_exact_witness :
    0 < 64 ∧ Canonical 64 4 { data := [5, 1], neg := true } ∧
    Canonical 64 4 { data := [9], neg := false } ∧
    (secp256k1_num_t.toInt 64 { data := [5, 1], neg := true }
      + secp256k1_num_t.toInt 64 { data := [9], neg := false }).natAbs < (2 ^ 64) ^ (2 * 4) ∧
    ∃ s, secp256k1_num_add 64 4 { data := [0], neg := false } { data := [5, 1], neg := true }
        { data := [9], neg := false } = some s ∧
      s.toInt 64 = secp256k1_num_t.toInt 64 { data := [5, 1], neg := true }
        + secp256k1_num_t.toInt 64 { data := [9], neg := false } ∧
      limbsVal 64 s.data = (secp256k1_num_t.toInt 64 { data := [5, 1], neg := true }
        + secp256k1_num_t.toInt 64 { data := [9], neg := false }).natAbs ∧
      Sane 64 4 s :=
  ⟨by decide, by decide, by decide, by decide,
    (C8_subadd_exact 64 4 (by decide) { data := [0], neg := false }
      { data := [5, 1], neg := true } { data := [9], neg := false }
      (by decide) (by decide)).1 (by decide)⟩

/-- C3: for canonical `a` and `b` of any signs whose sum is within capacity,
`secp256k1_num_add` returns a number `s`, `secp256k1_num_sub` applied to `s` and `b` returns a
number `t`, and `secp256k1_num_eq t a` is true. -/
theorem C3_sub_add_inverse (W NL : Nat) (hW : 0 < W) (r1 r2 a b : secp256k1_num_t)
    (ha : Canonical W NL a) (hb : Canonical W NL b)
    (hcap : (a.toInt W + b.toInt W).natAbs < (2 ^ W) ^ (2 * NL)) :
    ∃ s t, secp256k1_num_add W NL r1 a b = some s ∧ secp256k1_num_sub W NL r2 s b = some t ∧
      secp256k1_num_eq t a = true := by
  have hb' : b.toInt W = (if xor b.neg false then -(limbsVal W b.data : Int)
      else (limbsVal W b.data : Int)) := by
    unfold secp256k1_num_t.toInt; simp
  have hb2 : -b.toInt W = (if xor b.neg true then -(limbsVal W b.data : Int)
      else (limbsVal W b.data : Int)) := by
    unfold secp256k1_num_t.toInt; cases b.neg <;> simp
  rw [hb'] at hcap
  obtain ⟨s, h1, h2, h3⟩ := subadd_spec W NL hW r1 a b false ha.1 hb.1 hcap
  have hacap : (a.toInt W).natAbs < (2 ^ W) ^ (2 * NL) := by
    have h4 := limbsVal_lt W a.data ha.1.1
    have h5 : (2 ^ W) ^ a.data.length ≤ (2 ^ W) ^ (2 * NL) :=
      Nat.pow_le_pow_right (two_pow_pos W) ha.1.2.2
    have h6 : (a.toInt W).natAbs = limbsVal W a.data := by
      unfold secp256k1_num_t.toInt
      split_ifs <;> omega
    omega
  have hst : s.toInt W + (if xor b.neg true then -(limbsVal W b.data : Int)
      else (limbsVal W b.data : Int)) = a.toInt W := by
    rw [h2, ← hb', ← hb2]; ring
  obtain ⟨t, k1, k2, k3⟩ := subadd_spec W NL hW r2 s b true h3 hb.1 (by rw [hst]; exact hacap)
  refine ⟨s, t, ?_, ?_, ?_⟩
  · simp only [secp256k1_num_add, ha.1.2.1, hb.1.2.1, Bool.and_self, if_true]; exact h1
  · simp only [secp256k1_num_sub, h3.2.1, hb.1.2.1, Bool.and_self, if_true]; exact k1
  · exact num_eq_of_toInt_eq W NL t a k3 ha.1 (by rw [k2, hst])

/-- Witness of C3 at `a = 5`, `b = -5`, where the intermediate sum is a zero with the flag
`neg` set. -/
theorem C3_sub_add_inverse_witness :
    0 < 64 ∧ Canonical 64 4 { data := [5], neg := false } ∧
    Canonical 64 4 { data := [5], neg := true } ∧
    (secp256k1_num_t.toInt 64 { data := [5], neg := false }
      + secp256k1_num_t.toInt 64 { data := [5], neg := true }).natAbs < (2 ^ 64) ^ (2 * 4) ∧
    ∃ s t, secp256k1_num_add 64 4 { data := [0], neg := false } { data := [5], neg := false }
        { data := [5], neg := true } = some s ∧
      secp256k1_num_sub 64 4 { data := [0], neg := false } s { data := [5], neg := true }
        = some t ∧
      secp256k1_num_eq t { data := [5], neg := false } = true :=
  ⟨by decide, by decide, by decide, by decide,
    C3_sub_add_inverse 64 4 (by decide) { data := [0], neg := false } { data := [0], neg := false }
      { data := [5], neg := false } { data := [5], neg := true } (by decide) (by decide)
      (by decide)⟩

/-- C4: for canonical `a` and canonical non-zero `b` of any signs whose product is within
capacity, `secp256k1_num_mul` returns a number `p`, `secp256k1_num_div` applied to `p` and `b`
returns a number `q`, and `secp256k1_num_eq q a` is true; `a` may be zero or negative. -/
theorem C4_div_mul_inverse (W NL : Nat) (r1 r2 a b : secp256k1_num_t)
    (ha : Canonical W NL a) (hb : Canonical W NL b) (hb0 : b.toInt W ≠ 0)
    (hcap : (a.toInt W * b.toInt W).natAbs < (2 ^ W) ^ (2 * NL)) :
    ∃ p q, secp256k1_num_mul W NL r1 a b = some p ∧ secp256k1_num_div W r2 p b = some q ∧
      secp256k1_num_eq q a = true := by
  have hmag : ∀ s : secp256k1_num_t, (s.toInt W).natAbs = limbsVal W s.data := by
    intro s
    unfold secp256k1_num_t.toInt
    split_ifs <;> omega
  have hvb : limbsVal W b.data ≠ 0 := by
    intro h
    apply hb0
    unfold secp256k1_num_t.toInt
    rw [h]; simp
  rw [Int.natAbs_mul, hmag, hmag] at hcap
  obtain ⟨p, h1, h2, h3, h4, _, h6⟩ := mul_spec W NL r1 a b ha.1 hb.1 hcap
  obtain ⟨q, k1, k2, k3, k4, _⟩ := div_spec W NL r2 p b h4 hb.1 hvb
  refine ⟨p, q, h1, k1, ?_⟩
  apply num_eq_of_toInt_eq W NL q a k4 ha.1
  have hqv : limbsVal W q.data = limbsVal W a.data := by
    rw [k2, h2]; exact Nat.mul_div_cancel _ (Nat.pos_of_ne_zero hvb)
  by_cases ha0 : limbsVal W a.data = 0
  · unfold secp256k1_num_t.toInt
    rw [hqv, ha0]; simp
  · have hl := (h6 ha0 hvb).1
    have hlb : 1 ≤ b.limbs := List.length_pos.mpr ((sanity_iff b).mp hb.1.2.1).1
    have hla : 1 ≤ a.limbs := List.length_pos.mpr ((sanity_iff a).mp ha.1.2.1).1
    rw [if_neg (by omega), h3, if_neg (by simp [ha0, hvb])] at k3
    unfold secp256k1_num_t.toInt
    rw [hqv, k3]
    cases a.neg <;> cases b.neg <;> rfl

/-- Witness of C4 at `a = -(2^64 + 3)`, `b = -7`. -/
theorem C4_div_mul_inverse_witness :
    Canonical 64 4 { data := [3, 1], neg := true } ∧
    Canonical 64 4 { data := [7], neg := true } ∧
    secp256k1_num_t.toInt 64 { data := [7], neg := true } ≠ 0 ∧
    (secp256k1_num_t.toInt 64 { data := [3, 1], neg := true }
      * secp256k1_num_t.toInt 64 { data := [7], neg := true }).natAbs < (2 ^ 64) ^ (2 * 4) ∧
    ∃ p q, secp256k1_num_mul 64 4 { data := [0], neg := false } { data := [3, 1], neg := true }
        { data := [7], neg := true } = some p ∧
      secp256k1_num_div 64 { data := [0], neg := false } p { data := [7], neg := true }
        = some q ∧
      secp256k1_num_eq q { data := [3, 1], neg := true } = true :=
  ⟨by decide, by decide, by decide, by decide,
    C4_div_mul_inverse 64 4 { data := [0], neg := false } { data := [0], neg := false }
      { data := [3, 1], neg := true } { data := [7], neg := true } (by decide) (by decide)
      (by decide) (by decide)⟩

/-- C9 as stated fails: with 64-bit limbs and `NUM_LIMBS = 4`, the canonical operands
`a = 2^512 - 1` (8 limbs) and `b = 2` (1 limb) have limb counts that sum to `2*NUM_LIMBS + 1`,
yet `secp256k1_num_mul` fails its check `r->limbs <= 2*NUM_LIMBS` (the product needs 9 limbs);
and for `a = 0`, `b = -5` the flag of the result is clear although `a.neg XOR b.neg` is set. -/
theorem C9_mul_counterexample :
    (Canonical 64 4 { data := List.replicate 8 (2 ^ 64 - 1), neg := false } ∧
     Canonical 64 4 { data := [2], neg := false } ∧
     secp256k1_num_t.limbs { data := List.replicate 8 (2 ^ 64 - 1), neg := false }
       + secp256k1_num_t.limbs { data := [2], neg := false } ≤ 2 * 4 + 1 ∧
     secp256k1_num_mul 64 4 { data := [0], neg := false }
       { data := List.replicate 8 (2 ^ 64 - 1), neg := false } { data := [2], neg := false }
       = none) ∧
    (Canonical 64 4 { data := [0], neg := false } ∧
     Canonical 64 4 { data := [5], neg := true } ∧
     secp256k1_num_mul 64 4 { data := [0], neg := false } { data := [0], neg := false }
       { data := [5], neg := true } = some { data := [0], neg := false } ∧
     xor (secp256k1_num_t.neg { data := [0], neg := false })
       (secp256k1_num_t.neg { data := [5], neg := true }) = true) := by
  decide

/-- C9 (amended): for canonical `a` and `b` whose product fits the `2*NUM_LIMBS` limbs of a
number, `secp256k1_num_mul` returns a number in canonical limb form of magnitude `|a|·|b|` and
signed value `value(a)·value(b)`; its flag is `a.neg XOR b.neg` when both operands are
non-zero, and when either operand is zero the result is the single limb `0` with the flag
clear. -/
theorem C9_mul_exact (W NL : Nat) (r a b : secp256k1_num_t)
    (ha : Canonical W NL a) (hb : Canonical W NL b)
    (hcap : limbsVal W a.data * limbsVal W b.data < (2 ^ W) ^ (2 * NL)) :
    ∃ s, secp256k1_num_mul W NL r a b = some s ∧
      limbsVal W s.data = limbsVal W a.data * limbsVal W b.data ∧
      s.toInt W = a.toInt W * b.toInt W ∧
      (limbsVal W a.data ≠ 0 → limbsVal W b.data ≠ 0 → s.neg = xor a.neg b.neg) ∧
      (limbsVal W a.data = 0 ∨ limbsVal W b.data = 0 → s = { data := [0], neg := false }) ∧
      Sane W NL s := by
  obtain ⟨s, h1, h2, h3, h4, h5, _⟩ := mul_spec W NL r a b ha.1 hb.1 hcap
  refine ⟨s, h1, h2, ?_, ?_, ?_, h4⟩
  · by_cases hz : limbsVal W a.data = 0 ∨ limbsVal W b.data = 0
    · unfold secp256k1_num_t.toInt
      rw [h2]
      rcases hz with h | h <;> simp [h]
    · rw [if_neg hz] at h3
      unfold secp256k1_num_t.toInt
      rw [h2, h3]
      cases a.neg <;> cases b.neg <;> simp
  · intro h1 h2
    rw [h3, if_neg (by simp [h1, h2])]
  · intro hz
    rw [if_pos hz] at h3
    have := h5 hz
    cases s
    simp only at this h3
    rw [this, h3]

/-- Witness of C9 (amended) at `a = -(2^64 + 3)`, `b = 7`. -/
theorem C9_mul_exact_witness :
    Canonical 64 4 { data := [3, 1], neg := true } ∧
    Canonical 64 4 { data := [7], neg := false } ∧
    limbsVal 64 [3, 1] * limbsVal 64 [7] < (2 ^ 64) ^ (2 * 4) ∧
    ∃ s, secp256k1_num_mul 64 4 { data := [0], neg := false } { data := [3, 1], neg := true }
        { data := [7], neg := false } = some s ∧
      limbsVal 64 s.data = limbsVal 64 [3, 1] * limbsVal 64 [7] ∧
      s.toInt 64 = secp256k1_num_t.toInt 64 { data := [3, 1], neg := true }
        * secp256k1_num_t.toInt 64 { data := [7], neg := false } ∧
      (limbsVal 64 [3, 1] ≠ 0 → limbsVal 64 [7] ≠ 0 → s.neg = xor true false) ∧
      (limbsVal 64 [3, 1] = 0 ∨ limbsVal 64 [7] = 0 → s = { data := [0], neg := false }) ∧
      Sane 64 4 s :=
  ⟨by decide, by decide, by decide,
    C9_mul_exact 64 4 { data := [0], neg := false } { data := [3, 1], neg := true }
      { data := [7], neg := false } (by decide) (by decide) (by decide)⟩

/-- C10: for canonical `a` and canonical non-zero `b`, `secp256k1_num_div` returns a number in
canonical limb form whose magnitude is `floor(|a| / |b|)` and whose signed value is
`value(a) / value(b)` rounded toward zero; when `b` has more limbs than `a` the result is the
single limb `0` with the flag clear; and `divide(-7, 2) = -3`. -/
theorem C10_div_truncating (W NL : Nat) (r a b : secp256k1_num_t)
    (ha : Canonical W NL a) (hb : Canonical W NL b) (hb0 : b.toInt W ≠ 0) :
    (∃ s, secp256k1_num_div W r a b = some s ∧
      limbsVal W s.data = limbsVal W a.data / limbsVal W b.data ∧
      s.toInt W = Int.tdiv (a.toInt W) (b.toInt W) ∧
      (b.limbs > a.limbs → s = { data := [0], neg := false }) ∧
      Sane W NL s) ∧
    secp256k1_num_div 64 r { data := [7], neg := true } { data := [2], neg := false }
      = some { data := [3], neg := true } := by
  refine ⟨?_, by rfl⟩
  have hvb : limbsVal W b.data ≠ 0 := by
    intro h
    apply hb0
    unfold secp256k1_num_t.toInt
    rw [h]; simp
  obtain ⟨s, h1, h2, h3, h4, h5⟩ := div_spec W NL r a b ha.1 hb.1 hvb
  refine ⟨s, h1, h2, ?_, ?_, h4⟩
  · by_cases hl : b.limbs > a.limbs
    · have hs := h5 hl
      have hq : limbsVal W a.data / limbsVal W b.data = 0 := by
        rw [← h2, hs]; simp [limbsVal]
      have : Int.tdiv (a.toInt W) (b.toInt W) = 0 := by
        unfold secp256k1_num_t.toInt
        cases a.neg <;> cases b.neg <;>
          simp only [if_true, if_false, Bool.false_eq_true, Int.neg_tdiv, Int.tdiv_neg,
            ← Int.ofNat_tdiv, hq] <;> simp
      rw [this]
      unfold secp256k1_num_t.toInt
      rw [hs]; simp [limbsVal]
    · rw [if_neg hl] at h3
      unfold secp256k1_num_t.toInt
      rw [h2, h3]
      cases a.neg <;> cases b.neg <;>
        simp only [if_true, if_false, Bool.false_eq_true, Bool.xor_false, Bool.xor_true,
          Bool.not_false, Bool.not_true, Int.neg_tdiv, Int.tdiv_neg, ← Int.ofNat_tdiv,
          neg_neg, Bool.xor_self, Bool.false_xor, Bool.true_xor]
  · intro hl
    rw [if_pos hl] at h3
    have := h5 hl
    cases s
    simp only at this h3
    rw [this, h3]

/-- Witness of C10 at `a = -(2^64 + 3)`, `b = 7`. -/
theorem C10_div_truncating_witness :
    Canonical 64 4 { data := [3, 1], neg := true } ∧
    Canonical 64 4 { data := [7], neg := false } ∧
    secp256k1_num_t.toInt 64 { data := [7], neg := false } ≠ 0 ∧
    ∃ s, secp256k1_num_div 64 { data := [0], neg := false } { data := [3, 1], neg := true }
        { data := [7], neg := false } = some s ∧
      limbsVal 64 s.data = limbsVal 64 [3, 1] / limbsVal 64 [7] ∧
      s.toInt 64 = Int.tdiv (secp256k1_num_t.toInt 64 { data := [3, 1], neg := true })
        (secp256k1_num_t.toInt 64 { data := [7], neg := false }) ∧
      (secp256k1_num_t.limbs { data := [7], neg := false }
        > secp256k1_num_t.limbs { data := [3, 1], neg := true } →
          s = { data := [0], neg := false }) ∧
      Sane 64 4 s :=
  ⟨by decide, by decide, by decide,
    (C10_div_truncating 64 4 { data := [0], neg := false } { data := [3, 1], neg := true }
      { data := [7], neg := false } (by decide) (by decide) (by decide)).1⟩

/-- C5: for every canonical `a` and every `bits > 0`, `secp256k1_num_split` returns `low` of
magnitude `|a| mod 2^bits` and `high` of magnitude `floor(|a| / 2^bits)`, both with the flag of
`a` and in canonical limb form, so that `low + high·2^bits = a` as signed integers; when
`bits ≥ secp256k1_num_bits a`, `low` is `a` and `high` is the single limb `0`; and
`split(0b10110, 2) = (0b10, 0b101)`. -/
theorem C5_split_identity (W NL : Nat) (hW : 0 < W) (r1 r2 a : secp256k1_num_t) (bits : Nat)
    (ha : Canonical W NL a) (hbits : 0 < bits) :
    (∃ rl rh, secp256k1_num_split W r1 r2 a bits = some (rl, rh) ∧
      limbsVal W rl.data = limbsVal W a.data % 2 ^ bits ∧
      limbsVal W rh.data = limbsVal W a.data / 2 ^ bits ∧
      rl.neg = a.neg ∧ rh.neg = a.neg ∧
      rl.toInt W + rh.toInt W * 2 ^ bits = a.toInt W ∧
      Sane W NL rl ∧ Sane W NL rh ∧
      (bits ≥ secp256k1_num_bits W a → rl = a ∧ rh.data = [0])) ∧
    secp256k1_num_split 64 r1 r2 { data := [0b10110], neg := false } 2
      = some ({ data := [0b10], neg := false }, { data := [0b101], neg := false }) := by
  refine ⟨?_, by rfl⟩
  obtain ⟨rl, rh, h1, h2, h3, h4, h5, h6, h7⟩ := split_spec W NL hW r1 r2 a bits ha.1 hbits
  refine ⟨rl, rh, h1, h2, h3, h4, h5, ?_, h6, h7, ?_⟩
  · have hdm := Nat.mod_add_div (limbsVal W a.data) (2 ^ bits)
    have hdmZ : ((limbsVal W a.data % 2 ^ bits : Nat) : Int)
        + (2 ^ bits : Int) * ((limbsVal W a.data / 2 ^ bits : Nat) : Int)
        = (limbsVal W a.data : Int) := by
      exact_mod_cast hdm
    unfold secp256k1_num_t.toInt
    rw [h2, h3, h4, h5]
    cases a.neg
    · simp only [Bool.false_eq_true, if_false]; linear_combination hdmZ
    · simp only [if_true]; linear_combination -hdmZ
  · intro hge
    have hlt : limbsVal W a.data < 2 ^ bits :=
      lt_of_lt_of_le (mag_lt_two_pow_bits W a ha.1.1) (Nat.pow_le_pow_right (by decide) hge)
    rw [Nat.mod_eq_of_lt hlt] at h2
    rw [Nat.div_eq_of_lt hlt] at h3
    refine ⟨?_, data_eq_zero_of_val_eq_zero W NL rh h7 h3⟩
    have hd := data_eq_of_val_eq W NL rl a h6 ha.1 h2
    cases rl
    cases a
    simp only at hd h4
    rw [hd, h4]

/-- Witness of C5 at `a = -(5 + 7·2^64 + 9·2^128)`, `bits = 66`. -/
theorem C5_split_identity_witness :
    0 < 64 ∧ Canonical 64 4 { data := [5, 7, 9], neg := true } ∧ 0 < 66 ∧
    ∃ rl rh, secp256k1_num_split 64 { data := [0], neg := false } { data := [0], neg := false }
        { data := [5, 7, 9], neg := true } 66 = some (rl, rh) ∧
      limbsVal 64 rl.data = limbsVal 64 [5, 7, 9] % 2 ^ 66 ∧
      limbsVal 64 rh.data = limbsVal 64 [5, 7, 9] / 2 ^ 66 ∧
      rl.neg = true ∧ rh.neg = true ∧
      rl.toInt 64 + rh.toInt 64 * 2 ^ 66
        = secp256k1_num_t.toInt 64 { data := [5, 7, 9], neg := true } ∧
      Sane 64 4 rl ∧ Sane 64 4 rh ∧
      (66 ≥ secp256k1_num_bits 64 { data := [5, 7, 9], neg := true } →
        rl = { data := [5, 7, 9], neg := true } ∧ rh.data = [0]) :=
  ⟨by decide, by decide, by decide,
    (C5_split_identity 64 4 (by decide) { data := [0], neg := false }
      { data := [0], neg := false } { data := [5, 7, 9], neg := true } 66
      (by decide) (by decide)).1⟩

/-- C6 fails at `a = 0` with a buffer shorter than one limb: `secp256k1_num_get_bin` writes the
single byte `0`, on which `mpn_set_str` stores no limb, and `secp256k1_num_set_bin` returns a
number with `limbs = 0` instead of the one limb `0` of `a`; that number fails
`secp256k1_num_sanity` and `secp256k1_num_is_zero`.  The same happens with 32-bit limbs and
three bytes, while a non-zero value round-trips. -/
theorem C6_bin_roundtrip_zero_fails :
    Canonical 64 4 { data := [0], neg := false } ∧
    secp256k1_num_get_bin 64 1 { data := [0], neg := false } = some [0] ∧
    secp256k1_num_set_bin 64 4 { data := [0], neg := false } [0]
      = some { data := [], neg := false } ∧
    secp256k1_num_t.limbs { data := [], neg := false } = 0 ∧
    secp256k1_num_sanity { data := [], neg := false } = false ∧
    secp256k1_num_is_zero { data := [], neg := false } = false ∧
    secp256k1_num_get_bin 32 3 { data := [0], neg := false } = some [0, 0, 0] ∧
    secp256k1_num_set_bin 32 8 { data := [0], neg := false } [0, 0, 0]
      = some { data := [], neg := false } ∧
    secp256k1_num_get_bin 64 3 { data := [0x0102], neg := false } = some [0, 1, 2] ∧
    secp256k1_num_set_bin 64 4 { data := [0], neg := false } [0, 1, 2]
      = some { data := [0x0102], neg := false } := by
  decide

/-- C7 fails at `a = 0`: `secp256k1_num_get_hex` passes the zero limb to `mpn_get_str`, outside
the domain GMP documents for it (`secp256k1_num_get_bin` guards this case), and
`secp256k1_num_set_hex` of the text `0` returns a number with `limbs = 0`, which fails
`secp256k1_num_sanity`; a non-zero value round-trips. -/
theorem C7_hex_roundtrip_zero_fails :
    Canonical 64 4 { data := [0], neg := false } ∧
    secp256k1_num_get_hex 64 1 { data := [0], neg := false } = none ∧
    secp256k1_num_set_hex 64 { data := [0], neg := false } ['0']
      = some { data := [], neg := false } ∧
    secp256k1_num_sanity { data := [], neg := false } = false ∧
    secp256k1_num_get_hex 64 4 { data := [0xAB], neg := false } = some ['0', '0', 'A', 'B'] ∧
    secp256k1_num_set_hex 64 { data := [0], neg := false } ['0', '0', 'A', 'B']
      = some { data := [0xAB], neg := false } := by
  decide

example : secp256k1_num_set_int 64 ⟨[], false⟩ (-5) = ⟨[5], true⟩ := by decide
/-- C12: for every `a` and `b` in canonical limb form, of any sign flags, the result of
`secp256k1_num_cmp` is positive, zero or negative exactly when `|a| > |b|`, `|a| = |b|` or
`|a| < |b|`: the order by limb count and then from the most significant limb down is the
numeric order of the magnitudes; and the result does not depend on the sign flags. -/
theorem C12_cmp_magnitude_order (W NL : Nat) (a b : secp256k1_num_t)
    (ha : Sane W NL a) (hb : Sane W NL b) :
    (0 < secp256k1_num_cmp a b ↔ limbsVal W b.data < limbsVal W a.data) ∧
    (secp256k1_num_cmp a b = 0 ↔ limbsVal W a.data = limbsVal W b.data) ∧
    (secp256k1_num_cmp a b < 0 ↔ limbsVal W a.data < limbsVal W b.data) ∧
    (∀ na nb : Bool, secp256k1_num_cmp { a with neg := na } { b with neg := nb }
      = secp256k1_num_cmp a b) := by
  have h := num_cmp_spec W NL a b ha hb
  refine ⟨?_, ?_, ?_, fun _ _ => rfl⟩
  · constructor
    · intro hc
      rcases h with ⟨_, h2⟩ | ⟨h1, _⟩ | ⟨h1, _⟩
      · exact h2
      · omega
      · omega
    · intro hv
      rcases h with ⟨h1, _⟩ | ⟨_, h2⟩ | ⟨_, h2⟩
      · exact h1
      · omega
      · omega
  · constructor
    · intro hc
      rcases h with ⟨h1, _⟩ | ⟨_, h2⟩ | ⟨h1, _⟩
      · omega
      · exact h2
      · omega
    · intro hv
      rcases h with ⟨_, h2⟩ | ⟨h1, _⟩ | ⟨_, h2⟩
      · omega
      · exact h1
      · omega
  · constructor
    · intro hc
      rcases h with ⟨h1, _⟩ | ⟨h1, _⟩ | ⟨_, h2⟩
      · omega
      · omega
      · exact h2
    · intro hv
      rcases h with ⟨_, h2⟩ | ⟨_, h2⟩ | ⟨h1, _⟩
      · omega
      · omega
      · exact h1

/-- Witness of C12 at `a = -(2^64 + 3)` (two limbs) and `b = 2^64 + 9`. -/
theorem C12_cmp_magnitude_order_witness :
    Sane 64 4 { data := [3, 1], neg := true } ∧ Sane 64 4 { data := [9, 1], neg := false } ∧
    secp256k1_num_cmp { data := [3, 1], neg := true } { data := [9, 1], neg := false } < 0 ∧
    (secp256k1_num_cmp { data := [3, 1], neg := true } { data := [9, 1], neg := false } < 0
      ↔ limbsVal 64 [3, 1] < limbsVal 64 [9, 1]) :=
  ⟨by decide, by decide, by decide,
    (C12_cmp_magnitude_order 64 4 { data := [3, 1], neg := true }
      { data := [9, 1], neg := false } (by decide) (by decide)).2.2.1⟩

/-- The signed value of a number, by its effective sign. -/
theorem toInt_eq_of_data_eq (W NL : Nat) (a b : secp256k1_num_t) (ha : Sane W NL a)
    (hb : Sane W NL b) (hd : a.data = b.data)
    (hs : (a.neg && !secp256k1_num_is_zero a) = (b.neg && !secp256k1_num_is_zero b)) :
    a.toInt W = b.toInt W := by
  have hza := is_zero_iff W NL a ha
  have hzb := is_zero_iff W NL b hb
  unfold secp256k1_num_t.toInt
  rw [hd] at hza ⊢
  by_cases h0 : limbsVal W b.data = 0
  · rw [h0]; simp
  · have h1 : secp256k1_num_is_zero a = false := by
      cases h : secp256k1_num_is_zero a
      · rfl
      · exact absurd (hza.mp h) h0
    have h2 : secp256k1_num_is_zero b = false := by
      cases h : secp256k1_num_is_zero b
      · rfl
      · exact absurd (hzb.mp h) h0
    rw [h1, h2] at hs
    simp only [Bool.not_false, Bool.and_true] at hs
    rw [hs]

/-- C13: for every `a` and `b` in canonical limb form, `secp256k1_num_eq a b` is true if and
only if `a` and `b` denote the same signed integer, and if and only if they have the same limb
count, the same limbs and the same sign, where the sign of a zero magnitude counts as
non-negative whatever its flag; so a zero with the flag set equals a zero with it clear. -/
theorem C13_eq_iff (W NL : Nat) (a b : secp256k1_num_t)
    (ha : Sane W NL a) (hb : Sane W NL b) :
    (secp256k1_num_eq a b = true ↔ a.toInt W = b.toInt W) ∧
    (secp256k1_num_eq a b = true ↔
      (a.limbs = b.limbs ∧ a.data = b.data ∧
        (a.neg && !secp256k1_num_is_zero a) = (b.neg && !secp256k1_num_is_zero b))) ∧
    secp256k1_num_eq { data := [0], neg := true } { data := [0], neg := false } = true := by
  have key : secp256k1_num_eq a b = true →
      (a.limbs = b.limbs ∧ a.data = b.data ∧
        (a.neg && !secp256k1_num_is_zero a) = (b.neg && !secp256k1_num_is_zero b)) := by
    intro h
    unfold secp256k1_num_eq at h
    by_cases h1 : a.limbs > b.limbs
    · rw [if_pos h1] at h; exact absurd h (by decide)
    · rw [if_neg h1] at h
      by_cases h2 : a.limbs < b.limbs
      · rw [if_pos h2] at h; exact absurd h (by decide)
      · rw [if_neg h2] at h
        have hl : a.limbs = b.limbs := by omega
        by_cases h3 : ((a.neg && !secp256k1_num_is_zero a)
            != (b.neg && !secp256k1_num_is_zero b)) = true
        · rw [if_pos h3] at h; exact absurd h (by decide)
        · rw [if_neg h3] at h
          have hs : (a.neg && !secp256k1_num_is_zero a)
              = (b.neg && !secp256k1_num_is_zero b) := by
            by_contra hne
            exact h3 (bne_iff_ne.mpr hne)
          have hc : mpn_cmp a.data b.data = 0 := by simpa using h
          refine ⟨hl, ?_, hs⟩
          rcases mpn_cmp_spec W a.data b.data hl ha.1 hb.1 with ⟨k1, _⟩ | ⟨_, k2⟩ | ⟨k1, _⟩
          · omega
          · exact limbs_eq_of_val_eq W _ _ ha.1 hb.1 hl k2
          · omega
  refine ⟨⟨?_, ?_⟩, ⟨key, ?_⟩, by decide⟩
  · intro h
    obtain ⟨_, h2, h3⟩ := key h
    exact toInt_eq_of_data_eq W NL a b ha hb h2 h3
  · exact num_eq_of_toInt_eq W NL a b ha hb
  · rintro ⟨_, h2, h3⟩
    exact num_eq_of_toInt_eq W NL a b ha hb (toInt_eq_of_data_eq W NL a b ha hb h2 h3)

/-- Witness of C13 at `a = b = -(2^64 + 3)`. -/
theorem C13_eq_iff_witness :
    Sane 64 4 { data := [3, 1], neg := true } ∧
    (secp256k1_num_eq { data := [3, 1], neg := true } { data := [3, 1], neg := true } = true ↔
      secp256k1_num_t.toInt 64 { data := [3, 1], neg := true }
        = secp256k1_num_t.toInt 64 { data := [3, 1], neg := true }) ∧
    secp256k1_num_eq { data := [3, 1], neg := true } { data := [3, 1], neg := true } = true :=
  ⟨by decide,
    (C13_eq_iff 64 4 { data := [3, 1], neg := true } { data := [3, 1], neg := true }
      (by decide) (by decide)).1, by decide⟩

/-- C18 as stated fails: `subtract(5, 5)` and `add(5, -5)` return the single limb `0` with the
flag `neg` set, the effective sign of the second operand. -/
theorem C18_cancel_counterexample :
    Canonical 64 4 { data := [5], neg := false } ∧ Canonical 64 4 { data := [5], neg := true } ∧
    secp256k1_num_sub 64 4 { data := [0], neg := false } { data := [5], neg := false }
      { data := [5], neg := false } = some { data := [0], neg := true } ∧
    secp256k1_num_add 64 4 { data := [0], neg := false } { data := [5], neg := false }
      { data := [5], neg := true } = some { data := [0], neg := true } := by
  decide

/-- C18 (amended): for canonical `a` and `b` of equal magnitudes, `secp256k1_num_add` of
operands with different flags and `secp256k1_num_sub` of operands with the same flag return the
single limb `0` whose flag `neg` is the effective sign of `b` (`b.neg` for add, its negation for
subtract), so the flag may be set on the zero; the result tests as zero under
`secp256k1_num_is_zero` and as not negative under `secp256k1_num_is_neg`. -/
theorem C18_cancel_zero (W NL : Nat) (r a b : secp256k1_num_t)
    (ha : Canonical W NL a) (hb : Canonical W NL b)
    (hv : limbsVal W a.data = limbsVal W b.data) :
    (a.neg ≠ b.neg →
      secp256k1_num_add W NL r a b = some { data := [0], neg := b.neg }) ∧
    (a.neg = b.neg →
      secp256k1_num_sub W NL r a b = some { data := [0], neg := !b.neg }) ∧
    (∀ n : Bool, secp256k1_num_is_zero { data := [0], neg := n } = true ∧
      secp256k1_num_is_neg { data := [0], neg := n } = false ∧
      secp256k1_num_t.toInt W { data := [0], neg := n } = 0) := by
  have hcmp : ¬ 0 < secp256k1_num_cmp a b := by
    rcases num_cmp_spec W NL a b ha.1 hb.1 with ⟨_, h2⟩ | ⟨h1, _⟩ | ⟨h1, _⟩ <;> omega
  have hl := (num_cmp_limbs a b).2 hcmp
  have hsub : ∀ n : Bool, secp256k1_num_sub_abs W { r with neg := n } b a
      = some { data := [0], neg := n } := by
    intro n
    obtain ⟨s, h1, h2, h3, h4⟩ := sub_abs_spec W NL { r with neg := n } b a hb.1 hl (by omega)
    rw [h1]
    have hz := data_eq_zero_of_val_eq_zero W NL s h4 (by rw [h3]; omega)
    cases s
    simp only at hz h2
    rw [hz, h2]
  refine ⟨?_, ?_, ?_⟩
  · intro hne
    have hx : (!(xor b.neg a.neg)) = false := by
      cases hna : a.neg <;> cases hnb : b.neg <;> simp_all
    simp only [secp256k1_num_add, ha.1.2.1, hb.1.2.1, Bool.and_self, if_true,
      secp256k1_num_subadd, Bool.xor_false, hx, Bool.false_eq_true, if_false, if_neg hcmp]
    exact hsub b.neg
  · intro heq
    have hx : (!(xor (!b.neg) a.neg)) = false := by
      cases hna : a.neg <;> cases hnb : b.neg <;> simp_all
    simp only [secp256k1_num_sub, ha.1.2.1, hb.1.2.1, Bool.and_self, if_true,
      secp256k1_num_subadd, Bool.xor_true, hx, Bool.false_eq_true, if_false, if_neg hcmp]
    exact hsub (!b.neg)
  · intro n
    refine ⟨by rfl, ?_, ?_⟩
    · cases n <;> rfl
    · cases n <;> simp [secp256k1_num_t.toInt, limbsVal]

/-- Witness of C18 (amended) at `a = 2^64 + 3`, `b = 2^64 + 3` (subtract) . -/
theorem C18_cancel_zero_witness :
    Canonical 64 4 { data := [3, 1], neg := false } ∧
    limbsVal 64 [3, 1] = limbsVal 64 [3, 1] ∧
    secp256k1_num_sub 64 4 { data := [0], neg := false } { data := [3, 1], neg := false }
      { data := [3, 1], neg := false } = some { data := [0], neg := !false } :=
  ⟨by decide, rfl,
    (C18_cancel_zero 64 4 { data := [0], neg := false } { data := [3, 1], neg := false }
      { data := [3, 1], neg := false } (by decide) (by decide) rfl).2.1 rfl⟩

/-- The first step of `secp256k1_num_mod`: the remainder of the magnitudes, with the flag of
`r`, in canonical limb form and with no more limbs than `m`. -/
theorem mod_first_step (W NL : Nat) (r m : secp256k1_num_t)
    (hr : Sane W NL r) (hm : Sane W NL m) (hm0 : limbsVal W m.data ≠ 0) :
    ∃ r1, (if r.limbs ≥ m.limbs then
            match mpn_tdiv_qr W r.data m.data with
            | none => none
            | some (_, rem) => some { r with data := trim rem }
          else some r) = some r1 ∧ r1.neg = r.neg ∧
          limbsVal W r1.data = limbsVal W r.data % limbsVal W m.data ∧ Sane W NL r1 ∧
          r1.limbs ≤ m.limbs := by
  have hrs := (sanity_iff r).mp hr.2.1
  have hms := (sanity_iff m).mp hm.2.1
  have hlm : 1 ≤ m.data.length := List.length_pos.mpr hms.1
  have hmcap := hm.2.2
  unfold secp256k1_num_t.limbs at hmcap
  have htop := getLastD_ne_zero W m.data hms.2 hm0
  have hrem := Nat.mod_lt (limbsVal W r.data) (Nat.pos_of_ne_zero hm0)
  by_cases hl : r.limbs ≥ m.limbs
  · have hl2 : m.data.length ≤ r.data.length := hl
    have hne : toLimbs W m.data.length (limbsVal W r.data % limbsVal W m.data) ≠ [] := by
      intro h
      have := congrArg List.length h
      rw [toLimbs_length, List.length_nil] at this
      omega
    have hup := trim_length_le (toLimbs W m.data.length
      (limbsVal W r.data % limbsVal W m.data))
    rw [toLimbs_length] at hup
    simp only [if_pos hl, mpn_tdiv_qr, if_pos (And.intro hl2 (And.intro hlm htop))]
    refine ⟨_, rfl, rfl, ?_, ⟨limbsOk_trim W _ (toLimbs_ok W _ _), sanity_trim _ _ hne, ?_⟩, ?_⟩
    · rw [limbsVal_trim, limbsVal_toLimbs]
      exact Nat.mod_eq_of_lt (lt_trans hrem (limbsVal_lt W _ hm.1))
    · simp only [secp256k1_num_t.limbs]; omega
    · simp only [secp256k1_num_t.limbs]; omega
  · rw [if_neg hl]
    have hl2 : r.data.length < m.data.length := by
      unfold secp256k1_num_t.limbs at hl; omega
    refine ⟨r, rfl, rfl, ?_, hr, ?_⟩
    · exact (Nat.mod_eq_of_lt (limbsVal_lt_of_length_lt W _ _ hr.1 hms.2 hl2 hrs.1)).symm
    · simp only [secp256k1_num_t.limbs]; omega

/-- The borrow of `mpn_sub` is `0` when the subtrahend has no more limbs and no larger a
magnitude than the minuend. -/
theorem mpn_sub_no_borrow (W : Nat) (x y : List Nat) (hl : y.length ≤ x.length)
    (hv : limbsVal W y ≤ limbsVal W x) :
    mpn_sub W x y = some (toLimbs W x.length (limbsVal W x - limbsVal W y), 0) := by
  unfold mpn_sub
  rw [if_pos hl, if_pos hv]

/-- C20: for canonical `a` and `b` of any signs, whenever `secp256k1_num_subadd` (reached from
`secp256k1_num_add` with `bneg = 0` and from `secp256k1_num_sub` with `bneg = 1`) calls
`secp256k1_num_sub_abs`, the minuend has at least as many limbs as the subtrahend and a
magnitude at least as large, so `mpn_sub` returns the borrow `0` and the check `c == 0` holds;
and the same for the call `sub_abs(r, m, r)` of `secp256k1_num_mod` on a canonical `r` and a
positive canonical `m`, where `r` has been reduced below `m`. -/
theorem C20_sub_abs_precondition (W NL : Nat) (r a b m : secp256k1_num_t) (bneg : Bool)
    (ha : Canonical W NL a) (hb : Canonical W NL b) (hm : Canonical W NL m)
    (hmpos : 0 < m.toInt W) :
    (secp256k1_num_add W NL r a b = secp256k1_num_subadd W NL r a b false ∧
     secp256k1_num_sub W NL r a b = secp256k1_num_subadd W NL r a b true) ∧
    (xor (xor b.neg bneg) a.neg = true →
      (0 < secp256k1_num_cmp a b →
        secp256k1_num_subadd W NL r a b bneg
          = secp256k1_num_sub_abs W { r with neg := a.neg } a b ∧
        b.limbs ≤ a.limbs ∧ limbsVal W b.data ≤ limbsVal W a.data ∧
        (∃ d, mpn_sub W a.data b.data = some (d, 0)) ∧
        (secp256k1_num_sub_abs W { r with neg := a.neg } a b).isSome = true) ∧
      (¬ 0 < secp256k1_num_cmp a b →
        secp256k1_num_subadd W NL r a b bneg
          = secp256k1_num_sub_abs W { r with neg := xor b.neg bneg } b a ∧
        a.limbs ≤ b.limbs ∧ limbsVal W a.data ≤ limbsVal W b.data ∧
        (∃ d, mpn_sub W b.data a.data = some (d, 0)) ∧
        (secp256k1_num_sub_abs W { r with neg := xor b.neg bneg } b a).isSome = true)) ∧
    (∃ r1, r1.neg = a.neg ∧ limbsVal W r1.data = limbsVal W a.data % limbsVal W m.data ∧
      ((r1.neg && (decide (r1.limbs > 1) || r1.limb 0 != 0)) = true →
        secp256k1_num_mod W a m
          = (secp256k1_num_sub_abs W r1 m r1).map (fun r2 => { r2 with neg := false }) ∧
        r1.limbs ≤ m.limbs ∧ limbsVal W r1.data ≤ limbsVal W m.data ∧
        (∃ d, mpn_sub W m.data r1.data = some (d, 0)) ∧
        (secp256k1_num_sub_abs W r1 m r1).isSome = true) ∧
      ((r1.neg && (decide (r1.limbs > 1) || r1.limb 0 != 0)) = false →
        secp256k1_num_mod W a m = some r1)) := by
  have hcmp := num_cmp_spec W NL a b ha.1 hb.1
  have hcl := num_cmp_limbs a b
  refine ⟨⟨?_, ?_⟩, ?_, ?_⟩
  · simp only [secp256k1_num_add, ha.1.2.1, hb.1.2.1, Bool.and_self, if_true]
  · simp only [secp256k1_num_sub, ha.1.2.1, hb.1.2.1, Bool.and_self, if_true]
  · intro hx
    have hx2 : (!(xor (xor b.neg bneg) a.neg)) = false := by rw [hx]; rfl
    refine ⟨fun hc => ?_, fun hc => ?_⟩
    · have hv : limbsVal W b.data ≤ limbsVal W a.data := by
        rcases hcmp with ⟨_, h2⟩ | ⟨h1, _⟩ | ⟨h1, _⟩ <;> omega
      have hl := hcl.1 hc
      obtain ⟨s, h1, _⟩ := sub_abs_spec W NL { r with neg := a.neg } a b ha.1 hl hv
      refine ⟨?_, hl, hv, ⟨_, mpn_sub_no_borrow W _ _ hl hv⟩, by rw [h1]; rfl⟩
      simp only [secp256k1_num_subadd, hx2, Bool.false_eq_true, if_false, if_pos hc]
    · have hv : limbsVal W a.data ≤ limbsVal W b.data := by
        rcases hcmp with ⟨h1, _⟩ | ⟨_, h2⟩ | ⟨_, h2⟩ <;> omega
      have hl := hcl.2 hc
      obtain ⟨s, h1, _⟩ := sub_abs_spec W NL { r with neg := xor b.neg bneg } b a hb.1 hl hv
      refine ⟨?_, hl, hv, ⟨_, mpn_sub_no_borrow W _ _ hl hv⟩, by rw [h1]; rfl⟩
      simp only [secp256k1_num_subadd, hx2, Bool.false_eq_true, if_false, if_neg hc]
  · have hm0 : limbsVal W m.data ≠ 0 := by
      intro h
      unfold secp256k1_num_t.toInt at hmpos
      rw [h] at hmpos
      simp at hmpos
    obtain ⟨r1, h1, h1n, h1v, h1s, h1l⟩ := mod_first_step W NL a m ha.1 hm.1 hm0
    have hrem := Nat.mod_lt (limbsVal W a.data) (Nat.pos_of_ne_zero hm0)
    have hv : limbsVal W r1.data ≤ limbsVal W m.data := by omega
    refine ⟨r1, h1n, h1v, fun hc => ?_, fun hc => ?_⟩
    · obtain ⟨s, k1, _⟩ := sub_abs_spec W NL r1 m r1 hm.1 h1l hv
      refine ⟨?_, h1l, hv, ⟨_, mpn_sub_no_borrow W _ _ h1l hv⟩, by rw [k1]; rfl⟩
      simp only [secp256k1_num_mod, ha.1.2.1, hm.1.2.1, Bool.and_self, if_true, h1, hc, k1,
        Option.map_some']
    · simp only [secp256k1_num_mod, ha.1.2.1, hm.1.2.1, Bool.and_self, if_true, h1, hc,
        Bool.false_eq_true, if_false]

/-- Witness of C20 at `a = 3`, `b = -(2^64 + 5)`, `m = 7`: the call made by
`secp256k1_num_add`, with `b` as the minuend. -/
theorem C20_sub_abs_precondition_witness :
    Canonical 64 4 { data := [3], neg := false } ∧
    Canonical 64 4 { data := [5, 1], neg := true } ∧
    Canonical 64 4 { data := [7], neg := false } ∧
    0 < secp256k1_num_t.toInt 64 { data := [7], neg := false } ∧
    xor (xor true false) false = true ∧
    ¬ 0 < secp256k1_num_cmp { data := [3], neg := false } { data := [5, 1], neg := true } ∧
    (secp256k1_num_subadd 64 4 { data := [0], neg := false } { data := [3], neg := false }
        { data := [5, 1], neg := true } false
      = secp256k1_num_sub_abs 64 { data := [0], neg := xor true false }
          { data := [5, 1], neg := true } { data := [3], neg := false } ∧
     secp256k1_num_t.limbs { data := [3], neg := false }
       ≤ secp256k1_num_t.limbs { data := [5, 1], neg := true } ∧
     limbsVal 64 [3] ≤ limbsVal 64 [5, 1] ∧
     (∃ d, mpn_sub 64 [5, 1] [3] = some (d, 0)) ∧
     (secp256k1_num_sub_abs 64 { data := [0], neg := xor true false }
        { data := [5, 1], neg := true } { data := [3], neg := false }).isSome = true) :=
  ⟨by decide, by decide, by decide, by decide, by decide, by decide,
    ((C20_sub_abs_precondition 64 4 { data := [0], neg := false } { data := [3], neg := false }
      { data := [5, 1], neg := true } { data := [7], neg := false } false
      (by decide) (by decide) (by decide) (by decide)).2.1 (by decide)).2 (by decide)⟩

/-- The check of `secp256k1_num_sanity` is canonical limb form. -/
theorem canonicalLimbs_of_sanity (a : secp256k1_num_t) (h : secp256k1_num_sanity a = true) :
    CanonicalLimbs a := by
  obtain ⟨d, n⟩ := a
  unfold secp256k1_num_sanity at h
  unfold CanonicalLimbs
  simp only [secp256k1_num_t.limbs, secp256k1_num_t.limb, Bool.or_eq_true, beq_iff_eq,
    Bool.and_eq_true, decide_eq_true_eq, bne_iff_ne, ne_eq] at h ⊢
  rcases h with h | ⟨h1, h2⟩
  · match d, h with
    | [x], _ =>
      refine ⟨by simp, ?_⟩
      by_cases hx : x = 0
      · right; rw [hx]
      · left; simpa using hx
  · exact ⟨by omega, Or.inl h2⟩

/-- Increment is magnitude addition of the one-limb number `1`. -/
theorem inc_eq_add_abs (W NL : Nat) (r : secp256k1_num_t) (hl : 1 ≤ r.limbs) :
    secp256k1_num_inc W NL r = secp256k1_num_add_abs W NL r r { data := [1], neg := false } := by
  have h1 : limbsVal W [1] = 1 := by simp [limbsVal]
  have hl2 : ([1] : List Nat).length ≤ r.data.length := by simpa using hl
  simp only [secp256k1_num_inc, secp256k1_num_add_abs, mpn_add_1, mpn_add, if_pos hl2, h1]

/-- Increment: within capacity `secp256k1_num_inc` adds one to the magnitude and keeps the
canonical limb form and the flag. -/
theorem inc_spec (W NL : Nat) (hW : 0 < W) (r : secp256k1_num_t) (hr : Sane W NL r)
    (hcap : limbsVal W r.data + 1 < (2 ^ W) ^ (2 * NL)) :
    ∃ s, secp256k1_num_inc W NL r = some s ∧ s.neg = r.neg ∧
      limbsVal W s.data = limbsVal W r.data + 1 ∧ Sane W NL s := by
  have hl : 1 ≤ r.limbs := List.length_pos.mpr ((sanity_iff r).mp hr.2.1).1
  have h1 : limbsVal W [1] = 1 := by simp [limbsVal]
  have hok : LimbsOk W [1] := by
    intro x hx
    simp only [List.mem_singleton] at hx
    rw [hx]; exact one_lt_two_pow W hW
  rw [inc_eq_add_abs W NL r hl]
  have := add_abs_spec W NL hW r r { data := [1], neg := false } hr hok (by simpa using hl)
    (by simp only [h1]; exact hcap)
  simp only [h1] at this
  exact this

/-- C19: canonical limb form is preserved by the arithmetic operations.  For canonical inputs
within capacity, the outputs of `secp256k1_num_add`, `secp256k1_num_sub`, `secp256k1_num_mul`,
`secp256k1_num_div` (non-zero divisor), `secp256k1_num_mod` (positive modulus),
`secp256k1_num_inc` and `secp256k1_num_split` (`bits > 0`) all have at least one limb and a
non-zero most significant limb unless they are the single limb `0`; and the product of two
non-zero numbers of `n` and `k` limbs has `n + k` or `n + k - 1` limbs, so the single trimming
step of `secp256k1_num_mul` is enough. -/
theorem C19_canonical_preserved (W NL : Nat) (hW : 0 < W) (r r2 a b m : secp256k1_num_t)
    (bits : Nat) (ha : Canonical W NL a) (hb : Canonical W NL b) (hm : Canonical W NL m)
    (hmpos : 0 < m.toInt W) (hbits : 0 < bits) :
    ((a.toInt W + b.toInt W).natAbs < (2 ^ W) ^ (2 * NL) →
      ∃ s, secp256k1_num_add W NL r a b = some s ∧ CanonicalLimbs s ∧ Sane W NL s) ∧
    ((a.toInt W - b.toInt W).natAbs < (2 ^ W) ^ (2 * NL) →
      ∃ s, secp256k1_num_sub W NL r a b = some s ∧ CanonicalLimbs s ∧ Sane W NL s) ∧
    (limbsVal W a.data * limbsVal W b.data < (2 ^ W) ^ (2 * NL) →
      ∃ s, secp256k1_num_mul W NL r a b = some s ∧ CanonicalLimbs s ∧ Sane W NL s ∧
        (limbsVal W a.data ≠ 0 → limbsVal W b.data ≠ 0 →
          s.limbs = a.limbs + b.limbs ∨ s.limbs = a.limbs + b.limbs - 1)) ∧
    (limbsVal W b.data ≠ 0 →
      ∃ s, secp256k1_num_div W r a b = some s ∧ CanonicalLimbs s ∧ Sane W NL s) ∧
    (∃ s, secp256k1_num_mod W a m = some s ∧ CanonicalLimbs s ∧ Sane W NL s) ∧
    (limbsVal W a.data + 1 < (2 ^ W) ^ (2 * NL) →
      ∃ s, secp256k1_num_inc W NL a = some s ∧ CanonicalLimbs s ∧ Sane W NL s) ∧
    (∃ rl rh, secp256k1_num_split W r r2 a bits = some (rl, rh) ∧
      CanonicalLimbs rl ∧ CanonicalLimbs rh ∧ Sane W NL rl ∧ Sane W NL rh) := by
  have hb1 : b.toInt W = (if xor b.neg false then -(limbsVal W b.data : Int)
      else (limbsVal W b.data : Int)) := by
    unfold secp256k1_num_t.toInt; simp
  have hb2 : -b.toInt W = (if xor b.neg true then -(limbsVal W b.data : Int)
      else (limbsVal W b.data : Int)) := by
    unfold secp256k1_num_t.toInt; cases b.neg <;> simp
  refine ⟨?_, ?_, ?_, ?_, ?_, ?_, ?_⟩
  · intro hcap
    rw [hb1] at hcap
    obtain ⟨s, h1, _, h3⟩ := subadd_spec W NL hW r a b false ha.1 hb.1 hcap
    refine ⟨s, ?_, canonicalLimbs_of_sanity s h3.2.1, h3⟩
    simp only [secp256k1_num_add, ha.1.2.1, hb.1.2.1, Bool.and_self, if_true]; exact h1
  · intro hcap
    rw [sub_eq_add_neg, hb2] at hcap
    obtain ⟨s, h1, _, h3⟩ := subadd_spec W NL hW r a b true ha.1 hb.1 hcap
    refine ⟨s, ?_, canonicalLimbs_of_sanity s h3.2.1, h3⟩
    simp only [secp256k1_num_sub, ha.1.2.1, hb.1.2.1, Bool.and_self, if_true]; exact h1
  · intro hcap
    obtain ⟨s, h1, _, _, h4, _, h6⟩ := mul_spec W NL r a b ha.1 hb.1 hcap
    refine ⟨s, h1, canonicalLimbs_of_sanity s h4.2.1, h4, fun k1 k2 => ?_⟩
    have := h6 k1 k2
    omega
  · intro hb0
    obtain ⟨s, h1, _, _, h4, _⟩ := div_spec W NL r a b ha.1 hb.1 hb0
    exact ⟨s, h1, canonicalLimbs_of_sanity s h4.2.1, h4⟩
  · have hm0 : limbsVal W m.data ≠ 0 := by
      intro h
      unfold secp256k1_num_t.toInt at hmpos
      rw [h] at hmpos
      simp at hmpos
    obtain ⟨s, h1, _, _, h4⟩ := mod_spec W NL a m ha.1 hm.1 hm0
    exact ⟨s, h1, canonicalLimbs_of_sanity s h4.2.1, h4⟩
  · intro hcap
    obtain ⟨s, h1, _, _, h4⟩ := inc_spec W NL hW a ha.1 hcap
    exact ⟨s, h1, canonicalLimbs_of_sanity s h4.2.1, h4⟩
  · obtain ⟨rl, rh, h1, _, _, _, _, h6, h7⟩ := split_spec W NL hW r r2 a bits ha.1 hbits
    exact ⟨rl, rh, h1, canonicalLimbs_of_sanity rl h6.2.1, canonicalLimbs_of_sanity rh h7.2.1,
      h6, h7⟩

/-- Witness of C19 at `a = -(2^64 + 3)`, `b = 7`, `m = 5`, `bits = 3`: the product. -/
theorem C19_canonical_preserved_witness :
    0 < 64 ∧ Canonical 64 4 { data := [3, 1], neg := true } ∧
    Canonical 64 4 { data := [7], neg := false } ∧
    Canonical 64 4 { data := [5], neg := false } ∧
    0 < secp256k1_num_t.toInt 64 { data := [5], neg := false } ∧ 0 < 3 ∧
    limbsVal 64 [3, 1] * limbsVal 64 [7] < (2 ^ 64) ^ (2 * 4) ∧
    ∃ s, secp256k1_num_mul 64 4 { data := [0], neg := false } { data := [3, 1], neg := true }
        { data := [7], neg := false } = some s ∧ CanonicalLimbs s ∧ Sane 64 4 s ∧
      (limbsVal 64 [3, 1] ≠ 0 → limbsVal 64 [7] ≠ 0 →
        s.limbs = 2 + 1 ∨ s.limbs = 2 + 1 - 1) :=
  ⟨by decide, by decide, by decide, by decide, by decide, by decide, by decide,
    (C19_canonical_preserved 64 4 (by decide) { data := [0], neg := false }
      { data := [0], neg := false } { data := [3, 1], neg := true } { data := [7], neg := false }
      { data := [5], neg := false } 3 (by decide) (by decide) (by decide) (by decide)
      (by decide)).2.2.1 (by decide)⟩

theorem bitsLoop_zero (fuel ret : Nat) : bitsLoop fuel 0 ret = ret := by
  cases fuel <;> simp [bitsLoop]

/-- On a non-zero limb the loop of `secp256k1_num_bits` counts up to its highest set bit. -/
theorem bitsLoop_lower (fuel x ret : Nat) (hx : x < 2 ^ fuel) (h0 : x ≠ 0) :
    ret + 1 ≤ bitsLoop fuel x ret ∧ 2 ^ (bitsLoop fuel x ret - ret - 1) ≤ x ∧
    bitsLoop fuel x ret - ret ≤ fuel := by
  induction fuel generalizing x ret with
  | zero =>
    simp only [pow_zero] at hx
    omega
  | succ f ih =>
    simp only [bitsLoop]
    rw [if_pos h0, Nat.shiftRight_eq_div_pow, pow_one]
    by_cases h1 : x / 2 = 0
    · rw [h1, bitsLoop_zero]
      refine ⟨le_refl _, ?_, by omega⟩
      have : ret + 1 - ret - 1 = 0 := by omega
      rw [this, pow_zero]
      omega
    · have hx2 : x / 2 < 2 ^ f := by
        rw [pow_succ] at hx
        omega
      obtain ⟨k1, k2, k3⟩ := ih (x / 2) (ret + 1) hx2 h1
      refine ⟨by omega, ?_, by omega⟩
      have e : bitsLoop f (x / 2) (ret + 1) - ret - 1
          = (bitsLoop f (x / 2) (ret + 1) - (ret + 1) - 1) + 1 := by omega
      rw [e, pow_succ]
      omega

theorem getD_concat_length (L : List Nat) (b : Nat) : (L ++ [b]).getD L.length 0 = b := by
  have := getD_last_eq_getLastD (L ++ [b])
  rw [getLastD_concat_eq] at this
  simp only [List.length_append, List.length_singleton, Nat.add_sub_cancel] at this
  exact this

theorem exists_concat_of_ne_nil (l : List Nat) (h : l ≠ []) : ∃ L b, l = L ++ [b] := by
  induction l using List.reverseRecOn with
  | nil => exact absurd rfl h
  | append_singleton L b _ => exact ⟨L, b, rfl⟩

/-- Reading a bit of the most significant limb with `secp256k1_num_get_bit`. -/
theorem get_bit_top (W : Nat) (L : List Nat) (b : Nat) (n : Bool) (pos : Nat)
    (h1 : L.length * W ≤ pos) (h2 : pos < (L.length + 1) * W) :
    secp256k1_num_get_bit W { data := L ++ [b], neg := n } pos
      = (b / 2 ^ (pos - L.length * W)) % 2 := by
  have hdiv : pos / W = L.length := Nat.div_eq_of_lt_le h1 h2
  have hmod : pos % W = pos - L.length * W := by
    have := Nat.div_add_mod pos W
    rw [hdiv, Nat.mul_comm] at this
    omega
  have hg : (L ++ [b]).length * W > pos := by simpa using h2
  unfold secp256k1_num_get_bit secp256k1_num_t.limbs secp256k1_num_t.limb
  simp only [hdiv, hmod, getD_concat_length, Nat.shiftRight_eq_div_pow, Nat.and_one_is_mod]
  rcases Nat.mod_two_eq_zero_or_one (b / 2 ^ (pos - L.length * W)) with h | h
  · rw [h, if_neg (by simp)]
  · rw [h, if_pos ⟨hg, by simp⟩]

/-- Reading a bit beyond the limbs in use with `secp256k1_num_get_bit`. -/
theorem get_bit_beyond (W : Nat) (a : secp256k1_num_t) (pos : Nat) (h : a.limbs * W ≤ pos) :
    secp256k1_num_get_bit W a pos = 0 := by
  unfold secp256k1_num_get_bit
  rw [if_neg (by omega)]

/-- C17: for every `a` in canonical limb form, `secp256k1_num_bits a` is the index of the
highest set bit plus one as `secp256k1_num_get_bit` reads it: it is `0` for the zero value; for
non-zero `a` the bit at position `bits - 1` is `1` and `2^(bits-1) ≤ |a| < 2^bits`; and every
position `p ≥ bits` reads `0`, also beyond the limbs in use. -/
theorem C17_bits_highest_set_bit (W NL : Nat) (a : secp256k1_num_t) (ha : Sane W NL a) :
    (limbsVal W a.data = 0 → secp256k1_num_bits W a = 0) ∧
    (limbsVal W a.data ≠ 0 →
      secp256k1_num_get_bit W a (secp256k1_num_bits W a - 1) = 1 ∧
      2 ^ (secp256k1_num_bits W a - 1) ≤ limbsVal W a.data) ∧
    limbsVal W a.data < 2 ^ secp256k1_num_bits W a ∧
    (∀ p, secp256k1_num_bits W a ≤ p → secp256k1_num_get_bit W a p = 0) ∧
    secp256k1_num_bits W { data := [0], neg := false } = 0 := by
  have hupper := mag_lt_two_pow_bits W a ha.1
  have hs := (sanity_iff a).mp ha.2.1
  have hzero := data_eq_zero_of_val_eq_zero W NL a ha
  obtain ⟨d, n⟩ := a
  simp only at hs hupper hzero ⊢
  have hok : LimbsOk W d := ha.1
  obtain ⟨L, b, rfl⟩ := exists_concat_of_ne_nil d hs.1
  have hb : b < 2 ^ W := (limbsOk_append.mp hok).2 b (List.mem_singleton_self b)
  have hbits : secp256k1_num_bits W { data := L ++ [b], neg := n }
      = bitsLoop W b (L.length * W) := by
    unfold secp256k1_num_bits secp256k1_num_t.limbs secp256k1_num_t.limb
    simp only [List.length_append, List.length_singleton, Nat.add_sub_cancel,
      getD_concat_length]
  obtain ⟨u1, u2⟩ := bitsLoop_spec W b (L.length * W) hb
  have hsucc : (L.length + 1) * W = L.length * W + W := Nat.succ_mul _ _
  have hval : limbsVal W (L ++ [b]) = limbsVal W L + (2 ^ W) ^ L.length * b := by
    rw [limbsVal_append]; simp [limbsVal]
  have hpw : (2 ^ W) ^ L.length = 2 ^ (L.length * W) := by
    rw [← pow_mul, Nat.mul_comm]
  have htop : limbsVal W (L ++ [b]) ≠ 0 → b ≠ 0 := by
    intro hv
    have := getLastD_ne_zero W (L ++ [b]) hs.2 hv
    rw [getLastD_concat_eq] at this
    exact this
  rw [hbits] at hupper ⊢
  refine ⟨?_, ?_, hupper, ?_, ?_⟩
  · intro hv
    have hd := hzero hv
    have hlen := congrArg List.length hd
    simp only [List.length_append, List.length_singleton] at hlen
    have hL : L = [] := List.length_eq_zero.mp (by omega)
    subst hL
    simp only [List.nil_append, List.cons.injEq, and_true] at hd
    subst hd
    rw [bitsLoop_zero]
    simp
  · intro hv
    have hb0 := htop hv
    obtain ⟨k1, k2, k3⟩ := bitsLoop_lower W b (L.length * W) hb hb0
    constructor
    · rw [get_bit_top W L b n _ (by omega) (by omega)]
      have e : bitsLoop W b (L.length * W) - L.length * W
          = (bitsLoop W b (L.length * W) - 1 - L.length * W) + 1 := by omega
      have e2 : bitsLoop W b (L.length * W) - L.length * W - 1
          = bitsLoop W b (L.length * W) - 1 - L.length * W := by omega
      rw [e, pow_succ] at u2
      rw [e2] at k2
      have hq : b / 2 ^ (bitsLoop W b (L.length * W) - 1 - L.length * W) = 1 := by
        apply Nat.div_eq_of_lt_le
        · rw [Nat.one_mul]; exact k2
        · omega
      rw [hq]
    · have e : bitsLoop W b (L.length * W) - 1
          = L.length * W + (bitsLoop W b (L.length * W) - L.length * W - 1) := by omega
      rw [hval, hpw, e, pow_add]
      have := Nat.mul_le_mul_left (2 ^ (L.length * W)) k2
      omega
  · intro p hp
    by_cases hbe : (L.length + 1) * W ≤ p
    · apply get_bit_beyond
      simpa [secp256k1_num_t.limbs] using hbe
    · rw [get_bit_top W L b n p (by omega) (by omega)]
      have hlt : b < 2 ^ (p - L.length * W) :=
        lt_of_lt_of_le u2 (Nat.pow_le_pow_right (by decide) (by omega))
      rw [Nat.div_eq_of_lt hlt]
  · unfold secp256k1_num_bits secp256k1_num_t.limbs secp256k1_num_t.limb
    simp [bitsLoop_zero]

/-- Witness of C17 at `a = -(22 + 4·2^64)`. -/
theorem C17_bits_highest_set_bit_witness :
    Sane 64 4 { data := [22, 4], neg := true } ∧
    secp256k1_num_bits 64 { data := [22, 4], neg := true } = 67 ∧
    (limbsVal 64 [22, 4] ≠ 0 →
      secp256k1_num_get_bit 64 { data := [22, 4], neg := true }
        (secp256k1_num_bits 64 { data := [22, 4], neg := true } - 1) = 1 ∧
      2 ^ (secp256k1_num_bits 64 { data := [22, 4], neg := true } - 1) ≤ limbsVal 64 [22, 4]) :=
  ⟨by decide, by decide,
    (C17_bits_highest_set_bit 64 4 { data := [22, 4], neg := true } (by decide)).2.1⟩

theorem wrapInt_of_lt (x : Int) (h0 : 0 ≤ x) (h1 : x < 2 ^ 31) : wrapInt x = x := by
  unfold wrapInt INT_BITS
  norm_num
  omega

/-- Shifting: for `0 < bits < W`, `secp256k1_num_shift` leaves the magnitude divided by
`2^bits` in canonical limb form, keeps the flag, and returns the low `bits` bits of the
magnitude converted to `int`. -/
theorem shift_spec (W NL : Nat) (r : secp256k1_num_t) (bits : Nat)
    (hr : Sane W NL r) (h0 : 0 < bits) (hb : bits < W) :
    ∃ s, secp256k1_num_shift W r bits
        = some (s, wrapInt ((limbsVal W r.data % 2 ^ bits : Nat) : Int)) ∧
      limbsVal W s.data = limbsVal W r.data / 2 ^ bits ∧ s.neg = r.neg ∧ Sane W NL s := by
  have hB := two_pow_pos W
  have hrs := (sanity_iff r).mp hr.2.1
  have hl : 1 ≤ r.data.length := List.length_pos.mpr hrs.1
  have hcap := hr.2.2
  unfold secp256k1_num_t.limbs at hcap
  have hv := limbsVal_lt W _ hr.1
  have hq : limbsVal W r.data / 2 ^ bits < (2 ^ W) ^ r.data.length :=
    lt_of_le_of_lt (Nat.div_le_self _ _) hv
  have hret : (limbsVal W r.data % 2 ^ bits * 2 ^ (W - bits)) >>> (W - bits)
      = limbsVal W r.data % 2 ^ bits := by
    rw [Nat.shiftRight_eq_div_pow, Nat.mul_div_cancel _ (Nat.pos_pow_of_pos _ (by decide))]
  have hne : toLimbs W r.data.length (limbsVal W r.data / 2 ^ bits) ≠ [] := by
    intro h
    have := congrArg List.length h
    rw [toLimbs_length, List.length_nil] at this
    omega
  have htrim : trimOnce (toLimbs W r.data.length (limbsVal W r.data / 2 ^ bits))
      = trim (toLimbs W r.data.length (limbsVal W r.data / 2 ^ bits)) := by
    by_cases h2 : 2 ≤ r.data.length
    · apply trimOnce_eq_trim W _ (toLimbs_ok W _ _) (by rw [toLimbs_length]; exact h2)
      rw [toLimbs_length, limbsVal_toLimbs, Nat.mod_eq_of_lt hq,
        Nat.le_div_iff_mul_le (Nat.pos_pow_of_pos _ (by decide))]
      have h3 := limbsVal_ge_of_trim W r.data hrs.2 (by omega)
      have h4 : (2 ^ W) ^ (r.data.length - 1) = (2 ^ W) ^ (r.data.length - 2) * 2 ^ W := by
        rw [← pow_succ]; congr 1; omega
      have h5 : 2 ^ bits ≤ 2 ^ W := Nat.pow_le_pow_right (by decide) (le_of_lt hb)
      calc (2 ^ W) ^ (r.data.length - 2) * 2 ^ bits
          ≤ (2 ^ W) ^ (r.data.length - 2) * 2 ^ W := Nat.mul_le_mul_left _ h5
        _ = (2 ^ W) ^ (r.data.length - 1) := h4.symm
        _ ≤ limbsVal W r.data := h3
    · have h1 : r.data.length = 1 := by omega
      rw [h1]
      simp [toLimbs, trimOnce, trim, trimMsb]
  have hpre : 1 ≤ bits ∧ bits < W ∧ 1 ≤ r.data.length := ⟨h0, hb, hl⟩
  simp only [secp256k1_num_shift, if_pos (le_of_lt hb), mpn_rshift, if_pos hpre, hret, htrim]
  refine ⟨_, rfl, ?_, rfl, sane_trim W NL _ _ (toLimbs_ok W _ _) hne
    (by rw [toLimbs_length]; exact hcap)⟩
  rw [limbsVal_trim, limbsVal_toLimbs, Nat.mod_eq_of_lt hq]

/-- C16 as stated fails with 64-bit limbs: for `r = 2^31` and `bits = 32` the low 32 bits of
the magnitude are `2^31`, which the `int` returned by `secp256k1_num_shift` cannot hold; the
value returned is `-2^31`. -/
theorem C16_shift_counterexample :
    Canonical 64 4 { data := [2 ^ 31], neg := false } ∧ 0 < 32 ∧ 32 < 64 ∧
    secp256k1_num_shift 64 { data := [2 ^ 31], neg := false } 32
      = some ({ data := [0], neg := false }, -2 ^ 31) ∧
    ((limbsVal 64 [2 ^ 31] % 2 ^ 32 : Nat) : Int) = 2 ^ 31 := by
  decide

/-- C16 (amended): for every canonical `r` and every `bits` with `0 < bits < W`,
`secp256k1_num_shift` leaves `r` with magnitude `floor(|r| / 2^bits)`, the flag unchanged and a
canonical limb count (one trimming step is enough), and returns the shifted-out bits
`|r| mod 2^bits` converted to `int`; the value returned is `|r| mod 2^bits` itself whenever that
is below `2^31`, in particular whenever `bits ≤ 31`. -/
theorem C16_shift_right (W NL : Nat) (r : secp256k1_num_t) (bits : Nat)
    (hr : Canonical W NL r) (h0 : 0 < bits) (hb : bits < W) :
    ∃ s ret, secp256k1_num_shift W r bits = some (s, ret) ∧
      limbsVal W s.data = limbsVal W r.data / 2 ^ bits ∧ s.neg = r.neg ∧
      Sane W NL s ∧ CanonicalLimbs s ∧
      ret = wrapInt ((limbsVal W r.data % 2 ^ bits : Nat) : Int) ∧
      (limbsVal W r.data % 2 ^ bits < 2 ^ 31 →
        ret = ((limbsVal W r.data % 2 ^ bits : Nat) : Int)) ∧
      (bits ≤ 31 → ret = ((limbsVal W r.data % 2 ^ bits : Nat) : Int)) := by
  obtain ⟨s, h1, h2, h3, h4⟩ := shift_spec W NL r bits hr.1 h0 hb
  have hsmall : limbsVal W r.data % 2 ^ bits < 2 ^ 31 →
      wrapInt ((limbsVal W r.data % 2 ^ bits : Nat) : Int)
        = ((limbsVal W r.data % 2 ^ bits : Nat) : Int) := by
    intro h
    apply wrapInt_of_lt _ (by omega)
    exact_mod_cast h
  refine ⟨s, _, h1, h2, h3, h4, canonicalLimbs_of_sanity s h4.2.1, rfl, hsmall, ?_⟩
  intro hle
  apply hsmall
  calc limbsVal W r.data % 2 ^ bits < 2 ^ bits := Nat.mod_lt _ (Nat.pos_pow_of_pos _ (by decide))
    _ ≤ 2 ^ 31 := Nat.pow_le_pow_right (by decide) hle

/-- Witness of C16 (amended) at `r = -(22 + 4·2^64)`, `bits = 2`. -/
theorem C16_shift_right_witness :
    Canonical 64 4 { data := [22, 4], neg := true } ∧ 0 < 2 ∧ 2 < 64 ∧
    ∃ s ret, secp256k1_num_shift 64 { data := [22, 4], neg := true } 2 = some (s, ret) ∧
      limbsVal 64 s.data = limbsVal 64 [22, 4] / 2 ^ 2 ∧ s.neg = true ∧
      Sane 64 4 s ∧ CanonicalLimbs s ∧
      ret = wrapInt ((limbsVal 64 [22, 4] % 2 ^ 2 : Nat) : Int) ∧
      (limbsVal 64 [22, 4] % 2 ^ 2 < 2 ^ 31 →
        ret = ((limbsVal 64 [22, 4] % 2 ^ 2 : Nat) : Int)) ∧
      (2 ≤ 31 → ret = ((limbsVal 64 [22, 4] % 2 ^ 2 : Nat) : Int)) :=
  ⟨by decide, by decide, by decide,
    C16_shift_right 64 4 { data := [22, 4], neg := true } 2 (by decide) (by decide)
      (by decide)⟩

theorem toLimbs_zero (W n : Nat) : toLimbs W n 0 = List.replicate n 0 := by
  induction n with
  | zero => rfl
  | succ n ih => simp [toLimbs, ih, List.replicate_succ]

theorem normalize_toLimbs_zero (W n : Nat) : mpn_normalize (toLimbs W n 0) = [] := by
  rw [toLimbs_zero]
  induction n with
  | zero => rfl
  | succ n ih =>
    rw [List.replicate_succ', mpn_normalize_concat, if_pos rfl, ih]

/-- For coprime `U` and `V ≠ 0` the cofactor of `mpn_gcdext` is below `V` in absolute value. -/
theorem gcdextCofactor_natAbs_lt (U V : Nat) (hV : V ≠ 0) (hg : Nat.gcd U V = 1) :
    (gcdextCofactor U V).natAbs < V := by
  by_cases h2 : 2 ≤ V
  · exact (gcdextCofactor_spec U V h2 hg).2.2
  · have h1 : V = 1 := by omega
    subst h1
    simp [gcdextCofactor, Nat.mod_one]

/-- Modular inverse, the coefficient: for a canonical modulus `m` of magnitude at least `2` and
at most `NUM_LIMBS` limbs and a canonical `a` coprime to `m` with no more limbs than `m`,
`secp256k1_num_mod_inverse` returns the cofactor `S` of `mpn_gcdext` when it is not negative
and `|m| + S` when it is, as the magnitude, and the xor of the flags of `a` and `m` as the
flag. -/
theorem mod_inverse_coeff (W NL : Nat) (hW : 0 < W) (r a m : secp256k1_num_t)
    (ha : Sane W NL a) (hm : Sane W NL m) (hm2 : 2 ≤ limbsVal W m.data)
    (hmcap : m.limbs ≤ NL) (hal : a.limbs ≤ m.limbs)
    (hg : Nat.gcd (limbsVal W a.data) (limbsVal W m.data) = 1) :
    ∃ s, secp256k1_num_mod_inverse W NL r a m = some s ∧ s.neg = xor a.neg m.neg ∧
      (limbsVal W s.data : Int)
        = (if gcdextCofactor (limbsVal W a.data) (limbsVal W m.data) < 0
           then (limbsVal W m.data : Int) + gcdextCofactor (limbsVal W a.data) (limbsVal W m.data)
           else gcdextCofactor (limbsVal W a.data) (limbsVal W m.data)) ∧
      limbsVal W s.data < limbsVal W m.data := by
  have hB := two_pow_pos W
  have hm0 : limbsVal W m.data ≠ 0 := by omega
  have hms := (sanity_iff m).mp hm.2.1
  have hlm : 1 ≤ m.data.length := List.length_pos.mpr hms.1
  have htop := getLastD_ne_zero W m.data hms.2 hm0
  have htop2 : m.limb (m.limbs - 1) ≠ 0 := by
    unfold secp256k1_num_t.limb secp256k1_num_t.limbs
    rw [getD_last_eq_getLastD]; exact htop
  have hmcap2 := hmcap
  unfold secp256k1_num_t.limbs at hmcap hal
  have hvm := limbsVal_lt W _ hm.1
  obtain ⟨_, hz, hc3⟩ := gcdextCofactor_spec (limbsVal W a.data) (limbsVal W m.data) hm2 hg
  have hu : (List.range m.limbs).map (fun i => if i < a.limbs then a.limb i else 0)
      = a.data ++ List.replicate (m.data.length - a.data.length) 0 :=
    range_map_pad a.data m.data.length hal
  have hv : (List.range m.limbs).map (fun i => m.limb i) = m.data := range_map_limb m.data
  have huv : limbsVal W (a.data ++ List.replicate (m.data.length - a.data.length) 0)
      = limbsVal W a.data := by
    rw [limbsVal_append, limbsVal_replicate_zero, Nat.mul_zero, Nat.add_zero]
  have hul : m.data.length ≤ (a.data ++ List.replicate (m.data.length - a.data.length) 0).length := by
    simp; omega
  have hua : limbsVal W a.data ≠ 0 := by
    intro h0
    rw [h0, Nat.gcd_zero_left] at hg
    omega
  have hpre1 : m.data.length ≤ (a.data ++ List.replicate (m.data.length - a.data.length) 0).length
      ∧ 1 ≤ m.data.length ∧ m.data.getLastD 0 ≠ 0
      ∧ limbsVal W (a.data ++ List.replicate (m.data.length - a.data.length) 0) ≠ 0 :=
    ⟨hul, hlm, htop, by rw [huv]; exact hua⟩
  have hpre2 : m.data.length ≤ (a.data ++ List.replicate (m.data.length - a.data.length) 0).length
      ∧ 1 ≤ m.data.length ∧ m.data.getLastD 0 ≠ 0 ∧ limbsVal W a.data ≠ 0 :=
    ⟨hul, hlm, htop, hua⟩
  simp only [secp256k1_num_mod_inverse, ha.2.1, hm.2.1, Bool.and_self, if_true, hu, hv,
    mpn_gcdext, if_pos hpre1, if_pos hpre2, huv, hg,
    normalize_toLimbs_one W hW _ hlm, List.length_singleton, List.getD_cons_zero, and_self,
    if_pos (And.intro hmcap2 htop2)]
  have hclt : (gcdextCofactor (limbsVal W a.data) (limbsVal W m.data)).natAbs
      < (2 ^ W) ^ m.data.length := lt_trans hc3 hvm
  obtain ⟨hs1, _, hs3⟩ := normalize_toLimbs_spec W NL (m.data.length + 1)
    (gcdextCofactor (limbsVal W a.data) (limbsVal W m.data)).natAbs m.data.length
    (by omega) hclt (by omega) (by omega) (xor a.neg m.neg)
  by_cases hneg : gcdextCofactor (limbsVal W a.data) (limbsVal W m.data) < 0
  · have hle : limbsVal W (mpn_normalize (toLimbs W (m.data.length + 1)
        (gcdextCofactor (limbsVal W a.data) (limbsVal W m.data)).natAbs))
        ≤ limbsVal W m.data := by
      rw [hs1]; omega
    have hle2 : (gcdextCofactor (limbsVal W a.data) (limbsVal W m.data)).natAbs
        ≤ limbsVal W m.data := by omega
    simp only [hneg, decide_True, if_true, mpn_sub, if_pos hs3, if_pos hle, hs1, if_pos hle2]
    have hval : limbsVal W (trim (toLimbs W m.data.length (limbsVal W m.data
        - (gcdextCofactor (limbsVal W a.data) (limbsVal W m.data)).natAbs)))
        = limbsVal W m.data
          - (gcdextCofactor (limbsVal W a.data) (limbsVal W m.data)).natAbs := by
      rw [limbsVal_trim, limbsVal_toLimbs]
      exact Nat.mod_eq_of_lt (by omega)
    refine ⟨_, rfl, rfl, ?_, ?_⟩
    · show ((limbsVal W (trim _) : Nat) : Int) = _
      rw [hval]; omega
    · show limbsVal W (trim _) < _
      rw [hval]; omega
  · simp only [hneg, decide_False, Bool.false_eq_true, if_false]
    refine ⟨_, rfl, rfl, ?_, ?_⟩
    · show ((limbsVal W (mpn_normalize _) : Nat) : Int) = _
      rw [hs1]; omega
    · show limbsVal W (mpn_normalize _) < _
      rw [hs1]; omega

/-- C11 as stated fails, with 64-bit limbs and `NUM_LIMBS = 4`: for `a = -3` and `m = 11` the
value produced is `-4` (magnitude `4`, flag set), which is negative; for `a = 2^64 + 3` and
`m = 3`, which are coprime, no value is produced, the inverse being attempted on the low limb
`3` of `a`; for `a = 0` and `m = 1`, coprime as well, no value is produced, `mpn_gcdext` being
called with `U = 0`; and for `a = 5` and `m = 1` the result has no limb at all, which is not a
number in the sense of `secp256k1_num_sanity`. -/
theorem C11_mod_inverse_counterexample :
    (Canonical 64 4 { data := [3], neg := true } ∧
     Canonical 64 4 { data := [11], neg := false } ∧
     Nat.gcd (limbsVal 64 [3]) (limbsVal 64 [11]) = 1 ∧
     secp256k1_num_mod_inverse 64 4 { data := [0], neg := false }
       { data := [3], neg := true } { data := [11], neg := false }
       = some { data := [4], neg := true } ∧
     secp256k1_num_is_neg { data := [4], neg := true } = true ∧
     secp256k1_num_t.toInt 64 { data := [4], neg := true } < 0) ∧
    (Canonical 64 4 { data := [3, 1], neg := false } ∧
     Canonical 64 4 { data := [3], neg := false } ∧
     Nat.gcd (limbsVal 64 [3, 1]) (limbsVal 64 [3]) = 1 ∧
     secp256k1_num_mod_inverse 64 4 { data := [0], neg := false }
       { data := [3, 1], neg := false } { data := [3], neg := false } = none) ∧
    (Canonical 64 4 { data := [0], neg := false } ∧
     Canonical 64 4 { data := [1], neg := false } ∧
     Nat.gcd (limbsVal 64 [0]) (limbsVal 64 [1]) = 1 ∧
     secp256k1_num_mod_inverse 64 4 { data := [0], neg := false }
       { data := [0], neg := false } { data := [1], neg := false } = none) ∧
    (Canonical 64 4 { data := [5], neg := false } ∧
     Nat.gcd (limbsVal 64 [5]) (limbsVal 64 [1]) = 1 ∧
     secp256k1_num_mod_inverse 64 4 { data := [0], neg := false }
       { data := [5], neg := false } { data := [1], neg := false }
       = some { data := [], neg := false } ∧
     secp256k1_num_t.limbs { data := [], neg := false } = 0 ∧
     secp256k1_num_sanity { data := [], neg := false } = false) := by
  decide

/-- C11 (amended): for every canonical `a` of either sign and every canonical modulus `m` of
magnitude at least `2` and at most `NUM_LIMBS` limbs, with `gcd(|a|, |m|) = 1` and `a` of no
more limbs than `m`, `secp256k1_num_mod_inverse` returns a number in canonical limb form whose
magnitude is normalized into `[0, |m|)`, a negative extended-Euclid coefficient having been
replaced by `|m|` plus that coefficient, and whose flag is `a.neg XOR m.neg`: the value
produced is in `[0, |m|)` when the flags of `a` and `m` agree and in `(-|m|, 0]` when they
differ. -/
theorem C11_mod_inverse_range (W NL : Nat) (hW : 0 < W) (r a m : secp256k1_num_t)
    (ha : Canonical W NL a) (hm : Canonical W NL m) (hm2 : 2 ≤ limbsVal W m.data)
    (hmcap : m.limbs ≤ NL) (hal : a.limbs ≤ m.limbs)
    (hg : Nat.gcd (limbsVal W a.data) (limbsVal W m.data) = 1) :
    ∃ s, secp256k1_num_mod_inverse W NL r a m = some s ∧
      limbsVal W s.data < limbsVal W m.data ∧
      (limbsVal W s.data : Int)
        = (if gcdextCofactor (limbsVal W a.data) (limbsVal W m.data) < 0
           then (limbsVal W m.data : Int) + gcdextCofactor (limbsVal W a.data) (limbsVal W m.data)
           else gcdextCofactor (limbsVal W a.data) (limbsVal W m.data)) ∧
      s.neg = xor a.neg m.neg ∧
      (a.neg = m.neg → 0 ≤ s.toInt W ∧ s.toInt W < (limbsVal W m.data : Int)) ∧
      (a.neg ≠ m.neg → -(limbsVal W m.data : Int) < s.toInt W ∧ s.toInt W ≤ 0) ∧
      Sane W NL s ∧ CanonicalLimbs s := by
  obtain ⟨s, h1, h2, h3, h4⟩ := mod_inverse_coeff W NL hW r a m ha.1 hm.1 hm2 hmcap hal hg
  obtain ⟨s2, k1, _, _, _, _, k6, _⟩ := mod_inverse_spec W NL hW r a m ha.1 hm.1 hm2 hmcap hal hg
  have hss : s2 = s := by
    rw [k1] at h1
    exact Option.some.inj h1
  rw [hss] at k6
  refine ⟨s, h1, h4, h3, h2, ?_, ?_, k6, canonicalLimbs_of_sanity s k6.2.1⟩
  · intro he
    have hn : s.neg = false := by rw [h2, he]; simp
    unfold secp256k1_num_t.toInt
    rw [hn]
    simp only [Bool.false_eq_true, if_false]
    omega
  · intro hne
    have hn : s.neg = true := by
      rw [h2]
      cases hna : a.neg <;> cases hnm : m.neg <;> simp_all
    unfold secp256k1_num_t.toInt
    rw [hn]
    simp only [if_true]
    omega

/-- Witness of C11 (amended) at `a = -7`, `m = 2^64 + 3`. -/
theorem C11_mod_inverse_range_witness :
    0 < 64 ∧ Canonical 64 4 { data := [7], neg := true } ∧
    Canonical 64 4 { data := [3, 1], neg := false } ∧ 2 ≤ limbsVal 64 [3, 1] ∧
    secp256k1_num_t.limbs { data := [3, 1], neg := false } ≤ 4 ∧
    secp256k1_num_t.limbs { data := [7], neg := true }
      ≤ secp256k1_num_t.limbs { data := [3, 1], neg := false } ∧
    Nat.gcd (limbsVal 64 [7]) (limbsVal 64 [3, 1]) = 1 ∧
    ∃ s, secp256k1_num_mod_inverse 64 4 { data := [0], neg := false }
        { data := [7], neg := true } { data := [3, 1], neg := false } = some s ∧
      limbsVal 64 s.data < limbsVal 64 [3, 1] ∧
      (limbsVal 64 s.data : Int)
        = (if gcdextCofactor (limbsVal 64 [7]) (limbsVal 64 [3, 1]) < 0
           then (limbsVal 64 [3, 1] : Int) + gcdextCofactor (limbsVal 64 [7]) (limbsVal 64 [3, 1])
           else gcdextCofactor (limbsVal 64 [7]) (limbsVal 64 [3, 1])) ∧
      s.neg = xor true false ∧
      (true = false → 0 ≤ s.toInt 64 ∧ s.toInt 64 < (limbsVal 64 [3, 1] : Int)) ∧
      (true ≠ false → -(limbsVal 64 [3, 1] : Int) < s.toInt 64 ∧ s.toInt 64 ≤ 0) ∧
      Sane 64 4 s ∧ CanonicalLimbs s :=
  ⟨by decide, by decide, by decide, by decide, by decide, by decide, by decide,
    C11_mod_inverse_range 64 4 (by decide) { data := [0], neg := false }
      { data := [7], neg := true } { data := [3, 1], neg := false } (by decide) (by decide)
      (by decide) (by decide) (by decide) (by decide)⟩

theorem digitsVal_foldl_lt (base : Nat) (str : List Nat) (h : ∀ x ∈ str, x < base)
    (acc : Nat) :
    str.foldl (fun acc d => acc * base + d) acc < (acc + 1) * base ^ str.length := by
  induction str generalizing acc with
  | nil => simp
  | cons d t ih =>
    have hd : d < base := h d (List.mem_cons_self _ _)
    have ht := ih (fun x hx => h x (List.mem_cons_of_mem _ hx)) (acc * base + d)
    simp only [List.foldl_cons, List.length_cons, pow_succ]
    calc t.foldl (fun acc d => acc * base + d) (acc * base + d)
        < (acc * base + d + 1) * base ^ t.length := ht
      _ ≤ ((acc + 1) * base) * base ^ t.length :=
          Nat.mul_le_mul_right _ (by rw [Nat.add_mul, Nat.one_mul]; omega)
      _ = (acc + 1) * (base ^ t.length * base) := by ring

theorem digitsVal_lt (base : Nat) (str : List Nat) (h : ∀ x ∈ str, x < base) :
    digitsVal base str < base ^ str.length := by
  have := digitsVal_foldl_lt base str h 0
  simpa [digitsVal] using this

/-- Parsing bytes: for `1..64` bytes, in a number type that holds 512 bits,
`secp256k1_num_set_bin` returns a number with the flag clear whose magnitude is the big-endian
integer of the bytes; it is in canonical limb form unless the bytes are all zero and fewer than
a limb, in which case it has no limb at all. -/
theorem set_bin_spec (W NL : Nat) (hW : 0 < W) (r : secp256k1_num_t) (a : List Nat)
    (hbytes : ∀ x ∈ a, x < 256) (h1 : 0 < a.length) (h64 : a.length ≤ 64)
    (hcap : 512 ≤ 2 * NL * W) :
    ∃ s, secp256k1_num_set_bin W NL r a = some s ∧ s.neg = false ∧
      limbsVal W s.data = digitsVal 256 a ∧ LimbsOk W s.data ∧ s.limbs ≤ 2 * NL ∧
      (digitsVal 256 a ≠ 0 ∨ W ≤ a.length * 8 → Sane W NL s ∧ CanonicalLimbs s) ∧
      (digitsVal 256 a = 0 → a.length * 8 < W → s.data = []) := by
  have hB := two_pow_pos W
  have hv : digitsVal 256 a < 2 ^ (a.length * 8) := by
    have := digitsVal_lt 256 a hbytes
    have e : (256 : Nat) ^ a.length = 2 ^ (a.length * 8) := by
      rw [Nat.mul_comm, pow_mul]; norm_num
    rw [e] at this
    exact this
  have hsplit : a.length * 8 = W * (a.length * 8 / W) + a.length * 8 % W :=
    (Nat.div_add_mod _ _).symm
  have hpw : (2 ^ W) ^ (a.length * 8 / W) = 2 ^ (W * (a.length * 8 / W)) := by
    rw [← pow_mul]
  have hBpos : 0 < (2 ^ W) ^ (a.length * 8 / W) := Nat.pos_pow_of_pos _ hB
  have hhi : digitsVal 256 a / (2 ^ W) ^ (a.length * 8 / W) < 2 ^ W := by
    rw [Nat.div_lt_iff_lt_mul hBpos]
    calc digitsVal 256 a < 2 ^ (a.length * 8) := hv
      _ = 2 ^ (a.length * 8 % W) * (2 ^ W) ^ (a.length * 8 / W) := by
          rw [hpw, ← pow_add]; congr 1; omega
      _ ≤ 2 ^ W * (2 ^ W) ^ (a.length * 8 / W) :=
          Nat.mul_le_mul_right _ (Nat.pow_le_pow_right (by decide)
            (le_of_lt (Nat.mod_lt _ hW)))
  have hfull : a.length * 8 / W ≤ 2 * NL := by
    calc a.length * 8 / W ≤ (2 * NL * W) / W := Nat.div_le_div_right (by omega)
      _ = 2 * NL := Nat.mul_div_cancel _ hW
  -- the limbs written by mpn_set_str
  have hd : ∃ d, mpn_set_str W a 256 = some d ∧ limbsVal W d = digitsVal 256 a ∧
      LimbsOk W d ∧ d.length ≤ NL * 2 ∧
      (digitsVal 256 a ≠ 0 ∨ W ≤ a.length * 8 → d ≠ []) ∧
      (digitsVal 256 a = 0 → a.length * 8 < W → d = []) := by
    have hbpd : bitsPerDigit 256 = some 8 := rfl
    simp only [mpn_set_str, hbpd, if_pos (show 1 ≤ a.length from h1)]
    by_cases hz : digitsVal 256 a / (2 ^ W) ^ (a.length * 8 / W) = 0
    · have hlt : digitsVal 256 a < (2 ^ W) ^ (a.length * 8 / W) :=
        (Nat.div_eq_zero_iff hBpos).mp hz
      simp only [hz, ne_eq, not_true_eq_false, if_false, List.append_nil]
      refine ⟨_, rfl, ?_, toLimbs_ok W _ _, by rw [toLimbs_length]; omega, ?_, ?_⟩
      · rw [limbsVal_toLimbs, Nat.mod_eq_of_lt hlt]
      · intro hor h
        have hl := congrArg List.length h
        rw [toLimbs_length, List.length_nil] at hl
        rw [hl, pow_zero] at hlt
        rcases hor with h0 | h0
        · omega
        · have := (Nat.div_eq_zero_iff hW).mp hl
          omega
      · intro _ hsmall
        rw [Nat.div_eq_of_lt hsmall]
        rfl
    · have hge : (2 ^ W) ^ (a.length * 8 / W) ≤ digitsVal 256 a := by
        by_contra hlt
        exact hz ((Nat.div_eq_zero_iff hBpos).mpr (by omega))
      have hfl : a.length * 8 / W < 2 * NL := by
        by_contra hcon
        have h2 : W * (2 * NL) ≤ W * (a.length * 8 / W) := Nat.mul_le_mul_left _ (by omega)
        have h3 : 2 ^ (a.length * 8) ≤ 2 ^ (W * (a.length * 8 / W)) :=
          Nat.pow_le_pow_right (by decide) (by
            have : W * (2 * NL) = 2 * NL * W := by ring
            omega)
        rw [hpw] at hge
        omega
      simp only [ne_eq, hz, not_false_eq_true, if_true]
      refine ⟨_, rfl, ?_, ?_, ?_, fun _ => by simp, ?_⟩
      · rw [limbsVal_append, limbsVal_toLimbs, toLimbs_length]
        simp only [limbsVal, Nat.mul_zero, Nat.add_zero]
        exact Nat.mod_add_div _ _
      · apply limbsOk_append.mpr ⟨toLimbs_ok W _ _, ?_⟩
        intro x hx
        simp only [List.mem_singleton] at hx
        rw [hx]; exact hhi
      · rw [List.length_append, toLimbs_length, List.length_singleton]; omega
      · intro h0
        rw [h0] at hge
        have := Nat.pos_pow_of_pos (a.length * 8 / W) hB
        omega
  obtain ⟨d, hd1, hd2, hd3, hd4, hd5, hd6⟩ := hd
  simp only [secp256k1_num_set_bin, if_pos (And.intro h1 h64), hd1, if_pos hd4]
  refine ⟨_, rfl, rfl, by rw [limbsVal_trim, hd2], limbsOk_trim W d hd3, ?_, ?_, ?_⟩
  · have := trim_length_le d
    simp only [secp256k1_num_t.limbs]
    omega
  · intro hor
    have hs := sane_trim W NL d false hd3 (hd5 hor) (by omega)
    exact ⟨hs, canonicalLimbs_of_sanity _ hs.2.1⟩
  · intro h0 hsmall
    show trim d = []
    rw [hd6 h0 hsmall]
    rfl

/-- C14 fails at a single zero byte: `mpn_set_str` stores no limb, and
`secp256k1_num_set_bin` returns a number with `limbs = 0`, which fails `secp256k1_num_is_zero`
and `secp256k1_num_sanity` (with 64-bit limbs, and with 32-bit limbs alike); 32 zero bytes give
the single limb `0`, and non-zero bytes parse to their big-endian value. -/
theorem C14_set_bin_zero_byte_fails :
    secp256k1_num_set_bin 64 4 { data := [0], neg := false } [0]
      = some { data := [], neg := false } ∧
    secp256k1_num_t.limbs { data := [], neg := false } = 0 ∧
    secp256k1_num_is_zero { data := [], neg := false } = false ∧
    secp256k1_num_sanity { data := [], neg := false } = false ∧
    secp256k1_num_set_bin 32 8 { data := [0], neg := false } [0]
      = some { data := [], neg := false } ∧
    secp256k1_num_set_bin 64 4 { data := [0], neg := false } (List.replicate 32 0)
      = some { data := [0], neg := false } ∧
    secp256k1_num_is_zero { data := [0], neg := false } = true ∧
    secp256k1_num_set_bin 64 4 { data := [0], neg := false } [1, 2]
      = some { data := [0x0102], neg := false } := by
  decide

theorem wrapInt_neg_of_neg (a : Int) (h1 : -2 ^ 31 < a) (h2 : a < 0) : wrapInt (-a) = -a := by
  apply wrapInt_of_lt <;> omega

/-- For every `int` other than the most negative one, and limbs of at least 31 bits,
`secp256k1_num_set_int` returns the one limb `|a|` with the flag `a < 0`, of signed value
`a`. -/
theorem set_int_spec (W : Nat) (hW : 31 ≤ W) (r : secp256k1_num_t) (a : Int)
    (h1 : -2 ^ 31 < a) (h2 : a < 2 ^ 31) :
    secp256k1_num_set_int W r a = { data := [a.natAbs], neg := decide (a < 0) } ∧
    (secp256k1_num_set_int W r a).toInt W = a := by
  have hp : (2 : Int) ^ 31 ≤ 2 ^ W := by
    have : (2 : Nat) ^ 31 ≤ 2 ^ W := Nat.pow_le_pow_right (by decide) hW
    exact_mod_cast this
  have hlimb : intToLimb W (if a < 0 then wrapInt (-a) else a) = a.natAbs := by
    unfold intToLimb
    by_cases hn : a < 0
    · rw [if_pos hn, wrapInt_neg_of_neg a h1 hn, Int.emod_eq_of_lt (by omega) (by omega)]
      omega
    · rw [if_neg hn, Int.emod_eq_of_lt (by omega) (by omega)]
      omega
  have heq : secp256k1_num_set_int W r a = { data := [a.natAbs], neg := decide (a < 0) } := by
    unfold secp256k1_num_set_int
    rw [hlimb]
  refine ⟨heq, ?_⟩
  rw [heq]
  unfold secp256k1_num_t.toInt
  by_cases hn : a < 0
  · simp only [hn, decide_True, if_true, limbsVal, Nat.mul_zero, Nat.add_zero]
    omega
  · simp only [hn, decide_False, Bool.false_eq_true, if_false, limbsVal, Nat.mul_zero,
      Nat.add_zero]
    omega

/-- C15 fails at the most negative `int` with 64-bit limbs: `-a` leaves the range of `int`
(in two's complement it is `a` again) and its conversion to the limb type is `2^64 - 2^31`, so
`secp256k1_num_set_int` returns a magnitude that is not `|w| = 2^31` and a signed value that is
not `w`; with 32-bit limbs the same conversion happens to give `2^31`. -/
theorem C15_set_int_most_negative_fails :
    secp256k1_num_set_int 64 { data := [0], neg := false } (-2 ^ 31)
      = { data := [2 ^ 64 - 2 ^ 31], neg := true } ∧
    limbsVal 64 (secp256k1_num_set_int 64 { data := [0], neg := false } (-2 ^ 31)).data
      ≠ (-2 ^ 31 : Int).natAbs ∧
    (secp256k1_num_set_int 64 { data := [0], neg := false } (-2 ^ 31)).toInt 64 ≠ -2 ^ 31 ∧
    secp256k1_num_set_int 32 { data := [0], neg := false } (-2 ^ 31)
      = { data := [2 ^ 31], neg := true } ∧
    secp256k1_num_set_int 64 { data := [0], neg := false } (-5) = { data := [5], neg := true } := by
  decide

end Secp256k1Num
